import Mathlib

/-!
# KisumuToyLanguage: lexer, parser and interpreter

A shallow embedding of `lexer/lexer.go`, `parser/parser.go` and
`interpreter/interpreter.go`.

* A Go `string` is a sequence of bytes: `Str = List Nat`, every byte below 256.
* The `Lexer` struct is kept field by field; every method takes the struct and
  returns the updated struct.  The `for` loops of the lexer run on a counter
  that is computed from the input length; the lemmas `*_exits` show that the
  loops leave through their own condition, never through the counter.
* The parser keeps the `Parser` struct (lexer and one token of lookahead).  Its
  mutually recursive methods run on a fuel argument; `PResult.fuelOut` is kept
  apart from every syntax error.
* The interpreter threads the variable store and returns the output events
  (one per `fmt.Printf`/`fmt.Println` call) in order.
-/

namespace Kisumu

/-! ## Strings -/

/-- Go `string`: a sequence of bytes. -/
abbrev Str := List Nat

/-- Bytes of an ASCII string literal. -/
def ascii (s : String) : Str := s.toList.map Char.toNat

/-- Go `string(b)` for a byte `b`: the UTF-8 encoding of the code point `b`
(one byte below 128, two bytes from 128 to 255). -/
def stringOfByte (b : Nat) : Str :=
  if b < 128 then [b] else [192 + b / 64, 128 + b % 64]

/-- Go slice expression `s[a:b]`. -/
def slice (s : Str) (a b : Nat) : Str := (s.drop a).take (b - a)

/-- Go `strings.Split(s, sep)` for a one-byte separator: the pieces between
all occurrences of `sep`; always at least one piece. -/
def Split (s : Str) (sep : Nat) : List Str :=
  match s with
  | [] => [[]]
  | c :: cs =>
    if c = sep then [] :: Split cs sep
    else
      match Split cs sep with
      | [] => [[c]]
      | p :: ps => (c :: p) :: ps

/-- Go `strings.TrimPrefix(s, pre)`. -/
def TrimPrefix (s pre : Str) : Str :=
  if pre.isPrefixOf s then s.drop pre.length else s

/-- UTF-8 encodings of the code points for which Go `unicode.IsSpace` holds:
U+0009..U+000D, U+0020, U+0085, U+00A0, U+1680, U+2000..U+200A, U+2028,
U+2029, U+202F, U+205F, U+3000. -/
def spaceRunes : List Str :=
  [[9], [10], [11], [12], [13], [32], [0xC2, 0x85], [0xC2, 0xA0], [0xE1, 0x9A, 0x80],
   [0xE2, 0x80, 0x80], [0xE2, 0x80, 0x81], [0xE2, 0x80, 0x82], [0xE2, 0x80, 0x83],
   [0xE2, 0x80, 0x84], [0xE2, 0x80, 0x85], [0xE2, 0x80, 0x86], [0xE2, 0x80, 0x87],
   [0xE2, 0x80, 0x88], [0xE2, 0x80, 0x89], [0xE2, 0x80, 0x8A], [0xE2, 0x80, 0xA8],
   [0xE2, 0x80, 0xA9], [0xE2, 0x80, 0xAF], [0xE2, 0x81, 0x9F], [0xE3, 0x80, 0x80]]

/-- Remove one leading occurrence of the first pattern that starts `s`. -/
def stripOne (pats : List Str) (s : Str) : Option Str :=
  match pats with
  | [] => none
  | pat :: rest => if pat.isPrefixOf s then some (s.drop pat.length) else stripOne rest s

/-- Remove leading patterns, at most `n` of them. -/
def stripLeading (pats : List Str) : Nat → Str → Str
  | 0, s => s
  | n + 1, s =>
    match stripOne pats s with
    | none => s
    | some s1 => stripLeading pats n s1

/-- Go `strings.TrimSpace(s)`: the white-space runes at the start are removed
(decoding from the left), then those at the end (decoding from the right).
Every pattern is at least one byte long, so `s.length` rounds remove them all. -/
def TrimSpace (s : Str) : Str :=
  let a := stripLeading spaceRunes s.length s
  (stripLeading (spaceRunes.map List.reverse) a.length a.reverse).reverse

/-- Value of a string of decimal digits, most significant first. -/
def digitsValue (s : Str) : Nat := s.foldl (fun n c => n * 10 + (c - 48)) 0

/-- Go `strconv.Atoi(s)` on a 64-bit platform: an optional sign `+` or `-`,
then one or more decimal digits, the value within the range of `int`;
`none` stands for a non-nil error. -/
def Atoi (s : Str) : Option Int :=
  match s with
  | [] => none
  | c :: rest =>
    let neg := c = 45
    let ds := if c = 45 ∨ c = 43 then rest else s
    if ds = [] then none
    else if ds.all (fun d => 48 ≤ d ∧ d ≤ 57) then
      let v : Int := if neg then -(digitsValue ds : Int) else (digitsValue ds : Int)
      if -(2 ^ 63 : Int) ≤ v ∧ v < 2 ^ 63 then some v else none
    else none

/-! ## lexer/lexer.go -/

/-- The token kinds `TokenKeyword` .. `TokenError`. -/
inductive TokenType where
  | KEYWORD | OPERATOR | IDENT | NUMBER | STRING | EOF | ERROR
  deriving DecidableEq, Repr

/-- The struct `Token`; the field `Type` is spelled `Typ`. -/
structure Token where
  Typ : TokenType
  Literal : Str
  Line : Nat
  Column : Nat
  deriving DecidableEq, Repr

/-- The struct `Lexer`. -/
structure Lexer where
  input : Str
  position : Nat
  readPosition : Nat
  ch : Nat
  line : Nat
  column : Nat
  deriving DecidableEq, Repr

namespace Lexer

/-- Method `readChar`. -/
def readChar (l : Lexer) : Lexer :=
  { l with
    ch := if l.readPosition ≥ l.input.length then 0 else l.input.getD l.readPosition 0
    position := l.readPosition
    readPosition := l.readPosition + 1
    column := l.column + 1 }

/-- Method `peekChar`. -/
def peekChar (l : Lexer) : Nat :=
  if l.readPosition ≥ l.input.length then 0 else l.input.getD l.readPosition 0

/-- Function `isLetter`. -/
def isLetter (ch : Nat) : Bool :=
  (97 ≤ ch && ch ≤ 122) || (65 ≤ ch && ch ≤ 90) || ch = 95

/-- Go `unicode.IsDigit(rune(ch))` for a byte `ch`: in the Latin-1 range the
decimal digits are `'0'..'9'` only. -/
def isDigit (ch : Nat) : Bool := 48 ≤ ch && ch ≤ 57

/-- Loop condition of `skipWhitespace`. -/
def isWhitespace (ch : Nat) : Bool := ch = 32 || ch = 9 || ch = 10 || ch = 13

/-- Number of `readChar` calls after which `ch` is the sentinel 0 for sure. -/
def steps (l : Lexer) : Nat := l.input.length - l.readPosition + 1

/-- The loop of `skipWhitespace`, at most `n` rounds. -/
def skipWhitespaceLoop : Nat → Lexer → Lexer
  | 0, l => l
  | n + 1, l =>
    if isWhitespace l.ch then
      let l1 := if l.ch = 10 then { l with line := l.line + 1, column := 0 } else l
      skipWhitespaceLoop n l1.readChar
    else l

/-- Method `skipWhitespace`. -/
def skipWhitespace (l : Lexer) : Lexer := skipWhitespaceLoop l.steps l

/-- The loop of `readIdentifier`, at most `n` rounds. -/
def readIdentifierLoop : Nat → Lexer → Lexer
  | 0, l => l
  | n + 1, l => if isLetter l.ch || isDigit l.ch then readIdentifierLoop n l.readChar else l

/-- Method `readIdentifier`: the text read and the lexer after it. -/
def readIdentifier (l : Lexer) : Str × Lexer :=
  let l1 := readIdentifierLoop l.steps l
  (slice l.input l.position l1.position, l1)

/-- The loop of `readNumber`, at most `n` rounds. -/
def readNumberLoop : Nat → Lexer → Lexer
  | 0, l => l
  | n + 1, l => if isDigit l.ch then readNumberLoop n l.readChar else l

/-- Method `readNumber`: the text read and the lexer after it. -/
def readNumber (l : Lexer) : Str × Lexer :=
  let l1 := readNumberLoop l.steps l
  (slice l.input l.position l1.position, l1)

/-- The loop of `readString` (the test comes after `readChar`), at most `n`
rounds. -/
def readStringLoop : Nat → Lexer → Lexer
  | 0, l => l
  | n + 1, l =>
    let l1 := l.readChar
    if l1.ch = 34 ∨ l1.ch = 0 then l1 else readStringLoop n l1

/-- Method `readString`: the text read and the lexer after it. -/
def readString (l : Lexer) : Str × Lexer :=
  let l1 := readStringLoop l.steps l
  (slice l.input (l.position + 1) l1.position, l1)

/-- Method `newToken`. -/
def newToken (l : Lexer) (tokenType : TokenType) (literal : Str) : Token :=
  { Typ := tokenType, Literal := literal, Line := l.line, Column := l.column }

/-- The keyword table of `identifierType`. -/
def keywords : List Str :=
  [ascii "declare", ascii "displayln", ascii "if", ascii "case", ascii "otherwise"]

/-- Method `identifierType`. -/
def identifierType (ident : Str) : TokenType :=
  if ident ∈ keywords then TokenType.KEYWORD else TokenType.IDENT

/-- Method `NextToken`: the token and the lexer after the call. -/
def NextToken (l0 : Lexer) : Token × Lexer :=
  let l := l0.skipWhitespace
  if l.ch = 61 then
    if l.peekChar = 61 then
      ({ Typ := TokenType.OPERATOR, Literal := ascii "==", Line := l.line, Column := l.column },
        l.readChar.readChar)
    else (l.newToken TokenType.OPERATOR (stringOfByte l.ch), l.readChar)
  else if l.ch = 62 ∨ l.ch = 60 ∨ l.ch = 40 ∨ l.ch = 41 ∨ l.ch = 123 ∨ l.ch = 125 then
    (l.newToken TokenType.OPERATOR (stringOfByte l.ch), l.readChar)
  else if l.ch = 34 then
    let r := l.readString
    ({ Typ := TokenType.STRING, Literal := r.1, Line := l.line, Column := l.column }, r.2.readChar)
  else if l.ch = 0 then
    ({ Typ := TokenType.EOF, Literal := [], Line := l.line, Column := l.column }, l.readChar)
  else if isLetter l.ch then
    let r := l.readIdentifier
    ({ Typ := identifierType r.1, Literal := r.1, Line := l.line, Column := l.column }, r.2)
  else if isDigit l.ch then
    let r := l.readNumber
    ({ Typ := TokenType.NUMBER, Literal := r.1, Line := l.line, Column := l.column }, r.2)
  else (l.newToken TokenType.ERROR (stringOfByte l.ch), l.readChar)

end Lexer

/-- Function `NewLexer`. -/
def NewLexer (input : Str) : Lexer :=
  Lexer.readChar { input := input, position := 0, readPosition := 0, ch := 0, line := 1, column := 0 }

/-- The first `n` tokens returned by successive `NextToken` calls. -/
def lexTokens : Nat → Lexer → List Token
  | 0, _ => []
  | n + 1, l => (l.NextToken).1 :: lexTokens n (l.NextToken).2

/-! ## parser/parser.go -/

/-- The node kinds `NodeVarDecl` .. `NodeOtherwise`. -/
inductive NodeType where
  | VAR_DECL | PRINT | IF | BLOCK | OTHERWISE
  deriving DecidableEq, Repr

/-- The struct `Node`: kind (`Type`), `Literal`, `Children`.  The parser never
stores a nil child, so children are nodes. -/
inductive Node where
  | mk (Typ : NodeType) (Literal : Str) (Children : List Node)
  deriving Repr

namespace Node

/-- Field `Type`. -/
def Typ : Node → NodeType
  | mk t _ _ => t

/-- Field `Literal`. -/
def Literal : Node → Str
  | mk _ l _ => l

/-- Field `Children`. -/
def Children : Node → List Node
  | mk _ _ c => c

end Node

/-- The struct `Parser`. -/
structure Parser where
  lexer : Lexer
  current : Token
  deriving DecidableEq, Repr

/-- The errors built with `fmt.Errorf` in the parser: what was expected and
the token found. -/
inductive SyntaxError where
  | unexpectedKeyword (literal : Str)
  | unexpectedToken (got : Token)
  | expected (what : Str) (got : Token)
  | parsingStatement (err : SyntaxError)
  deriving DecidableEq, Repr

/-- Result of a parser method: the value and the parser after the call, or the
error returned, or `fuelOut` when the fuel of the model ran out. -/
inductive PResult (α : Type) where
  | ok (val : α) (p : Parser)
  | error (err : SyntaxError)
  | fuelOut
  deriving Repr

namespace Parser

/-- Method `nextToken`. -/
def nextToken (p : Parser) : Parser :=
  { lexer := (p.lexer.NextToken).2, current := (p.lexer.NextToken).1 }

/-- Method `parseVarDecl`. -/
def parseVarDecl (p : Parser) : PResult Node :=
  let p1 := p.nextToken
  if p1.current.Typ ≠ TokenType.IDENT then
    .error (.expected (ascii "identifier") p1.current)
  else
    let varName := p1.current.Literal
    let p2 := p1.nextToken
    if p2.current.Literal ≠ ascii "=" then
      .error (.expected (ascii "'='") p2.current)
    else
      let p3 := p2.nextToken
      if p3.current.Typ ≠ TokenType.NUMBER ∧ p3.current.Typ ≠ TokenType.IDENT
          ∧ p3.current.Typ ≠ TokenType.STRING then
        .error (.expected (ascii "number, identifier, or string") p3.current)
      else
        let varValue := p3.current.Literal
        let p4 := p3.nextToken
        .ok (Node.mk NodeType.VAR_DECL (varName ++ ascii " = " ++ varValue) []) p4

/-- Method `parsePrint`. -/
def parsePrint (p : Parser) : PResult Node :=
  let p1 := p.nextToken
  if p1.current.Literal ≠ ascii "(" then
    .error (.expected (ascii "'('") p1.current)
  else
    let p2 := p1.nextToken
    if p2.current.Typ ≠ TokenType.IDENT ∧ p2.current.Typ ≠ TokenType.NUMBER
        ∧ p2.current.Typ ≠ TokenType.STRING then
      .error (.expected (ascii "identifier, number, or string") p2.current)
    else
      let printValue := p2.current.Literal
      let p3 := p2.nextToken
      if p3.current.Literal ≠ ascii ")" then
        .error (.expected (ascii "')'") p3.current)
      else
        let p4 := p3.nextToken
        .ok (Node.mk NodeType.PRINT (ascii "print " ++ printValue) []) p4

/-- Method `parseCondition`. -/
def parseCondition (p : Parser) : PResult Str :=
  let left := p.current.Literal
  let p1 := p.nextToken
  if p1.current.Typ ≠ TokenType.OPERATOR then
    .error (.expected (ascii "operator") p1.current)
  else
    let operator := p1.current.Literal
    let p2 := p1.nextToken
    let right := p2.current.Literal
    let p3 := p2.nextToken
    .ok (left ++ ascii " " ++ operator ++ ascii " " ++ right) p3

/-- Method `parseIf`; `parseBlock` is the method it calls for the body. -/
def parseIf (parseBlock : Parser → PResult Node) (p : Parser) : PResult Node :=
  let p1 := p.nextToken
  if p1.current.Literal ≠ ascii "case" then
    .error (.expected (ascii "'case'") p1.current)
  else
    let p2 := p1.nextToken
    match parseCondition p2 with
    | .fuelOut => .fuelOut
    | .error err => .error err
    | .ok condition p3 =>
      if p3.current.Literal ≠ ascii "\x7b" then
        .error (.expected (ascii "'\x7b'") p3.current)
      else
        let p4 := p3.nextToken
        match parseBlock p4 with
        | .fuelOut => .fuelOut
        | .error err => .error err
        | .ok block p5 =>
          if p5.current.Literal ≠ ascii "\x7d" then
            .error (.expected (ascii "'\x7d'") p5.current)
          else
            let p6 := p5.nextToken
            .ok (Node.mk NodeType.IF (ascii "if " ++ condition) [block]) p6

/-- Method `parseOtherwise`; `parseBlock` is the method it calls for the body. -/
def parseOtherwise (parseBlock : Parser → PResult Node) (p : Parser) : PResult Node :=
  let p1 := p.nextToken
  if p1.current.Literal ≠ ascii "\x7b" then
    .error (.expected (ascii "'\x7b'") p1.current)
  else
    let p2 := p1.nextToken
    match parseBlock p2 with
    | .fuelOut => .fuelOut
    | .error err => .error err
    | .ok block p3 =>
      if p3.current.Literal ≠ ascii "\x7d" then
        .error (.expected (ascii "'\x7d'") p3.current)
      else
        let p4 := p3.nextToken
        .ok (Node.mk NodeType.OTHERWISE (ascii "otherwise") [block]) p4

mutual

/-- Method `parseStatement`, with fuel for the calls below it. -/
def parseStatement : Nat → Parser → PResult Node
  | 0, _ => .fuelOut
  | fuel + 1, p =>
    if p.current.Typ = TokenType.KEYWORD then
      if p.current.Literal = ascii "declare" then parseVarDecl p
      else if p.current.Literal = ascii "displayln" then parsePrint p
      else if p.current.Literal = ascii "if" then parseIf (parseBlockLoop fuel []) p
      else if p.current.Literal = ascii "otherwise" then parseOtherwise (parseBlockLoop fuel []) p
      else .error (.unexpectedKeyword p.current.Literal)
    else .error (.unexpectedToken p.current)

/-- The loop of method `parseBlock`; `children` are the statements appended
so far. -/
def parseBlockLoop : Nat → List Node → Parser → PResult Node
  | 0, _, _ => .fuelOut
  | fuel + 1, children, p =>
    if p.current.Typ ≠ TokenType.EOF ∧ p.current.Literal ≠ ascii "\x7d" then
      match parseStatement fuel p with
      | .fuelOut => .fuelOut
      | .error err => .error err
      | .ok stmt p1 => parseBlockLoop fuel (children ++ [stmt]) p1
    else .ok (Node.mk NodeType.BLOCK [] children) p

end

/-- The loop of method `Parse`; `children` are the statements appended so
far. -/
def ParseLoop : Nat → List Node → Parser → PResult Node
  | 0, _, _ => .fuelOut
  | fuel + 1, children, p =>
    if p.current.Typ ≠ TokenType.EOF then
      match parseStatement fuel p with
      | .fuelOut => .fuelOut
      | .error err => .error (.parsingStatement err)
      | .ok stmt p1 => ParseLoop fuel (children ++ [stmt]) p1
    else .ok (Node.mk NodeType.BLOCK [] children) p

/-- Method `Parse`.  The fuel exceeds the number of tokens left, which bounds
the number of statements and the depth of nesting. -/
def Parse (p : Parser) : PResult Node := ParseLoop (p.lexer.input.length + 2) [] p

end Parser

/-- Function `NewParser`. -/
def NewParser (l : Lexer) : Parser :=
  Parser.nextToken { lexer := l, current := { Typ := TokenType.EOF, Literal := [], Line := 0, Column := 0 } }

/-! ## interpreter/interpreter.go -/

/-- The field `variables` of the struct `Interpreter`, a Go `map[string]string`. -/
abbrev Store := Str → Option Str

/-- Map assignment `m[k] = v`. -/
def Store.set (m : Store) (k v : Str) : Store := fun x => if x = k then some v else m x

/-- One output call of the interpreter, in the order of the source:
`Variable Declaration: name = value`, `Print Statement: text`,
`If Statement (True): condition`, `If Statement (False): condition`,
`Otherwise Statement`. -/
inductive Event where
  | VarDeclaration (name value : Str)
  | Print (text : Str)
  | IfTrue (condition : Str)
  | IfFalse (condition : Str)
  | Otherwise
  deriving DecidableEq, Repr

/-- The error of `Interpret`: `invalid variable declaration: literal`. -/
inductive RuntimeError where
  | invalidVarDecl (literal : Str)
  deriving DecidableEq, Repr

/-- What a call of `Interpret` leaves: the error returned (`none` for nil),
the variable store after the call, the events written during the call. -/
structure Outcome where
  err : Option RuntimeError
  vars : Store
  output : List Event

/-- Method `evaluateExpression`. -/
def evaluateExpression (vars : Store) (expr : Str) : Str :=
  match vars expr with
  | some val => val
  | none => expr

/-- Method `evaluateCondition`. -/
def evaluateCondition (vars : Store) (condition : Str) : Bool :=
  match Split condition 32 with
  | [l, operator, r] =>
    let left := evaluateExpression vars l
    let right := evaluateExpression vars r
    match Atoi left, Atoi right with
    | some leftNum, some rightNum =>
      if operator = ascii ">" then decide (leftNum > rightNum)
      else if operator = ascii "<" then decide (leftNum < rightNum)
      else if operator = ascii "==" then decide (leftNum = rightNum)
      else false
    | _, _ => false
  | _ => false

mutual

/-- Method `Interpret` on a non-nil node. -/
def Interpret (vars : Store) : Node → Outcome
  | .mk NodeType.VAR_DECL literal _ =>
    match Split literal 61 with
    | [a, b] =>
      let varName := TrimSpace a
      let varValue := TrimSpace b
      { err := none, vars := vars.set varName varValue,
        output := [Event.VarDeclaration varName varValue] }
    | _ => { err := some (.invalidVarDecl literal), vars := vars, output := [] }
  | .mk NodeType.PRINT literal _ =>
    let value := TrimPrefix literal (ascii "print ")
    { err := none, vars := vars, output := [Event.Print (evaluateExpression vars value)] }
  | .mk NodeType.IF literal children =>
    let condition := TrimPrefix literal (ascii "if ")
    if evaluateCondition vars condition then
      let r := InterpretChildren vars children
      { r with output := Event.IfTrue condition :: r.output }
    else { err := none, vars := vars, output := [Event.IfFalse condition] }
  | .mk NodeType.OTHERWISE _ children =>
    let r := InterpretChildren vars children
    { r with output := Event.Otherwise :: r.output }
  | .mk NodeType.BLOCK _ children => InterpretChildren vars children

/-- The loop `for _, child := range node.Children` with its early return. -/
def InterpretChildren (vars : Store) : List Node → Outcome
  | [] => { err := none, vars := vars, output := [] }
  | child :: rest =>
    let r := Interpret vars child
    match r.err with
    | some e => { err := some e, vars := r.vars, output := r.output }
    | none =>
      let r2 := InterpretChildren r.vars rest
      { r2 with output := r.output ++ r2.output }

end

/-! ## main.go -/

/-- What one round of the loop in `repl` does with a line. -/
inductive LineResult where
  | parsingError (err : SyntaxError)
  | ran (o : Outcome)
  | fuelOut

/-- Body of the loop in `repl`: lex, parse and interpret one line on the
interpreter's store. -/
def runLine (vars : Store) (line : Str) : LineResult :=
  match (NewParser (NewLexer line)).Parse with
  | .fuelOut => .fuelOut
  | .error err => .parsingError err
  | .ok ast _ => .ran (Interpret vars ast)

/-- The output of a line, empty when it did not run. -/
def LineResult.output : LineResult → List Event
  | .ran o => o.output
  | _ => []

/-- The store after a line that started on `vars`. -/
def LineResult.vars (vars : Store) : LineResult → Store
  | .ran o => o.vars
  | _ => vars

/-- The error a line ended with, `none` when it ran without error or did not
run. -/
def LineResult.err : LineResult → Option RuntimeError
  | .ran o => o.err
  | _ => none

/-- The store with no variable. -/
def emptyStore : Store := fun _ => none

/-! ## Auxiliary definitions for the statements -/

/-- The lexer that stands at index `p` of `input`: the state `NewLexer` and
`readChar` produce, with `ch` the byte at `p` (0 past the end). -/
def Lexer.atPos (input : Str) (p line column : Nat) : Lexer :=
  { input := input, position := p, readPosition := p + 1, ch := input.getD p 0,
    line := line, column := column }

/-- The column counter after the white space `ws` was skipped from column
`col`: a newline sets it to 1, any other byte adds 1. -/
def columnAfter (col : Nat) (ws : Str) : Nat :=
  ws.foldl (fun c b => if b = 10 then 1 else c + 1) col

/-- The lexer `l` stands in `input` with `suffix` still unread. -/
def Lexes (input : Str) (l : Lexer) (suffix : Str) : Prop :=
  ∃ p line col, l = Lexer.atPos input p line col ∧ input.drop p = suffix

/-- The text of an Identifier token: a letter or underscore, then letters,
digits and underscores, and not one of the keywords. -/
def isIdentifierText (n : Str) : Bool :=
  match n with
  | [] => false
  | c :: cs =>
    Lexer.isLetter c && cs.all (fun d => Lexer.isLetter d || Lexer.isDigit d)
      && !decide (n ∈ Lexer.keywords)

/-- A value as it is written in a line: a number, an identifier, or a string
literal between two quotes. -/
inductive Value where
  | number (digits : Str)
  | ident (name : Str)
  | string (text : Str)

namespace Value

/-- The text of the token the lexer returns for the value. -/
def text : Value → Str
  | number digits => digits
  | ident name => name
  | string t => t

/-- The bytes of the value in the source line. -/
def source : Value → Str
  | number digits => digits
  | ident name => name
  | string t => 34 :: (t ++ [34])

/-- The kind of the token the lexer returns for the value. -/
def kind : Value → TokenType
  | number _ => TokenType.NUMBER
  | ident _ => TokenType.IDENT
  | string _ => TokenType.STRING

/-- The value is the text of one Number, Identifier or String token: digits
only and at least one; an identifier text; no quote and no NUL byte inside a
string. -/
def wellFormed : Value → Bool
  | number digits => !digits.isEmpty && digits.all Lexer.isDigit
  | ident name => isIdentifierText name
  | string t => t.all (fun c => c != 34 && c != 0)

end Value

/-- The line `declare n = v`. -/
def declareLine (n : Str) (v : Value) : Str :=
  ascii "declare " ++ (n ++ (ascii " = " ++ v.source))

/-- The line `displayln(v)`. -/
def displayLine (v : Value) : Str :=
  ascii "displayln(" ++ (v.source ++ ascii ")")

/-! ## The grammar of the specification -/

/-- The parser after `n` calls of `nextToken`. -/
def Parser.advance : Nat → Parser → Parser
  | 0, p => p
  | n + 1, p => Parser.advance n p.nextToken

/-- The next `n` tokens the parser works on: its current token, then the
tokens `nextToken` makes current one after the other. -/
def Parser.tokens : Nat → Parser → List Token
  | 0, _ => []
  | n + 1, p => p.current :: Parser.tokens n p.nextToken

namespace Grammar

/-- The two syntactic categories: one statement, a sequence of statements. -/
inductive Cat where
  | statement
  | statements

/-- A Keyword token with the given text. -/
def isKeyword (t : Token) (text : Str) : Prop :=
  t.Typ = TokenType.KEYWORD ∧ t.Literal = text

/-- A token of kind Number, Identifier or String. -/
def isValue (t : Token) : Prop :=
  t.Typ = TokenType.NUMBER ∨ t.Typ = TokenType.IDENT ∨ t.Typ = TokenType.STRING

/-- The grammar of the specification on token sequences:
`VarDecl := "declare" Identifier "=" (Number|Identifier|String)`,
`Print := "displayln" "(" (Identifier|Number|String) ")"`,
`If := "if" "case" Operand Operator Operand "{" Statement* "}"`,
`Otherwise := "otherwise" "{" Statement* "}"`.
Statement keywords are Keyword tokens; `=`, `(`, `)`, `{`, `}` and `case` are
matched by their text; an operand is any single token. -/
inductive Derives : Cat → List Token → Prop where
  | varDecl (kw name eq value : Token) :
      isKeyword kw (ascii "declare") → name.Typ = TokenType.IDENT →
      eq.Literal = ascii "=" → isValue value →
      Derives Cat.statement [kw, name, eq, value]
  | print (kw lparen value rparen : Token) :
      isKeyword kw (ascii "displayln") → lparen.Literal = ascii "(" → isValue value →
      rparen.Literal = ascii ")" →
      Derives Cat.statement [kw, lparen, value, rparen]
  | ifStmt (kw case left op right lbrace rbrace : Token) (body : List Token) :
      isKeyword kw (ascii "if") → case.Literal = ascii "case" →
      op.Typ = TokenType.OPERATOR → lbrace.Literal = ascii "\x7b" →
      Derives Cat.statements body → rbrace.Literal = ascii "\x7d" →
      Derives Cat.statement ([kw, case, left, op, right, lbrace] ++ body ++ [rbrace])
  | otherwise (kw lbrace rbrace : Token) (body : List Token) :
      isKeyword kw (ascii "otherwise") → lbrace.Literal = ascii "\x7b" →
      Derives Cat.statements body → rbrace.Literal = ascii "\x7d" →
      Derives Cat.statement ([kw, lbrace] ++ body ++ [rbrace])
  | none : Derives Cat.statements []
  | more (first rest : List Token) :
      Derives Cat.statement first → Derives Cat.statements rest →
      Derives Cat.statements (first ++ rest)

/-- `Program := Statement* EndOfInput`. -/
def Program (ts : List Token) : Prop :=
  ∃ body eof, ts = body ++ [eof] ∧ Derives Cat.statements body ∧ eof.Typ = TokenType.EOF

end Grammar

/-- The parser works on `input`: its lexer stands at some index of `input`,
and a current token of kind EndOfInput has empty text. -/
def Parser.worksOn (input : Str) (p : Parser) : Prop :=
  (∃ q line col, p.lexer = Lexer.atPos input q line col) ∧
  (p.current.Typ = TokenType.EOF → p.current.Literal = [])

/-- The bytes the lexer has not reached yet, plus one for a current token
other than EndOfInput: the bound on the fuel the parser needs. -/
def Parser.remaining (p : Parser) : Nat :=
  (p.lexer.input.length - p.lexer.position) + (if p.current.Typ = TokenType.EOF then 0 else 1)

/-! ## The shape of a tree -/

mutual

/-- All nodes of a tree: the node itself and the nodes below it. -/
def Node.nodes : Node → List Node
  | .mk t l cs => .mk t l cs :: Node.nodesOfList cs

/-- All nodes of a list of trees. -/
def Node.nodesOfList : List Node → List Node
  | [] => []
  | c :: cs => c.nodes ++ Node.nodesOfList cs

end

/-- A node of one of the four statement kinds. -/
def Node.isStatement (m : Node) : Prop :=
  m.Typ = NodeType.VAR_DECL ∨ m.Typ = NodeType.PRINT ∨ m.Typ = NodeType.IF
    ∨ m.Typ = NodeType.OTHERWISE

/-- What a single node has to satisfy: an If or Otherwise node has exactly one
child, a Block; a VarDecl or Print node has no child; every child of a Block
is a statement node. -/
def Node.shapeOk (m : Node) : Prop :=
  ((m.Typ = NodeType.IF ∨ m.Typ = NodeType.OTHERWISE) →
    ∃ b, m.Children = [b] ∧ b.Typ = NodeType.BLOCK) ∧
  ((m.Typ = NodeType.VAR_DECL ∨ m.Typ = NodeType.PRINT) → m.Children = []) ∧
  (m.Typ = NodeType.BLOCK → ∀ c ∈ m.Children, c.isStatement)

end Kisumu

namespace Kisumu

/-! ## Further definitions for the statements -/

/-- The lexer after `k` calls of `NextToken`. -/
def lexerAfter : Nat → Lexer → Lexer
  | 0, l => l
  | k + 1, l => lexerAfter k (l.NextToken).2

/-- The slice expression `s[a:b]` of Go is in range: `a <= b <= len(s)`. -/
def sliceInRange (s : Str) (a b : Nat) : Bool := a ≤ b && b ≤ s.length

/-- A call of `NextToken` panics.  The index expressions `l.input[l.readPosition]`
in `readChar` and `peekChar` stand behind the test `l.readPosition >= len(l.input)`,
so they are always in range; what can be out of range is the slice expression
that ends `readString`, `readIdentifier` and `readNumber`. -/
def Lexer.NextTokenPanics (l0 : Lexer) : Bool :=
  let l := l0.skipWhitespace
  if l.ch = 61 then false
  else if l.ch = 62 ∨ l.ch = 60 ∨ l.ch = 40 ∨ l.ch = 41 ∨ l.ch = 123 ∨ l.ch = 125 then false
  else if l.ch = 34 then !sliceInRange l.input (l.position + 1) l.readString.2.position
  else if l.ch = 0 then false
  else if Lexer.isLetter l.ch then !sliceInRange l.input l.position l.readIdentifier.2.position
  else if Lexer.isDigit l.ch then !sliceInRange l.input l.position l.readNumber.2.position
  else false

/-- One of the first `n` successive calls of `NextToken` panics. -/
def lexPanics : Nat → Lexer → Bool
  | 0, _ => false
  | n + 1, l => l.NextTokenPanics || lexPanics n (l.NextToken).2

/-- The loop of `repl` in main.go on the lines read: the store of the
interpreter when the loop ends (at the line `exit` or at the end of input). -/
def replStore (vars : Store) : List Str → Store
  | [] => vars
  | line :: rest =>
    if line = ascii "exit" then vars
    else replStore ((runLine vars line).vars vars) rest

/-- Every key of the store is the text of an Identifier token. -/
def Store.keysAreIdentifiers (vars : Store) : Prop :=
  ∀ k v, vars k = some v → isIdentifierText k = true

/-- The text of a Number token: decimal digits, at least one. -/
def isNumberText (s : Str) : Bool := !s.isEmpty && s.all Lexer.isDigit

/-- A VarDecl node carries the literal `name = value` with `name` the text of
an Identifier token. -/
def Node.declOk (m : Node) : Prop :=
  m.Typ = NodeType.VAR_DECL →
    ∃ name value, m.Literal = name ++ ascii " = " ++ value ∧ isIdentifierText name = true

/-- What holds of every token `NextToken` returns: an Identifier token has an
identifier text, a Number token has digits only, a Keyword token has one of
the five keyword texts, an EndOfInput token has empty text, a String token
holds no quote and no NUL byte. -/
def Token.wellLexed (t : Token) : Prop :=
  (t.Typ = TokenType.IDENT → isIdentifierText t.Literal = true) ∧
  (t.Typ = TokenType.NUMBER → isNumberText t.Literal = true) ∧
  (t.Typ = TokenType.KEYWORD → t.Literal ∈ Lexer.keywords) ∧
  (t.Typ = TokenType.EOF → t.Literal = []) ∧
  (t.Typ = TokenType.STRING → ∀ c ∈ t.Literal, c ≠ 34 ∧ c ≠ 0)

/-- The line `if case a op b {` followed by `rest`. -/
def ifLine (a op b rest : Str) : Str :=
  ascii "if case " ++ (a ++ (32 :: (op ++ (32 :: (b ++ (ascii " \x7b" ++ rest))))))

end Kisumu

namespace Kisumu

/-! ## Strings: lemmas -/

theorem Split_ne_nil (s : Str) (sep : Nat) : Split s sep ≠ [] := by
  cases s with
  | nil => simp [Split]
  | cons c cs =>
    simp only [Split]
    split_ifs
    · simp
    · split <;> simp

theorem Split_of_not_mem (a : Str) (sep : Nat) (h : sep ∉ a) : Split a sep = [a] := by
  induction a with
  | nil => simp [Split]
  | cons c cs ih =>
    have hc : c ≠ sep := fun e => h (by simp [e])
    have hcs : sep ∉ cs := fun e => h (by simp [e])
    simp [Split, hc, ih hcs]

theorem Split_append (a rest : Str) (sep : Nat) (h : sep ∉ a) :
    Split (a ++ sep :: rest) sep = a :: Split rest sep := by
  induction a with
  | nil => simp [Split]
  | cons c cs ih =>
    have hc : c ≠ sep := fun e => h (by simp [e])
    have hcs : sep ∉ cs := fun e => h (by simp [e])
    simp [Split, hc, ih hcs]

theorem Split_eq_cons (s : Str) (sep : Nat) (a : Str) (ps : List Str)
    (h : Split s sep = a :: ps) :
    sep ∉ a ∧ ((ps = [] ∧ s = a) ∨ ∃ rest, s = a ++ sep :: rest ∧ Split rest sep = ps) := by
  induction s generalizing a ps with
  | nil =>
    simp [Split] at h
    obtain ⟨rfl, rfl⟩ := h
    simp
  | cons c cs ih =>
    simp only [Split] at h
    by_cases hc : c = sep
    · simp only [hc, if_true, List.cons.injEq] at h
      obtain ⟨rfl, rfl⟩ := h
      refine ⟨by simp, Or.inr ⟨cs, by simp [hc], rfl⟩⟩
    · simp only [hc, if_false] at h
      cases hsp : Split cs sep with
      | nil => exact absurd hsp (Split_ne_nil cs sep)
      | cons p qs =>
        rw [hsp] at h
        simp only [List.cons.injEq] at h
        obtain ⟨rfl, rfl⟩ := h
        obtain ⟨hp, hrest⟩ := ih p qs hsp
        refine ⟨?_, ?_⟩
        · intro hmem
          rcases List.mem_cons.mp hmem with e | e
          · exact hc e.symm
          · exact hp e
        · rcases hrest with ⟨rfl, rfl⟩ | ⟨rest, rfl, hr⟩
          · exact Or.inl ⟨rfl, rfl⟩
          · exact Or.inr ⟨rest, by simp, hr⟩

theorem Split_eq_pair (s : Str) (sep : Nat) (a b : Str) :
    Split s sep = [a, b] ↔ s = a ++ sep :: b ∧ sep ∉ a ∧ sep ∉ b := by
  constructor
  · intro h
    obtain ⟨ha, hrest⟩ := Split_eq_cons s sep a [b] h
    rcases hrest with ⟨hnil, _⟩ | ⟨rest, rfl, hr⟩
    · simp at hnil
    · obtain ⟨hb, hrest2⟩ := Split_eq_cons rest sep b [] hr
      rcases hrest2 with ⟨_, rfl⟩ | ⟨r2, _, hr2⟩
      · exact ⟨rfl, ha, hb⟩
      · exact absurd hr2 (Split_ne_nil r2 sep)
  · rintro ⟨rfl, ha, hb⟩
    rw [Split_append a b sep ha, Split_of_not_mem b sep hb]

theorem Split_eq_triple (s : Str) (sep : Nat) (a b c : Str) :
    Split s sep = [a, b, c] ↔ s = a ++ sep :: (b ++ sep :: c) ∧ sep ∉ a ∧ sep ∉ b ∧ sep ∉ c := by
  constructor
  · intro h
    obtain ⟨ha, hrest⟩ := Split_eq_cons s sep a [b, c] h
    rcases hrest with ⟨hnil, _⟩ | ⟨rest, rfl, hr⟩
    · simp at hnil
    · obtain ⟨rfl, hb, hc⟩ := (Split_eq_pair rest sep b c).mp hr
      exact ⟨rfl, ha, hb, hc⟩
  · rintro ⟨rfl, ha, hb, hc⟩
    rw [Split_append a _ sep ha, (Split_eq_pair _ sep b c).mpr ⟨rfl, hb, hc⟩]

theorem Split_length (s : Str) (sep : Nat) : (Split s sep).length = s.count sep + 1 := by
  induction s with
  | nil => simp [Split]
  | cons c cs ih =>
    simp only [Split]
    by_cases hc : c = sep
    · simp [hc, ih]
    · have hc2 : ¬ (c == sep) = true := by simpa using hc
      simp only [hc, if_false]
      cases hsp : Split cs sep with
      | nil => exact absurd hsp (Split_ne_nil cs sep)
      | cons p qs =>
        rw [hsp] at ih
        simp [List.count_cons, hc2, ← ih]

theorem TrimPrefix_append (pre s : Str) : TrimPrefix (pre ++ s) pre = s := by
  have h : pre.isPrefixOf (pre ++ s) = true := by
    rw [List.isPrefixOf_iff_prefix]; exact List.prefix_append pre s
  simp [TrimPrefix, h]

end Kisumu

namespace Kisumu

/-! ## Interpreter -/

theorem Interpret_VarDecl_ok (vars : Store) (literal a b : Str) (children : List Node)
    (h : Split literal 61 = [a, b]) :
    Interpret vars (Node.mk NodeType.VAR_DECL literal children) =
      { err := none, vars := vars.set (TrimSpace a) (TrimSpace b),
        output := [Event.VarDeclaration (TrimSpace a) (TrimSpace b)] } := by
  simp [Interpret, h]

theorem Interpret_VarDecl_err (vars : Store) (literal : Str) (children : List Node)
    (h : (Split literal 61).length ≠ 2) :
    Interpret vars (Node.mk NodeType.VAR_DECL literal children) =
      { err := some (.invalidVarDecl literal), vars := vars, output := [] } := by
  simp only [Interpret]
  split
  · rename_i a b heq
    simp [heq] at h
  · rfl

theorem InterpretChildren_single (vars : Store) (b : Node) :
    InterpretChildren vars [b] = Interpret vars b := by
  simp only [InterpretChildren]
  rcases hI : Interpret vars b with ⟨e, v, o⟩
  cases e <;> simp

/-- C2 (amended): on a VarDecl node `Interpret` splits the literal on every `=`.
It returns an error exactly when the literal does not contain exactly one `=`,
and then leaves the store as it was and writes nothing; with exactly one `=`,
between `a` and `b`, it succeeds and sets `store[trim a] = trim b`. -/
theorem Interpret_VarDecl_split (vars : Store) (literal : Str) (children : List Node) :
    ((Interpret vars (Node.mk NodeType.VAR_DECL literal children)).err ≠ none
        ↔ literal.count 61 ≠ 1) ∧
    (literal.count 61 ≠ 1 →
      (Interpret vars (Node.mk NodeType.VAR_DECL literal children)).err
          = some (RuntimeError.invalidVarDecl literal) ∧
      (Interpret vars (Node.mk NodeType.VAR_DECL literal children)).vars = vars ∧
      (Interpret vars (Node.mk NodeType.VAR_DECL literal children)).output = []) ∧
    (∀ a b : Str, literal = a ++ 61 :: b → 61 ∉ a → 61 ∉ b →
      (Interpret vars (Node.mk NodeType.VAR_DECL literal children)).err = none ∧
      (Interpret vars (Node.mk NodeType.VAR_DECL literal children)).vars
          = vars.set (TrimSpace a) (TrimSpace b) ∧
      (Interpret vars (Node.mk NodeType.VAR_DECL literal children)).output
          = [Event.VarDeclaration (TrimSpace a) (TrimSpace b)]) := by
  have hlen := Split_length literal 61
  have herr : literal.count 61 ≠ 1 →
      Interpret vars (Node.mk NodeType.VAR_DECL literal children) =
        { err := some (.invalidVarDecl literal), vars := vars, output := [] } := by
    intro h
    apply Interpret_VarDecl_err
    omega
  refine ⟨⟨?_, ?_⟩, ?_, ?_⟩
  · intro h hc
    apply h
    have h2 : (Split literal 61).length = 2 := by omega
    match hs : Split literal 61, h2 with
    | [a, b], _ => rw [Interpret_VarDecl_ok vars literal a b children hs]
  · intro h
    rw [herr h]
    simp
  · intro h
    rw [herr h]
    exact ⟨rfl, rfl, rfl⟩
  · intro a b hl ha hb
    rw [Interpret_VarDecl_ok vars literal a b children
      ((Split_eq_pair literal 61 a b).mpr ⟨hl, ha, hb⟩)]
    exact ⟨rfl, rfl, rfl⟩

/-- C2, witness: the literal `x = 5`. -/
theorem Interpret_VarDecl_split_witness :
    (Interpret emptyStore (Node.mk NodeType.VAR_DECL (ascii "x = 5") [])).err = none ∧
    (Interpret emptyStore (Node.mk NodeType.VAR_DECL (ascii "x = 5") [])).vars
        = emptyStore.set (TrimSpace (ascii "x ")) (TrimSpace (ascii " 5")) ∧
    (Interpret emptyStore (Node.mk NodeType.VAR_DECL (ascii "x = 5") [])).output
        = [Event.VarDeclaration (TrimSpace (ascii "x ")) (TrimSpace (ascii " 5"))] :=
  (Interpret_VarDecl_split emptyStore (ascii "x = 5") []).2.2 (ascii "x ") (ascii " 5")
    (by decide) (by decide) (by decide)

/-- C2, counterexample: the literal `x = a=b` contains `=`, yet `Interpret`
returns the error, leaves `x` unset and writes nothing. -/
theorem Interpret_VarDecl_two_separators :
    61 ∈ ascii "x = a=b" ∧
    (Interpret emptyStore (Node.mk NodeType.VAR_DECL (ascii "x = a=b") [])).err
        = some (RuntimeError.invalidVarDecl (ascii "x = a=b")) ∧
    (Interpret emptyStore (Node.mk NodeType.VAR_DECL (ascii "x = a=b") [])).vars (ascii "x")
        = none ∧
    (Interpret emptyStore (Node.mk NodeType.VAR_DECL (ascii "x = a=b") [])).output = [] := by
  decide

/-- C3: `evaluateCondition` is true exactly when the text is `l`, space, `op`,
space, `r` with no space inside `l`, `op`, `r`, both resolved operands parse
as integers, and `op` is `>`, `<` or `==` with the comparison holding; it is
a total boolean function, so it is false in every other case. -/
theorem evaluateCondition_iff (vars : Store) (c : Str) :
    evaluateCondition vars c = true ↔
      ∃ (l op r : Str) (a b : Int),
        c = l ++ 32 :: (op ++ 32 :: r) ∧ 32 ∉ l ∧ 32 ∉ op ∧ 32 ∉ r ∧
        Atoi (evaluateExpression vars l) = some a ∧
        Atoi (evaluateExpression vars r) = some b ∧
        ((op = ascii ">" ∧ b < a) ∨ (op = ascii "<" ∧ a < b) ∨ (op = ascii "==" ∧ a = b)) := by
  constructor
  · intro h
    unfold evaluateCondition at h
    split at h
    · rename_i l op r hs
      obtain ⟨hc, hl, hop, hr⟩ := (Split_eq_triple c 32 l op r).mp hs
      simp only at h
      split at h
      · rename_i a b ha hb
        refine ⟨l, op, r, a, b, hc, hl, hop, hr, ha, hb, ?_⟩
        split_ifs at h with h1 h2 h3
        · exact Or.inl ⟨h1, by simpa using h⟩
        · exact Or.inr (Or.inl ⟨h2, by simpa using h⟩)
        · exact Or.inr (Or.inr ⟨h3, by simpa using h⟩)
      · simp at h
    · simp at h
  · rintro ⟨l, op, r, a, b, hc, hl, hop, hr, ha, hb, hcmp⟩
    have hs := (Split_eq_triple c 32 l op r).mpr ⟨hc, hl, hop, hr⟩
    unfold evaluateCondition
    rw [hs]
    simp only [ha, hb]
    rcases hcmp with ⟨rfl, h⟩ | ⟨rfl, h⟩ | ⟨rfl, h⟩
    · simpa using h
    · have : ascii "<" ≠ ascii ">" := by decide
      simpa [this] using h
    · have h1 : ascii "==" ≠ ascii ">" := by decide
      have h2 : ascii "==" ≠ ascii "<" := by decide
      simpa [h1, h2] using h

end Kisumu

namespace Kisumu

/-! ## Otherwise and If -/

theorem parse_otherwise_hi :
    ∃ p, (NewParser (NewLexer (ascii "otherwise \x7b displayln(\"hi\") \x7d"))).Parse =
      .ok (Node.mk NodeType.BLOCK [] [Node.mk NodeType.OTHERWISE (ascii "otherwise")
        [Node.mk NodeType.BLOCK [] [Node.mk NodeType.PRINT (ascii "print hi") []]]]) p :=
  ⟨_, rfl⟩

/-- C4 (amended): in every store, the line `otherwise { displayln("hi") }`
parses, runs without error, leaves the store as it is and writes the
`Otherwise` event followed by one Print event whose text is
`evaluateExpression("hi")`: the text `hi` when `hi` is not a variable of the
store, the value of the variable `hi` when it is. -/
theorem otherwise_prints_resolved_hi (vars : Store) :
    ∃ o, runLine vars (ascii "otherwise \x7b displayln(\"hi\") \x7d") = LineResult.ran o ∧
      o.err = none ∧ o.vars = vars ∧
      o.output = [Event.Otherwise, Event.Print (evaluateExpression vars (ascii "hi"))] ∧
      (vars (ascii "hi") = none → o.output = [Event.Otherwise, Event.Print (ascii "hi")]) ∧
      (∀ val, vars (ascii "hi") = some val → o.output = [Event.Otherwise, Event.Print val]) := by
  obtain ⟨p, hp⟩ := parse_otherwise_hi
  have hrun : runLine vars (ascii "otherwise \x7b displayln(\"hi\") \x7d") =
      LineResult.ran (Interpret vars (Node.mk NodeType.BLOCK [] [Node.mk NodeType.OTHERWISE
        (ascii "otherwise") [Node.mk NodeType.BLOCK [] [Node.mk NodeType.PRINT
          (ascii "print hi") []]]])) := by
    simp only [runLine, hp]
  refine ⟨_, hrun, ?_⟩
  have hpre : TrimPrefix (ascii "print hi") (ascii "print ") = ascii "hi" := by decide
  refine ⟨?_, ?_, ?_, ?_, ?_⟩
  · simp [Interpret, InterpretChildren]
  · simp [Interpret, InterpretChildren]
  · simp [Interpret, InterpretChildren, hpre]
  · intro h
    simp [Interpret, InterpretChildren, hpre, evaluateExpression, h]
  · intro val h
    simp [Interpret, InterpretChildren, hpre, evaluateExpression, h]

/-- C4, witness: the empty store, where `hi` is no variable. -/
theorem otherwise_prints_resolved_hi_witness :
    ∃ o, runLine emptyStore (ascii "otherwise \x7b displayln(\"hi\") \x7d") = LineResult.ran o ∧
      o.output = [Event.Otherwise, Event.Print (ascii "hi")] := by
  obtain ⟨o, h1, _, _, _, h2, _⟩ := otherwise_prints_resolved_hi emptyStore
  exact ⟨o, h1, h2 rfl⟩

/-- C4, counterexample: after the line `declare hi = 5` on the empty store,
`otherwise { displayln("hi") }` writes Print `5` and no Print `hi`. -/
theorem otherwise_hi_after_declare_hi :
    (runLine ((runLine emptyStore (ascii "declare hi = 5")).vars emptyStore)
        (ascii "otherwise \x7b displayln(\"hi\") \x7d")).output
      = [Event.Otherwise, Event.Print (ascii "5")] ∧
    Event.Print (ascii "hi") ∉
      (runLine ((runLine emptyStore (ascii "declare hi = 5")).vars emptyStore)
        (ascii "otherwise \x7b displayln(\"hi\") \x7d")).output := by
  decide

/-- C5: on an If node with literal `if ` ++ `c` and the single child `b`:
when `evaluateCondition c` is false, `Interpret` succeeds, writes only the
false diagnostic with `c` and keeps the store; when it is true, it writes the
true diagnostic with `c` followed by the events of `b` and returns the result
and store of `b`.  On a fresh interpreter, after `declare x = 5` the line
`if case x > 3 { displayln(x) }` writes the true diagnostic and Print `5`, and
`if case x > 10 { displayln(x) }` writes only the false diagnostic. -/
theorem Interpret_If (vars : Store) (c : Str) (b : Node) :
    (evaluateCondition vars c = false →
      (Interpret vars (Node.mk NodeType.IF (ascii "if " ++ c) [b])).err = none ∧
      (Interpret vars (Node.mk NodeType.IF (ascii "if " ++ c) [b])).vars = vars ∧
      (Interpret vars (Node.mk NodeType.IF (ascii "if " ++ c) [b])).output = [Event.IfFalse c]) ∧
    (evaluateCondition vars c = true →
      (Interpret vars (Node.mk NodeType.IF (ascii "if " ++ c) [b])).err = (Interpret vars b).err ∧
      (Interpret vars (Node.mk NodeType.IF (ascii "if " ++ c) [b])).vars = (Interpret vars b).vars ∧
      (Interpret vars (Node.mk NodeType.IF (ascii "if " ++ c) [b])).output
        = Event.IfTrue c :: (Interpret vars b).output) ∧
    (runLine ((runLine emptyStore (ascii "declare x = 5")).vars emptyStore)
        (ascii "if case x > 3 \x7b displayln(x) \x7d")).output
      = [Event.IfTrue (ascii "x > 3"), Event.Print (ascii "5")] ∧
    (runLine ((runLine emptyStore (ascii "declare x = 5")).vars emptyStore)
        (ascii "if case x > 10 \x7b displayln(x) \x7d")).output
      = [Event.IfFalse (ascii "x > 10")] := by
  refine ⟨?_, ?_, by decide, by decide⟩
  · intro h
    simp [Interpret, TrimPrefix_append, h]
  · intro h
    simp [Interpret, TrimPrefix_append, h, InterpretChildren_single]

/-- C5, witness: the condition `1 < 2` is true and `2 < 1` is false on the
empty store; the body is an empty Block. -/
theorem Interpret_If_witness :
    (Interpret emptyStore (Node.mk NodeType.IF (ascii "if " ++ ascii "2 < 1")
        [Node.mk NodeType.BLOCK [] []])).output = [Event.IfFalse (ascii "2 < 1")] ∧
    (Interpret emptyStore (Node.mk NodeType.IF (ascii "if " ++ ascii "1 < 2")
        [Node.mk NodeType.BLOCK [] []])).output
      = Event.IfTrue (ascii "1 < 2") :: (Interpret emptyStore (Node.mk NodeType.BLOCK [] [])).output :=
  ⟨((Interpret_If emptyStore (ascii "2 < 1") (Node.mk NodeType.BLOCK [] [])).1 (by decide)).2.2,
   ((Interpret_If emptyStore (ascii "1 < 2") (Node.mk NodeType.BLOCK [] [])).2.1 (by decide)).2.2⟩

end Kisumu

namespace Kisumu

/-! ## Lexer: positions -/

namespace Lexer

theorem getD_eq_headD_drop (input : Str) (p : Nat) : input.getD p 0 = (input.drop p).headD 0 := by
  induction input generalizing p with
  | nil => simp
  | cons a as ih =>
    cases p with
    | zero => simp
    | succ k => simp [ih k]

theorem getD_of_drop_cons {input : Str} {p c : Nat} {rest : Str} (h : input.drop p = c :: rest) :
    input.getD p 0 = c := by
  rw [getD_eq_headD_drop, h]
  rfl

theorem getD_of_drop_nil {input : Str} {p : Nat} (h : input.drop p = []) :
    input.getD p 0 = 0 := by
  rw [getD_eq_headD_drop, h]
  rfl

theorem drop_add_of_drop {input : Str} {p : Nat} {a b : Str} (h : input.drop p = a ++ b) :
    input.drop (p + a.length) = b := by
  have : input.drop (p + a.length) = (input.drop p).drop a.length := by
    rw [List.drop_drop]
  rw [this, h]
  simp

theorem drop_succ_of_drop {input : Str} {p c : Nat} {rest : Str} (h : input.drop p = c :: rest) :
    input.drop (p + 1) = rest :=
  drop_add_of_drop (a := [c]) (b := rest) (by simpa using h)

theorem length_of_drop {input : Str} {p : Nat} {a : Str} (h : input.drop p = a) :
    a.length = input.length - p := by
  rw [← h, List.length_drop]

@[simp] theorem atPos_ch (input : Str) (p l c : Nat) : (atPos input p l c).ch = input.getD p 0 := rfl
@[simp] theorem atPos_input (input : Str) (p l c : Nat) : (atPos input p l c).input = input := rfl
@[simp] theorem atPos_position (input : Str) (p l c : Nat) : (atPos input p l c).position = p := rfl
@[simp] theorem atPos_readPosition (input : Str) (p l c : Nat) :
    (atPos input p l c).readPosition = p + 1 := rfl
@[simp] theorem atPos_line (input : Str) (p l c : Nat) : (atPos input p l c).line = l := rfl
@[simp] theorem atPos_column (input : Str) (p l c : Nat) : (atPos input p l c).column = c := rfl

theorem readChar_atPos (input : Str) (p l c : Nat) :
    (atPos input p l c).readChar = atPos input (p + 1) l (c + 1) := by
  simp only [readChar, atPos]
  congr 1
  split
  · rename_i h
    exact (List.getD_eq_default _ _ h).symm
  · rfl

theorem peekChar_atPos (input : Str) (p l c : Nat) :
    (atPos input p l c).peekChar = input.getD (p + 1) 0 := by
  simp only [peekChar, atPos]
  split
  · rename_i h
    exact (List.getD_eq_default _ _ h).symm
  · rfl

theorem steps_atPos (input : Str) (p l c : Nat) :
    (atPos input p l c).steps = input.length - (p + 1) + 1 := rfl

end Lexer

theorem NewLexer_eq (input : Str) : NewLexer input = Lexer.atPos input 0 1 1 := by
  simp only [NewLexer, Lexer.readChar, Lexer.atPos]
  congr 1
  split
  · rename_i h
    exact (List.getD_eq_default _ _ h).symm
  · rfl

end Kisumu

namespace Kisumu

/-! ## Lexer: the loops -/

namespace Lexer

theorem isLetter_iff (c : Nat) :
    isLetter c = true ↔ (97 ≤ c ∧ c ≤ 122) ∨ (65 ≤ c ∧ c ≤ 90) ∨ c = 95 := by
  simp [isLetter, or_assoc]

theorem isDigit_iff (c : Nat) : isDigit c = true ↔ 48 ≤ c ∧ c ≤ 57 := by
  simp [isDigit]

theorem isWhitespace_iff (c : Nat) :
    isWhitespace c = true ↔ c = 32 ∨ c = 9 ∨ c = 10 ∨ c = 13 := by
  simp [isWhitespace, or_assoc]

theorem columnAfter_cons (col w : Nat) (ws : Str) :
    columnAfter col (w :: ws) = columnAfter (if w = 10 then 1 else col + 1) ws := rfl

theorem skipWhitespaceLoop_stop (n : Nat) (l : Lexer) (h : isWhitespace l.ch = false) :
    skipWhitespaceLoop n l = l := by
  cases n with
  | zero => rfl
  | succ k => rw [skipWhitespaceLoop, if_neg (by rw [h]; exact Bool.false_ne_true)]

theorem skipWhitespaceLoop_step (k : Nat) (input : Str) (p line col : Nat)
    (h : isWhitespace (input.getD p 0) = true) :
    skipWhitespaceLoop (k + 1) (atPos input p line col) =
      skipWhitespaceLoop k (atPos input (p + 1) (if input.getD p 0 = 10 then line + 1 else line)
        (if input.getD p 0 = 10 then 1 else col + 1)) := by
  rw [skipWhitespaceLoop, if_pos (by rw [atPos_ch]; exact h)]
  by_cases h10 : input.getD p 0 = 10
  · have e : (if (atPos input p line col).ch = 10 then
        ({ atPos input p line col with
            line := (atPos input p line col).line + 1, column := 0 } : Lexer)
        else atPos input p line col) = atPos input p (line + 1) 0 := by
      rw [if_pos (by rw [atPos_ch]; exact h10)]
      rfl
    simp only [e, readChar_atPos, h10, if_true]
  · have e : (if (atPos input p line col).ch = 10 then
        ({ atPos input p line col with
            line := (atPos input p line col).line + 1, column := 0 } : Lexer)
        else atPos input p line col) = atPos input p line col := by
      rw [if_neg (by rw [atPos_ch]; exact h10)]
    simp only [e, readChar_atPos, h10, if_false]

theorem skipWhitespaceLoop_atPos (input : Str) (ws rest : Str) :
    ∀ (n p line col : Nat), input.drop p = ws ++ rest → (∀ c ∈ ws, isWhitespace c = true) →
      (∀ c, rest.head? = some c → isWhitespace c = false) → ws.length ≤ n →
      skipWhitespaceLoop n (atPos input p line col) =
        atPos input (p + ws.length) (line + ws.count 10) (columnAfter col ws) := by
  induction ws with
  | nil =>
    intro n p line col hd _ hrest _
    have hch : isWhitespace (input.getD p 0) = false := by
      cases rest with
      | nil => rw [getD_of_drop_nil (by simpa using hd)]; rfl
      | cons c cs => rw [getD_of_drop_cons (by simpa using hd)]; exact hrest c rfl
    rw [skipWhitespaceLoop_stop n _ (by rw [atPos_ch]; exact hch)]
    rfl
  | cons w ws ih =>
    intro n p line col hd hws hrest hn
    cases n with
    | zero => simp at hn
    | succ k =>
      have hch : input.getD p 0 = w := getD_of_drop_cons (by simpa using hd)
      have hw : isWhitespace w = true := hws w (by simp)
      have hd2 : input.drop (p + 1) = ws ++ rest := drop_succ_of_drop (by simpa using hd)
      have hws2 : ∀ c ∈ ws, isWhitespace c = true := fun c hc => hws c (by simp [hc])
      have hk : ws.length ≤ k := by simpa using hn
      rw [skipWhitespaceLoop_step k input p line col (by rw [hch]; exact hw), hch,
        ih k (p + 1) _ _ hd2 hws2 hrest hk, columnAfter_cons]
      by_cases h10 : w = 10
      · subst h10
        simp only [if_true, List.length_cons, List.count_cons_self]
        congr 1 <;> omega
      · have hc : List.count 10 (w :: ws) = List.count 10 ws := by
          rw [List.count_cons]
          simp [h10]
        simp only [h10, if_false, List.length_cons, hc]
        congr 1
        omega

theorem readIdentifierLoop_stop (n : Nat) (l : Lexer)
    (h : (isLetter l.ch || isDigit l.ch) = false) : readIdentifierLoop n l = l := by
  cases n with
  | zero => rfl
  | succ k => rw [readIdentifierLoop, if_neg (by rw [h]; exact Bool.false_ne_true)]

theorem readIdentifierLoop_atPos (input : Str) (run rest : Str) :
    ∀ (n p line col : Nat), input.drop p = run ++ rest →
      (∀ c ∈ run, (isLetter c || isDigit c) = true) →
      (∀ c, rest.head? = some c → (isLetter c || isDigit c) = false) → run.length ≤ n →
      readIdentifierLoop n (atPos input p line col) =
        atPos input (p + run.length) line (col + run.length) := by
  induction run with
  | nil =>
    intro n p line col hd _ hrest _
    have hch : (isLetter (input.getD p 0) || isDigit (input.getD p 0)) = false := by
      cases rest with
      | nil => rw [getD_of_drop_nil (by simpa using hd)]; rfl
      | cons c cs => rw [getD_of_drop_cons (by simpa using hd)]; exact hrest c rfl
    rw [readIdentifierLoop_stop n _ (by rw [atPos_ch]; exact hch)]
    rfl
  | cons w ws ih =>
    intro n p line col hd hws hrest hn
    cases n with
    | zero => simp at hn
    | succ k =>
      have hch : input.getD p 0 = w := getD_of_drop_cons (by simpa using hd)
      have hw : (isLetter w || isDigit w) = true := hws w (by simp)
      have hd2 : input.drop (p + 1) = ws ++ rest := drop_succ_of_drop (by simpa using hd)
      have hws2 : ∀ c ∈ ws, (isLetter c || isDigit c) = true := fun c hc => hws c (by simp [hc])
      have hk : ws.length ≤ k := by simpa using hn
      rw [readIdentifierLoop, if_pos (by rw [atPos_ch, hch]; exact hw), readChar_atPos,
        ih k (p + 1) line (col + 1) hd2 hws2 hrest hk]
      simp only [List.length_cons]
      congr 1 <;> omega

theorem readNumberLoop_stop (n : Nat) (l : Lexer) (h : isDigit l.ch = false) :
    readNumberLoop n l = l := by
  cases n with
  | zero => rfl
  | succ k => rw [readNumberLoop, if_neg (by rw [h]; exact Bool.false_ne_true)]

theorem readNumberLoop_atPos (input : Str) (run rest : Str) :
    ∀ (n p line col : Nat), input.drop p = run ++ rest →
      (∀ c ∈ run, isDigit c = true) →
      (∀ c, rest.head? = some c → isDigit c = false) → run.length ≤ n →
      readNumberLoop n (atPos input p line col) =
        atPos input (p + run.length) line (col + run.length) := by
  induction run with
  | nil =>
    intro n p line col hd _ hrest _
    have hch : isDigit (input.getD p 0) = false := by
      cases rest with
      | nil => rw [getD_of_drop_nil (by simpa using hd)]; rfl
      | cons c cs => rw [getD_of_drop_cons (by simpa using hd)]; exact hrest c rfl
    rw [readNumberLoop_stop n _ (by rw [atPos_ch]; exact hch)]
    rfl
  | cons w ws ih =>
    intro n p line col hd hws hrest hn
    cases n with
    | zero => simp at hn
    | succ k =>
      have hch : input.getD p 0 = w := getD_of_drop_cons (by simpa using hd)
      have hw : isDigit w = true := hws w (by simp)
      have hd2 : input.drop (p + 1) = ws ++ rest := drop_succ_of_drop (by simpa using hd)
      have hws2 : ∀ c ∈ ws, isDigit c = true := fun c hc => hws c (by simp [hc])
      have hk : ws.length ≤ k := by simpa using hn
      rw [readNumberLoop, if_pos (by rw [atPos_ch, hch]; exact hw), readChar_atPos,
        ih k (p + 1) line (col + 1) hd2 hws2 hrest hk]
      simp only [List.length_cons]
      congr 1 <;> omega

theorem readStringLoop_atPos (input : Str) (body rest : Str) :
    ∀ (n q line col : Nat), input.drop (q + 1) = body ++ rest →
      (∀ c ∈ body, c ≠ 34 ∧ c ≠ 0) →
      (∀ c, rest.head? = some c → c = 34 ∨ c = 0) → body.length + 1 ≤ n →
      readStringLoop n (atPos input q line col) =
        atPos input (q + 1 + body.length) line (col + 1 + body.length) := by
  induction body with
  | nil =>
    intro n q line col hd _ hrest hn
    have hch : input.getD (q + 1) 0 = 34 ∨ input.getD (q + 1) 0 = 0 := by
      cases rest with
      | nil => rw [getD_of_drop_nil (by simpa using hd)]; exact Or.inr rfl
      | cons c cs => rw [getD_of_drop_cons (by simpa using hd)]; exact hrest c rfl
    cases n with
    | zero => simp at hn
    | succ k =>
      rw [readStringLoop]
      simp only [readChar_atPos, atPos_ch]
      rw [if_pos hch]
      rfl
  | cons w ws ih =>
    intro n q line col hd hws hrest hn
    cases n with
    | zero => simp at hn
    | succ k =>
      have hch : input.getD (q + 1) 0 = w := getD_of_drop_cons (by simpa using hd)
      have hw : ¬ (w = 34 ∨ w = 0) := by
        have := hws w (by simp)
        tauto
      have hd2 : input.drop (q + 1 + 1) = ws ++ rest := drop_succ_of_drop (by simpa using hd)
      have hws2 : ∀ c ∈ ws, c ≠ 34 ∧ c ≠ 0 := fun c hc => hws c (by simp [hc])
      have hk : ws.length + 1 ≤ k := by simpa using hn
      rw [readStringLoop]
      simp only [readChar_atPos, atPos_ch, hch]
      rw [if_neg hw, ih k (q + 1) line (col + 1) hd2 hws2 hrest hk]
      simp only [List.length_cons]
      congr 1 <;> omega

theorem skipWhitespace_of_not_ws (l : Lexer) (h : isWhitespace l.ch = false) :
    l.skipWhitespace = l :=
  skipWhitespaceLoop_stop _ l h

end Lexer

end Kisumu

namespace Kisumu

/-! ## Lexer: one token -/

namespace Lexer

theorem NextToken_congr {l1 l2 : Lexer} (h : l1.skipWhitespace = l2.skipWhitespace) :
    l1.NextToken = l2.NextToken := by
  unfold NextToken
  rw [h]

theorem steps_bound {input : Str} {p : Nat} {a b : Str} (l c : Nat)
    (h : input.drop p = a ++ b) : a.length ≤ (atPos input p l c).steps := by
  have := length_of_drop h
  rw [steps_atPos]
  simp only [List.length_append] at this
  omega

theorem columnAfter_append (col : Nat) (a b : Str) :
    columnAfter col (a ++ b) = columnAfter (columnAfter col a) b := by
  simp [columnAfter, List.foldl_append]

theorem skipWhitespace_atPos (input : Str) (ws rest : Str) (p line col : Nat)
    (hd : input.drop p = ws ++ rest) (hws : ∀ c ∈ ws, isWhitespace c = true)
    (hrest : ∀ c, rest.head? = some c → isWhitespace c = false) :
    (atPos input p line col).skipWhitespace =
      atPos input (p + ws.length) (line + ws.count 10) (columnAfter col ws) :=
  skipWhitespaceLoop_atPos input ws rest _ p line col hd hws hrest (steps_bound line col hd)

theorem head_dropWhile_not (f : Nat → Bool) (s : Str) :
    ∀ c, (s.dropWhile f).head? = some c → f c = false := by
  intro c h
  induction s with
  | nil => simp at h
  | cons a as ih =>
    rw [List.dropWhile_cons] at h
    by_cases ha : f a = true
    · rw [if_pos ha] at h
      exact ih h
    · rw [if_neg ha] at h
      simp only [List.head?_cons, Option.some.injEq] at h
      subst h
      simpa using ha

theorem NextToken_skip_ws (input : Str) (ws rest : Str) (p line col : Nat)
    (hd : input.drop p = ws ++ rest) (hws : ∀ c ∈ ws, isWhitespace c = true) :
    (atPos input p line col).NextToken =
      (atPos input (p + ws.length) (line + ws.count 10) (columnAfter col ws)).NextToken := by
  apply NextToken_congr
  have hsplit : rest = rest.takeWhile isWhitespace ++ rest.dropWhile isWhitespace :=
    (List.takeWhile_append_dropWhile isWhitespace rest).symm
  have hd1 : input.drop p = (ws ++ rest.takeWhile isWhitespace) ++ rest.dropWhile isWhitespace := by
    rw [List.append_assoc, ← hsplit]
    exact hd
  have hd2 : input.drop (p + ws.length)
      = rest.takeWhile isWhitespace ++ rest.dropWhile isWhitespace := by
    rw [← hsplit]
    exact drop_add_of_drop hd
  have hws1 : ∀ c ∈ ws ++ rest.takeWhile isWhitespace, isWhitespace c = true := by
    intro c hc
    rcases List.mem_append.mp hc with h | h
    · exact hws c h
    · exact (List.mem_takeWhile_imp h)
  have hws2 : ∀ c ∈ rest.takeWhile isWhitespace, isWhitespace c = true :=
    fun c h => List.mem_takeWhile_imp h
  rw [skipWhitespace_atPos input _ _ p line col hd1 hws1 (head_dropWhile_not _ rest),
    skipWhitespace_atPos input _ _ _ _ _ hd2 hws2 (head_dropWhile_not _ rest),
    columnAfter_append, List.count_append, List.length_append]
  congr 1 <;> omega

theorem NextToken_operator (input : Str) (p line col c : Nat) (hch : input.getD p 0 = c)
    (hc : c = 62 ∨ c = 60 ∨ c = 40 ∨ c = 41 ∨ c = 123 ∨ c = 125) :
    (atPos input p line col).NextToken =
      ({ Typ := TokenType.OPERATOR, Literal := [c], Line := line, Column := col },
        atPos input (p + 1) line (col + 1)) := by
  have hnws : isWhitespace (atPos input p line col).ch = false := by
    rw [atPos_ch, hch]
    rcases hc with rfl | rfl | rfl | rfl | rfl | rfl <;> rfl
  unfold NextToken
  rw [skipWhitespace_of_not_ws _ hnws]
  simp only [atPos_ch, hch, readChar_atPos, newToken, atPos_line, atPos_column]
  rcases hc with rfl | rfl | rfl | rfl | rfl | rfl <;> simp [stringOfByte]

theorem NextToken_assign (input : Str) (p line col : Nat) (hch : input.getD p 0 = 61)
    (hnext : input.getD (p + 1) 0 ≠ 61) :
    (atPos input p line col).NextToken =
      ({ Typ := TokenType.OPERATOR, Literal := [61], Line := line, Column := col },
        atPos input (p + 1) line (col + 1)) := by
  have hnws : isWhitespace (atPos input p line col).ch = false := by
    rw [atPos_ch, hch]
    rfl
  unfold NextToken
  rw [skipWhitespace_of_not_ws _ hnws]
  simp only [atPos_ch, hch, peekChar_atPos, readChar_atPos, newToken, atPos_line, atPos_column,
    if_true, if_neg hnext]
  simp [stringOfByte]

theorem NextToken_equals (input : Str) (p line col : Nat) (hch : input.getD p 0 = 61)
    (hnext : input.getD (p + 1) 0 = 61) :
    (atPos input p line col).NextToken =
      ({ Typ := TokenType.OPERATOR, Literal := [61, 61], Line := line, Column := col },
        atPos input (p + 2) line (col + 2)) := by
  have hnws : isWhitespace (atPos input p line col).ch = false := by
    rw [atPos_ch, hch]
    rfl
  unfold NextToken
  rw [skipWhitespace_of_not_ws _ hnws]
  simp only [atPos_ch, hch, peekChar_atPos, readChar_atPos, atPos_line, atPos_column,
    if_true, hnext]
  rfl

theorem NextToken_eof (input : Str) (p line col : Nat) (hch : input.getD p 0 = 0) :
    (atPos input p line col).NextToken =
      ({ Typ := TokenType.EOF, Literal := [], Line := line, Column := col },
        atPos input (p + 1) line (col + 1)) := by
  have hnws : isWhitespace (atPos input p line col).ch = false := by
    rw [atPos_ch, hch]
    rfl
  unfold NextToken
  rw [skipWhitespace_of_not_ws _ hnws]
  simp only [atPos_ch, hch, readChar_atPos, atPos_line, atPos_column]
  simp

theorem slice_of_drop {input : Str} {p : Nat} {a b : Str} (h : input.drop p = a ++ b) :
    slice input p (p + a.length) = a := by
  simp [slice, h]

theorem NextToken_string (input : Str) (body rest : Str) (p line col : Nat)
    (hd : input.drop p = 34 :: (body ++ rest)) (hbody : ∀ c ∈ body, c ≠ 34 ∧ c ≠ 0)
    (hrest : ∀ c, rest.head? = some c → c = 34 ∨ c = 0) :
    (atPos input p line col).NextToken =
      ({ Typ := TokenType.STRING, Literal := body, Line := line, Column := col },
        atPos input (p + body.length + 2) line (col + body.length + 2)) := by
  have hch : input.getD p 0 = 34 := getD_of_drop_cons hd
  have hnws : isWhitespace (atPos input p line col).ch = false := by
    rw [atPos_ch, hch]
    rfl
  have hd1 : input.drop (p + 1) = body ++ rest := drop_succ_of_drop hd
  have hfuel : body.length + 1 ≤ (atPos input p line col).steps := by
    have := length_of_drop hd
    rw [steps_atPos]
    simp only [List.length_cons, List.length_append] at this
    omega
  have hloop := readStringLoop_atPos input body rest _ p line col hd1 hbody hrest hfuel
  unfold NextToken
  rw [skipWhitespace_of_not_ws _ hnws]
  simp only [atPos_ch, hch, readString, hloop, readChar_atPos, atPos_line, atPos_column,
    atPos_input, atPos_position]
  have hs : slice input (p + 1) (p + 1 + body.length) = body := slice_of_drop hd1
  simp only [hs]
  simp only [show (34 : Nat) = 61 ↔ False by decide, if_false, if_true]
  rw [if_neg (by decide)]
  have e1 : p + 1 + body.length + 1 = p + body.length + 2 := by omega
  have e2 : col + 1 + body.length + 1 = col + body.length + 2 := by omega
  rw [e1, e2]

theorem NextToken_ident (input : Str) (c : Nat) (run rest : Str) (p line col : Nat)
    (hd : input.drop p = (c :: run) ++ rest) (hc : isLetter c = true)
    (hrun : ∀ d ∈ run, (isLetter d || isDigit d) = true)
    (hrest : ∀ d, rest.head? = some d → (isLetter d || isDigit d) = false) :
    (atPos input p line col).NextToken =
      ({ Typ := identifierType (c :: run), Literal := c :: run, Line := line, Column := col },
        atPos input (p + (c :: run).length) line (col + (c :: run).length)) := by
  have hch : input.getD p 0 = c := getD_of_drop_cons (by simpa using hd)
  have hcl := (isLetter_iff c).mp hc
  have hnws : isWhitespace (atPos input p line col).ch = false := by
    rw [atPos_ch, hch]
    cases hw : isWhitespace c with
    | false => rfl
    | true =>
      have := (isWhitespace_iff c).mp hw
      omega
  have hall : ∀ d ∈ c :: run, (isLetter d || isDigit d) = true := by
    intro d hdm
    rcases List.mem_cons.mp hdm with rfl | h
    · simp [hc]
    · exact hrun d h
  have hloop := readIdentifierLoop_atPos input (c :: run) rest _ p line col hd hall hrest
    (steps_bound line col hd)
  unfold NextToken
  rw [skipWhitespace_of_not_ws _ hnws]
  simp only [atPos_ch, hch, readIdentifier, hloop, atPos_line, atPos_column,
    atPos_input, atPos_position, slice_of_drop hd]
  rw [if_neg (by omega), if_neg (by omega), if_neg (by omega), if_neg (by omega), if_pos hc]

theorem NextToken_number (input : Str) (c : Nat) (run rest : Str) (p line col : Nat)
    (hd : input.drop p = (c :: run) ++ rest) (hrun : ∀ d ∈ c :: run, isDigit d = true)
    (hrest : ∀ d, rest.head? = some d → isDigit d = false) :
    (atPos input p line col).NextToken =
      ({ Typ := TokenType.NUMBER, Literal := c :: run, Line := line, Column := col },
        atPos input (p + (c :: run).length) line (col + (c :: run).length)) := by
  have hch : input.getD p 0 = c := getD_of_drop_cons (by simpa using hd)
  have hc : isDigit c = true := hrun c (by simp)
  have hcd := (isDigit_iff c).mp hc
  have hnl : ¬ (isLetter c = true) := by
    intro h
    have := (isLetter_iff c).mp h
    omega
  have hnws : isWhitespace (atPos input p line col).ch = false := by
    rw [atPos_ch, hch]
    cases hw : isWhitespace c with
    | false => rfl
    | true =>
      have := (isWhitespace_iff c).mp hw
      omega
  have hloop := readNumberLoop_atPos input (c :: run) rest _ p line col hd hrun hrest
    (steps_bound line col hd)
  unfold NextToken
  rw [skipWhitespace_of_not_ws _ hnws]
  simp only [atPos_ch, hch, readNumber, hloop, atPos_line, atPos_column,
    atPos_input, atPos_position, slice_of_drop hd]
  rw [if_neg (by omega), if_neg (by omega), if_neg (by omega), if_neg (by omega), if_neg hnl,
    if_pos hc]

end Lexer

end Kisumu

namespace Kisumu

/-! ## Lexer: positions of tokens, unterminated strings -/

theorem lexTokens_past_end (input : Str) :
    ∀ (n p line col : Nat), input.length ≤ p →
      ∀ t ∈ lexTokens n (Lexer.atPos input p line col), t.Typ = TokenType.EOF ∧ t.Literal = [] := by
  intro n
  induction n with
  | zero =>
    intro p line col _ t ht
    simp [lexTokens] at ht
  | succ k ih =>
    intro p line col hp t ht
    have hch : input.getD p 0 = 0 := List.getD_eq_default _ _ hp
    rw [lexTokens, Lexer.NextToken_eof input p line col hch] at ht
    rcases List.mem_cons.mp ht with rfl | h
    · exact ⟨rfl, rfl⟩
    · exact ih (p + 1) line (col + 1) (by omega) t h

/-- C9, the code at the failing input: in `"a` newline `b" x` the identifier
`x` is the byte at index 6, on line 2 (one newline before it) at column 4;
the token returned for it carries line 1 and column 7. -/
theorem lexTokens_newline_inside_string :
    (lexTokens 2 (NewLexer (ascii "\"a\nb\" x"))).map
        (fun t => (t.Typ, t.Literal, t.Line, t.Column))
      = [(TokenType.STRING, ascii "a\nb", 1, 1), (TokenType.IDENT, ascii "x", 1, 7)] ∧
    (ascii "\"a\nb\" x").drop 6 = ascii "x" ∧
    1 + ((ascii "\"a\nb\" x").take 6).count 10 = 2 ∧
    (ascii "\"a\nb\" x").take 6 = ascii "\"a\n" ++ ascii "b\" " ∧
    (ascii "b\" ").length + 1 = 4 := by
  decide

/-- C10 (amended): when the unread input is white space, a `"` and a
remainder with no further `"` and no NUL byte, `NextToken` returns a String
token (no Error token) whose text is the whole remainder, and every later
`NextToken` call returns EndOfInput with empty text.  This holds for the lexer
at any position (after any prefix `pre`), in particular for a fresh lexer. -/
theorem NextToken_unterminated_string (pre ws body : Str) (line col : Nat)
    (hws : ∀ c ∈ ws, Lexer.isWhitespace c = true) (hq : 34 ∉ body) (h0 : 0 ∉ body) :
    ((Lexer.atPos (pre ++ (ws ++ 34 :: body)) pre.length line col).NextToken).1.Typ
        = TokenType.STRING ∧
    ((Lexer.atPos (pre ++ (ws ++ 34 :: body)) pre.length line col).NextToken).1.Literal = body ∧
    (∀ n, ∀ t ∈ lexTokens n
        ((Lexer.atPos (pre ++ (ws ++ 34 :: body)) pre.length line col).NextToken).2,
      t.Typ = TokenType.EOF ∧ t.Literal = []) ∧
    ((NewLexer (ws ++ 34 :: body)).NextToken).1.Typ = TokenType.STRING ∧
    ((NewLexer (ws ++ 34 :: body)).NextToken).1.Literal = body ∧
    (∀ n, ∀ t ∈ lexTokens n ((NewLexer (ws ++ 34 :: body)).NextToken).2,
      t.Typ = TokenType.EOF ∧ t.Literal = []) := by
  have key : ∀ (pre : Str) (line col : Nat),
      ((Lexer.atPos (pre ++ (ws ++ 34 :: body)) pre.length line col).NextToken).1.Typ
          = TokenType.STRING ∧
      ((Lexer.atPos (pre ++ (ws ++ 34 :: body)) pre.length line col).NextToken).1.Literal
          = body ∧
      (∀ n, ∀ t ∈ lexTokens n
          ((Lexer.atPos (pre ++ (ws ++ 34 :: body)) pre.length line col).NextToken).2,
        t.Typ = TokenType.EOF ∧ t.Literal = []) := by
    intro pre line col
    have hd : (pre ++ (ws ++ 34 :: body)).drop pre.length = ws ++ 34 :: body := by simp
    have hd2 : (pre ++ (ws ++ 34 :: body)).drop (pre.length + ws.length)
        = 34 :: (body ++ []) := by
      rw [Lexer.drop_add_of_drop hd]
      simp
    have hbody : ∀ c ∈ body, c ≠ 34 ∧ c ≠ 0 := by
      intro c hc
      exact ⟨fun e => hq (e ▸ hc), fun e => h0 (e ▸ hc)⟩
    rw [Lexer.NextToken_skip_ws _ ws (34 :: body) pre.length line col hd hws,
      Lexer.NextToken_string _ body [] _ _ _ hd2 hbody (by simp)]
    refine ⟨rfl, rfl, ?_⟩
    intro n t ht
    refine lexTokens_past_end _ n _ _ _ ?_ t ht
    simp only [List.length_append, List.length_cons]
    omega
  refine ⟨(key pre line col).1, (key pre line col).2.1, (key pre line col).2.2, ?_⟩
  have h := key [] 1 1
  rw [NewLexer_eq]
  exact h

/-- C10, witness: the input ` "abc`. -/
theorem NextToken_unterminated_string_witness :
    ((NewLexer (ascii " \"abc")).NextToken).1.Typ = TokenType.STRING ∧
    ((NewLexer (ascii " \"abc")).NextToken).1.Literal = ascii "abc" :=
  ⟨(NextToken_unterminated_string [] (ascii " ") (ascii "abc") 1 1
      (by decide) (by decide) (by decide)).2.2.2.1,
   (NextToken_unterminated_string [] (ascii " ") (ascii "abc") 1 1
      (by decide) (by decide) (by decide)).2.2.2.2.1⟩

/-- C10, counterexample: in `"a`, NUL, `b` the remainder after the quote has no
further quote; the String token holds `a` only, not the remainder `a`, NUL,
`b`, and the next token is the identifier `b`, not EndOfInput. -/
theorem NextToken_string_stops_at_nul :
    34 ∉ ascii "a\x00b" ∧
    (lexTokens 2 (NewLexer (34 :: ascii "a\x00b"))).map (fun t => (t.Typ, t.Literal))
      = [(TokenType.STRING, ascii "a"), (TokenType.IDENT, ascii "b")] := by
  decide

end Kisumu

namespace Kisumu

/-! ## TrimSpace -/

theorem stripOne_none_of_head (pats : List Str) (c : Nat) (rest : Str)
    (h : ∀ pat ∈ pats, pat ≠ [] ∧ pat.headD 0 ≠ c) : stripOne pats (c :: rest) = none := by
  induction pats with
  | nil => rfl
  | cons pat ps ih =>
    have hp := h pat (by simp)
    have hps : ∀ q ∈ ps, q ≠ [] ∧ q.headD 0 ≠ c := fun q hq => h q (by simp [hq])
    cases pat with
    | nil => exact absurd rfl hp.1
    | cons a as =>
      have ha : a ≠ c := by simpa using hp.2
      simp [stripOne, List.isPrefixOf, ha, ih hps]

theorem spaceRunes_heads :
    ∀ pat ∈ spaceRunes, pat ≠ [] ∧ (pat.headD 0 ≤ 32 ∨ 128 ≤ pat.headD 0) := by
  decide

theorem spaceRunes_reverse_heads :
    ∀ pat ∈ spaceRunes.map List.reverse, pat ≠ [] ∧ (pat.headD 0 ≤ 32 ∨ 128 ≤ pat.headD 0) := by
  decide

theorem stripLeading_of_head (pats : List Str) (n c : Nat) (rest : Str)
    (h : ∀ pat ∈ pats, pat ≠ [] ∧ pat.headD 0 ≠ c) :
    stripLeading pats n (c :: rest) = c :: rest := by
  cases n with
  | zero => rfl
  | succ k => simp [stripLeading, stripOne_none_of_head pats c rest h]

theorem stripLeading_nil (pats : List Str) (n : Nat) (h : ∀ pat ∈ pats, pat ≠ []) :
    stripLeading pats n [] = [] := by
  cases n with
  | zero => rfl
  | succ k =>
    have : stripOne pats [] = none := by
      induction pats with
      | nil => rfl
      | cons pat ps ih =>
        have hp := h pat (by simp)
        have hps : ∀ q ∈ ps, q ≠ [] := fun q hq => h q (by simp [hq])
        cases pat with
        | nil => exact absurd rfl hp
        | cons a as => simp [stripOne, List.isPrefixOf, ih hps]
    simp [stripLeading, this]

theorem stripOne_space (rest : Str) : stripOne spaceRunes (32 :: rest) = some rest := by
  simp [stripOne, spaceRunes, List.isPrefixOf]

theorem stripOne_reverse_space (rest : Str) :
    stripOne (spaceRunes.map List.reverse) (32 :: rest) = some rest := by
  simp [stripOne, spaceRunes, List.isPrefixOf]

/-- A byte that starts no white-space rune, read from the left or from the
right: the printable ASCII bytes above the space. -/
theorem no_space_head (c : Nat) (hc : 33 ≤ c ∧ c ≤ 127) :
    (∀ pat ∈ spaceRunes, pat ≠ [] ∧ pat.headD 0 ≠ c) ∧
    (∀ pat ∈ spaceRunes.map List.reverse, pat ≠ [] ∧ pat.headD 0 ≠ c) := by
  constructor
  · intro pat hp
    have := spaceRunes_heads pat hp
    exact ⟨this.1, by omega⟩
  · intro pat hp
    have := spaceRunes_reverse_heads pat hp
    exact ⟨this.1, by omega⟩

theorem TrimSpace_space_cons (s : Str) : TrimSpace (32 :: s) = TrimSpace s := by
  simp only [TrimSpace, List.length_cons, stripLeading, stripOne_space]

/-- Trimming `s` followed by one space gives `s` when `s` starts and ends with
printable ASCII bytes above the space. -/
theorem TrimSpace_append_space (s : Str) (hne : s ≠ [])
    (hfirst : 33 ≤ s.headD 0 ∧ s.headD 0 ≤ 127)
    (hlast : 33 ≤ s.reverse.headD 0 ∧ s.reverse.headD 0 ≤ 127) :
    TrimSpace (s ++ [32]) = s := by
  cases s with
  | nil => exact absurd rfl hne
  | cons c cs =>
    have h1 : stripLeading spaceRunes (c :: cs ++ [32]).length (c :: cs ++ [32])
        = c :: cs ++ [32] :=
      stripLeading_of_head _ _ c (cs ++ [32]) (no_space_head c hfirst).1
    simp only [TrimSpace, h1]
    have hrev : (c :: cs ++ [32]).reverse = 32 :: (c :: cs).reverse := by simp
    rw [hrev]
    have hlen : (c :: cs ++ [32]).length = (c :: cs).length + 1 := by simp
    rw [hlen, stripLeading, stripOne_reverse_space]
    simp only
    cases hr : (c :: cs).reverse with
    | nil => simp at hr
    | cons d ds =>
      rw [hr] at hlast
      rw [stripLeading_of_head _ _ d ds (no_space_head d hlast).2, ← hr]
      simp

end Kisumu

namespace Kisumu

/-! ## Lexer: tokens of a line -/

theorem Lexes_NewLexer (input : Str) : Lexes input (NewLexer input) input :=
  ⟨0, 1, 1, NewLexer_eq input, rfl⟩

theorem isIdentifierText_iff (n : Str) :
    isIdentifierText n = true ↔
      ∃ c cs, n = c :: cs ∧ Lexer.isLetter c = true ∧
        (∀ d ∈ cs, (Lexer.isLetter d || Lexer.isDigit d) = true) ∧ n ∉ Lexer.keywords := by
  cases n with
  | nil => simp [isIdentifierText]
  | cons c cs =>
    simp only [isIdentifierText, Bool.and_eq_true, List.all_eq_true, Bool.not_eq_true',
      decide_eq_false_iff_not, List.cons.injEq, exists_and_left]
    constructor
    · rintro ⟨⟨h1, h2⟩, h3⟩
      exact ⟨c, h1 |> fun h => ⟨cs, ⟨rfl, rfl⟩, h, h2, h3⟩⟩
    · rintro ⟨c', cs', ⟨rfl, rfl⟩, h1, h2, h3⟩
      exact ⟨⟨h1, h2⟩, h3⟩

theorem lexes_skip {input : Str} {l : Lexer} {ws rest : Str} (h : Lexes input l (ws ++ rest))
    (hws : ∀ c ∈ ws, Lexer.isWhitespace c = true) :
    ∃ p line col, l.NextToken = (Lexer.atPos input p line col).NextToken ∧
      input.drop p = rest := by
  obtain ⟨p, line, col, rfl, hd⟩ := h
  exact ⟨_, _, _, Lexer.NextToken_skip_ws input ws rest p line col hd hws,
    Lexer.drop_add_of_drop hd⟩

theorem lexes_ident {input : Str} {l : Lexer} {ws rest : Str} {c : Nat} {run : Str}
    (h : Lexes input l (ws ++ ((c :: run) ++ rest)))
    (hws : ∀ c ∈ ws, Lexer.isWhitespace c = true) (hc : Lexer.isLetter c = true)
    (hrun : ∀ d ∈ run, (Lexer.isLetter d || Lexer.isDigit d) = true)
    (hrest : ∀ d, rest.head? = some d → (Lexer.isLetter d || Lexer.isDigit d) = false) :
    (l.NextToken).1.Typ = Lexer.identifierType (c :: run) ∧
    (l.NextToken).1.Literal = c :: run ∧ Lexes input (l.NextToken).2 rest := by
  obtain ⟨p, line, col, hl, hd⟩ := lexes_skip h hws
  rw [hl, Lexer.NextToken_ident input c run rest p line col hd hc hrun hrest]
  exact ⟨rfl, rfl, _, _, _, rfl, Lexer.drop_add_of_drop hd⟩

theorem lexes_number {input : Str} {l : Lexer} {ws rest : Str} {c : Nat} {run : Str}
    (h : Lexes input l (ws ++ ((c :: run) ++ rest)))
    (hws : ∀ c ∈ ws, Lexer.isWhitespace c = true)
    (hrun : ∀ d ∈ c :: run, Lexer.isDigit d = true)
    (hrest : ∀ d, rest.head? = some d → Lexer.isDigit d = false) :
    (l.NextToken).1.Typ = TokenType.NUMBER ∧
    (l.NextToken).1.Literal = c :: run ∧ Lexes input (l.NextToken).2 rest := by
  obtain ⟨p, line, col, hl, hd⟩ := lexes_skip h hws
  rw [hl, Lexer.NextToken_number input c run rest p line col hd hrun hrest]
  exact ⟨rfl, rfl, _, _, _, rfl, Lexer.drop_add_of_drop hd⟩

theorem lexes_string {input : Str} {l : Lexer} {ws rest body : Str}
    (h : Lexes input l (ws ++ (34 :: (body ++ 34 :: rest))))
    (hws : ∀ c ∈ ws, Lexer.isWhitespace c = true) (hbody : ∀ c ∈ body, c ≠ 34 ∧ c ≠ 0) :
    (l.NextToken).1.Typ = TokenType.STRING ∧
    (l.NextToken).1.Literal = body ∧ Lexes input (l.NextToken).2 rest := by
  obtain ⟨p, line, col, hl, hd⟩ := lexes_skip h hws
  rw [hl, Lexer.NextToken_string input body (34 :: rest) p line col hd hbody
    (by intro c hc; simp at hc; exact Or.inl hc.symm)]
  refine ⟨rfl, rfl, _, _, _, rfl, ?_⟩
  have h2 : input.drop p = (34 :: (body ++ [34])) ++ rest := by
    rw [hd]
    simp
  have := Lexer.drop_add_of_drop h2
  simpa [Nat.add_assoc] using this

theorem lexes_operator {input : Str} {l : Lexer} {ws rest : Str} {c : Nat}
    (h : Lexes input l (ws ++ (c :: rest)))
    (hws : ∀ c ∈ ws, Lexer.isWhitespace c = true)
    (hc : c = 62 ∨ c = 60 ∨ c = 40 ∨ c = 41 ∨ c = 123 ∨ c = 125) :
    (l.NextToken).1.Typ = TokenType.OPERATOR ∧
    (l.NextToken).1.Literal = [c] ∧ Lexes input (l.NextToken).2 rest := by
  obtain ⟨p, line, col, hl, hd⟩ := lexes_skip h hws
  rw [hl, Lexer.NextToken_operator input p line col c (Lexer.getD_of_drop_cons hd) hc]
  exact ⟨rfl, rfl, _, _, _, rfl, Lexer.drop_succ_of_drop hd⟩

theorem lexes_assign {input : Str} {l : Lexer} {ws rest : Str}
    (h : Lexes input l (ws ++ (61 :: rest)))
    (hws : ∀ c ∈ ws, Lexer.isWhitespace c = true) (hrest : rest.headD 0 ≠ 61) :
    (l.NextToken).1.Typ = TokenType.OPERATOR ∧
    (l.NextToken).1.Literal = [61] ∧ Lexes input (l.NextToken).2 rest := by
  obtain ⟨p, line, col, hl, hd⟩ := lexes_skip h hws
  have hd1 := Lexer.drop_succ_of_drop hd
  have hnext : input.getD (p + 1) 0 ≠ 61 := by
    rw [Lexer.getD_eq_headD_drop, hd1]
    exact hrest
  rw [hl, Lexer.NextToken_assign input p line col (Lexer.getD_of_drop_cons hd) hnext]
  exact ⟨rfl, rfl, _, _, _, rfl, hd1⟩

theorem lexes_eof {input : Str} {l : Lexer} {ws : Str} (h : Lexes input l ws)
    (hws : ∀ c ∈ ws, Lexer.isWhitespace c = true) :
    (l.NextToken).1.Typ = TokenType.EOF ∧
    (l.NextToken).1.Literal = [] ∧ Lexes input (l.NextToken).2 [] := by
  obtain ⟨p, line, col, hl, hd⟩ := @lexes_skip _ _ _ [] (by simpa using h) hws
  rw [hl, Lexer.NextToken_eof input p line col (Lexer.getD_of_drop_nil hd)]
  refine ⟨rfl, rfl, _, _, _, rfl, ?_⟩
  rw [List.drop_eq_nil_iff] at hd ⊢
  omega

theorem lexes_value {input : Str} {l : Lexer} {ws rest : Str} (v : Value)
    (h : Lexes input l (ws ++ (v.source ++ rest)))
    (hws : ∀ c ∈ ws, Lexer.isWhitespace c = true) (hv : v.wellFormed = true)
    (hrest : ∀ d, rest.head? = some d → (Lexer.isLetter d || Lexer.isDigit d) = false) :
    (l.NextToken).1.Typ = v.kind ∧
    (l.NextToken).1.Literal = v.text ∧ Lexes input (l.NextToken).2 rest := by
  cases v with
  | number digits =>
    simp only [Value.wellFormed, Bool.and_eq_true, Bool.not_eq_true', List.all_eq_true] at hv
    cases digits with
    | nil => simp at hv
    | cons c run =>
      exact lexes_number h hws hv.2 (fun d hd => by
        have := hrest d hd
        simp only [Bool.or_eq_false_iff] at this
        exact this.2)
  | ident name =>
    obtain ⟨c, cs, rfl, hc, hrun, hk⟩ := (isIdentifierText_iff name).mp hv
    have := lexes_ident h hws hc hrun hrest
    refine ⟨?_, this.2.1, this.2.2⟩
    rw [this.1]
    simp [Lexer.identifierType, hk, Value.kind]
  | string t =>
    simp only [Value.wellFormed, List.all_eq_true, Bool.and_eq_true, bne_iff_ne] at hv
    have h2 : Lexes input l (ws ++ (34 :: (t ++ 34 :: rest))) := by
      simpa [Value.source] using h
    exact lexes_string h2 hws hv

end Kisumu

namespace Kisumu

/-! ## Parser: the lines `declare n = v` and `displayln(v)` -/

namespace Parser

@[simp] theorem nextToken_current (p : Parser) :
    p.nextToken.current = (p.lexer.NextToken).1 := rfl

@[simp] theorem nextToken_lexer (p : Parser) :
    p.nextToken.lexer = (p.lexer.NextToken).2 := rfl

theorem parseVarDecl_ok (p : Parser)
    (h1 : p.nextToken.current.Typ = TokenType.IDENT)
    (h2 : p.nextToken.nextToken.current.Literal = ascii "=")
    (h3 : p.nextToken.nextToken.nextToken.current.Typ = TokenType.NUMBER ∨
      p.nextToken.nextToken.nextToken.current.Typ = TokenType.IDENT ∨
      p.nextToken.nextToken.nextToken.current.Typ = TokenType.STRING) :
    parseVarDecl p = .ok (Node.mk NodeType.VAR_DECL
      (p.nextToken.current.Literal ++ ascii " = "
        ++ p.nextToken.nextToken.nextToken.current.Literal) [])
      p.nextToken.nextToken.nextToken.nextToken := by
  have h3' : ¬ (p.nextToken.nextToken.nextToken.current.Typ ≠ TokenType.NUMBER ∧
      p.nextToken.nextToken.nextToken.current.Typ ≠ TokenType.IDENT ∧
      p.nextToken.nextToken.nextToken.current.Typ ≠ TokenType.STRING) := by
    rintro ⟨a, b, c⟩
    rcases h3 with h | h | h
    · exact a h
    · exact b h
    · exact c h
  unfold parseVarDecl
  dsimp only
  rw [if_neg (not_not.mpr h1), if_neg (not_not.mpr h2), if_neg h3']

theorem parsePrint_ok (p : Parser)
    (h1 : p.nextToken.current.Literal = ascii "(")
    (h2 : p.nextToken.nextToken.current.Typ = TokenType.IDENT ∨
      p.nextToken.nextToken.current.Typ = TokenType.NUMBER ∨
      p.nextToken.nextToken.current.Typ = TokenType.STRING)
    (h3 : p.nextToken.nextToken.nextToken.current.Literal = ascii ")") :
    parsePrint p = .ok (Node.mk NodeType.PRINT
      (ascii "print " ++ p.nextToken.nextToken.current.Literal) [])
      p.nextToken.nextToken.nextToken.nextToken := by
  have h2' : ¬ (p.nextToken.nextToken.current.Typ ≠ TokenType.IDENT ∧
      p.nextToken.nextToken.current.Typ ≠ TokenType.NUMBER ∧
      p.nextToken.nextToken.current.Typ ≠ TokenType.STRING) := by
    rintro ⟨a, b, c⟩
    rcases h2 with h | h | h
    · exact a h
    · exact b h
    · exact c h
  unfold parsePrint
  dsimp only
  rw [if_neg (not_not.mpr h1), if_neg h2', if_neg (not_not.mpr h3)]

theorem Parse_single (p p1 : Parser) (stmt : Node)
    (hcur : p.current.Typ ≠ TokenType.EOF)
    (hs : ∀ fuel, parseStatement (fuel + 1) p = .ok stmt p1)
    (heof : p1.current.Typ = TokenType.EOF) :
    Parse p = .ok (Node.mk NodeType.BLOCK [] [stmt]) p1 := by
  unfold Parse
  rw [ParseLoop, if_pos hcur, hs]
  dsimp only
  rw [ParseLoop, if_neg (not_not.mpr heof)]
  rfl

end Parser

@[simp] theorem NewParser_current (l : Lexer) : (NewParser l).current = (l.NextToken).1 := rfl

@[simp] theorem NewParser_lexer (l : Lexer) : (NewParser l).lexer = (l.NextToken).2 := rfl

theorem kind_cases (v : Value) :
    v.kind = TokenType.NUMBER ∨ v.kind = TokenType.IDENT ∨ v.kind = TokenType.STRING := by
  cases v <;> simp [Value.kind]

theorem all_whitespace_space : ∀ c ∈ [32], Lexer.isWhitespace c = true := by decide

theorem all_whitespace_nil : ∀ c ∈ ([] : Str), Lexer.isWhitespace c = true := by simp

theorem parse_declareLine (n : Str) (v : Value) (hn : isIdentifierText n = true)
    (hv : v.wellFormed = true) :
    ∃ p, (NewParser (NewLexer (declareLine n v))).Parse =
      .ok (Node.mk NodeType.BLOCK []
        [Node.mk NodeType.VAR_DECL (n ++ ascii " = " ++ v.text) []]) p := by
  obtain ⟨c, cs, rfl, hc, hrun, hk⟩ := (isIdentifierText_iff n).mp hn
  have hnotkw : Lexer.identifierType (c :: cs) = TokenType.IDENT := by
    simp [Lexer.identifierType, hk]
  have hline : declareLine (c :: cs) v =
      [] ++ ((100 :: ascii "eclare") ++ (32 :: ((c :: cs) ++ (32 :: 61 :: 32 :: v.source)))) := by
    have e1 : ascii "declare " = 100 :: ascii "eclare" ++ [32] := by decide
    have e2 : ascii " = " = [32, 61, 32] := by decide
    rw [declareLine, e1, e2]
    simp
  have ekw : 100 :: ascii "eclare" = ascii "declare" := by decide
  have eeq : ([61] : Str) = ascii "=" := by decide
  have etyp : Lexer.identifierType (ascii "declare") = TokenType.KEYWORD := by decide
  generalize declareLine (c :: cs) v = L at hline ⊢
  have h0 : Lexes L (NewLexer L)
      ([] ++ ((100 :: ascii "eclare") ++ (32 :: ((c :: cs) ++ (32 :: 61 :: 32 :: v.source))))) := by
    rw [← hline]
    exact Lexes_NewLexer L
  obtain ⟨t0, l0, s0⟩ := lexes_ident h0 all_whitespace_nil (by decide) (by decide)
    (by intro d hd; simp only [List.head?_cons, Option.some.injEq] at hd; subst hd; decide)
  rw [ekw] at t0 l0
  rw [etyp] at t0
  have s0' : Lexes L (NewLexer L).NextToken.2
      ([32] ++ ((c :: cs) ++ (32 :: 61 :: 32 :: v.source))) := s0
  obtain ⟨t1, l1, s1⟩ := lexes_ident s0' all_whitespace_space hc hrun
    (by intro d hd; simp only [List.head?_cons, Option.some.injEq] at hd; subst hd; decide)
  rw [hnotkw] at t1
  have s1' : Lexes L (NewLexer L).NextToken.2.NextToken.2
      ([32] ++ (61 :: ([32] ++ (v.source ++ [])))) := by
    simpa using s1
  obtain ⟨t2, l2, s2⟩ := @lexes_assign _ _ _ ([32] ++ (v.source ++ [])) s1'
    all_whitespace_space (by simp)
  rw [eeq] at l2
  obtain ⟨t3, l3, s3⟩ := lexes_value v s2 all_whitespace_space hv (by simp)
  obtain ⟨t4, l4, s4⟩ := lexes_eof s3 all_whitespace_nil
  have hkw : (NewParser (NewLexer L)).current.Typ = TokenType.KEYWORD := by
    simp only [NewParser_current]
    exact t0
  have hlit : (NewParser (NewLexer L)).current.Literal = ascii "declare" := by
    simp only [NewParser_current]
    exact l0
  have h1 : (NewParser (NewLexer L)).nextToken.current.Typ = TokenType.IDENT := by
    simp only [Parser.nextToken_current, NewParser_lexer]
    exact t1
  have h2 : (NewParser (NewLexer L)).nextToken.nextToken.current.Literal = ascii "=" := by
    simp only [Parser.nextToken_current, Parser.nextToken_lexer, NewParser_lexer]
    exact l2
  have e3t : (NewParser (NewLexer L)).nextToken.nextToken.nextToken.current.Typ = v.kind := by
    simp only [Parser.nextToken_current, Parser.nextToken_lexer, NewParser_lexer]
    exact t3
  have hval : (NewParser (NewLexer L)).nextToken.nextToken.nextToken.current.Typ
        = TokenType.NUMBER ∨
      (NewParser (NewLexer L)).nextToken.nextToken.nextToken.current.Typ = TokenType.IDENT ∨
      (NewParser (NewLexer L)).nextToken.nextToken.nextToken.current.Typ
        = TokenType.STRING := by
    rw [e3t]
    exact kind_cases v
  have e1 : (NewParser (NewLexer L)).nextToken.current.Literal = c :: cs := by
    simp only [Parser.nextToken_current, NewParser_lexer]
    exact l1
  have e3 : (NewParser (NewLexer L)).nextToken.nextToken.nextToken.current.Literal
      = v.text := by
    simp only [Parser.nextToken_current, Parser.nextToken_lexer, NewParser_lexer]
    exact l3
  have e4 : (NewParser (NewLexer L)).nextToken.nextToken.nextToken.nextToken.current.Typ
      = TokenType.EOF := by
    simp only [Parser.nextToken_current, Parser.nextToken_lexer, NewParser_lexer]
    exact t4
  have hstmt : ∀ fuel, Parser.parseStatement (fuel + 1) (NewParser (NewLexer L))
      = .ok (Node.mk NodeType.VAR_DECL (c :: cs ++ ascii " = " ++ v.text) [])
        (NewParser (NewLexer L)).nextToken.nextToken.nextToken.nextToken := by
    intro fuel
    rw [Parser.parseStatement, if_pos hkw, if_pos hlit,
      Parser.parseVarDecl_ok _ h1 h2 hval, e1, e3]
  exact ⟨_, Parser.Parse_single _ _ _ (by rw [hkw]; decide) hstmt e4⟩

end Kisumu

namespace Kisumu

theorem parse_displayLine (v : Value) (hv : v.wellFormed = true) :
    ∃ p, (NewParser (NewLexer (displayLine v))).Parse =
      .ok (Node.mk NodeType.BLOCK []
        [Node.mk NodeType.PRINT (ascii "print " ++ v.text) []]) p := by
  have hline : displayLine v =
      [] ++ ((100 :: ascii "isplayln") ++ ([] ++ (40 :: ([] ++ (v.source ++ [41]))))) := by
    have e1 : ascii "displayln(" = 100 :: ascii "isplayln" ++ [40] := by decide
    have e2 : ascii ")" = [41] := by decide
    rw [displayLine, e1, e2]
    simp
  have ekw : 100 :: ascii "isplayln" = ascii "displayln" := by decide
  have eop : ([40] : Str) = ascii "(" := by decide
  have ecl : ([41] : Str) = ascii ")" := by decide
  have etyp : Lexer.identifierType (ascii "displayln") = TokenType.KEYWORD := by decide
  generalize displayLine v = L at hline ⊢
  have h0 : Lexes L (NewLexer L)
      ([] ++ ((100 :: ascii "isplayln") ++ ([] ++ (40 :: ([] ++ (v.source ++ [41])))))) := by
    rw [← hline]
    exact Lexes_NewLexer L
  obtain ⟨t0, l0, s0⟩ := lexes_ident h0 all_whitespace_nil (by decide) (by decide)
    (by intro d hd; simp only [List.nil_append, List.head?_cons, Option.some.injEq] at hd
        subst hd; decide)
  rw [ekw] at t0 l0
  rw [etyp] at t0
  obtain ⟨t1, l1, s1⟩ := lexes_operator s0 all_whitespace_nil (by decide)
  rw [eop] at l1
  obtain ⟨t2, l2, s2⟩ := lexes_value v s1 all_whitespace_nil hv
    (by intro d hd; simp only [List.head?_cons, Option.some.injEq] at hd; subst hd; decide)
  have s2' : Lexes L (NewLexer L).NextToken.2.NextToken.2.NextToken.2 ([] ++ (41 :: [])) := s2
  obtain ⟨t3, l3, s3⟩ := lexes_operator s2' all_whitespace_nil (by decide)
  rw [ecl] at l3
  obtain ⟨t4, l4, s4⟩ := lexes_eof s3 all_whitespace_nil
  have hkw : (NewParser (NewLexer L)).current.Typ = TokenType.KEYWORD := by
    simp only [NewParser_current]
    exact t0
  have hlit : (NewParser (NewLexer L)).current.Literal = ascii "displayln" := by
    simp only [NewParser_current]
    exact l0
  have hlit' : (NewParser (NewLexer L)).current.Literal ≠ ascii "declare" := by
    rw [hlit]
    decide
  have h1 : (NewParser (NewLexer L)).nextToken.current.Literal = ascii "(" := by
    simp only [Parser.nextToken_current, NewParser_lexer]
    exact l1
  have e2t : (NewParser (NewLexer L)).nextToken.nextToken.current.Typ = v.kind := by
    simp only [Parser.nextToken_current, Parser.nextToken_lexer, NewParser_lexer]
    exact t2
  have hval : (NewParser (NewLexer L)).nextToken.nextToken.current.Typ = TokenType.IDENT ∨
      (NewParser (NewLexer L)).nextToken.nextToken.current.Typ = TokenType.NUMBER ∨
      (NewParser (NewLexer L)).nextToken.nextToken.current.Typ = TokenType.STRING := by
    rw [e2t]
    rcases kind_cases v with h | h | h
    · exact Or.inr (Or.inl h)
    · exact Or.inl h
    · exact Or.inr (Or.inr h)
  have e2 : (NewParser (NewLexer L)).nextToken.nextToken.current.Literal = v.text := by
    simp only [Parser.nextToken_current, Parser.nextToken_lexer, NewParser_lexer]
    exact l2
  have h3 : (NewParser (NewLexer L)).nextToken.nextToken.nextToken.current.Literal
      = ascii ")" := by
    simp only [Parser.nextToken_current, Parser.nextToken_lexer, NewParser_lexer]
    exact l3
  have e4 : (NewParser (NewLexer L)).nextToken.nextToken.nextToken.nextToken.current.Typ
      = TokenType.EOF := by
    simp only [Parser.nextToken_current, Parser.nextToken_lexer, NewParser_lexer]
    exact t4
  have hstmt : ∀ fuel, Parser.parseStatement (fuel + 1) (NewParser (NewLexer L))
      = .ok (Node.mk NodeType.PRINT (ascii "print " ++ v.text) [])
        (NewParser (NewLexer L)).nextToken.nextToken.nextToken.nextToken := by
    intro fuel
    rw [Parser.parseStatement, if_pos hkw, if_neg hlit', if_pos hlit,
      Parser.parsePrint_ok _ h1 hval h3, e2]
  exact ⟨_, Parser.Parse_single _ _ _ (by rw [hkw]; decide) hstmt e4⟩

theorem identifier_bytes {n : Str} (hn : isIdentifierText n = true) :
    n ≠ [] ∧ ∀ d ∈ n, 48 ≤ d ∧ d ≤ 122 ∧ d ≠ 61 := by
  obtain ⟨c, cs, rfl, hc, hrun, _⟩ := (isIdentifierText_iff n).mp hn
  refine ⟨by simp, ?_⟩
  intro d hd
  have hld : Lexer.isLetter d = true ∨ Lexer.isDigit d = true := by
    rcases List.mem_cons.mp hd with rfl | h
    · exact Or.inl hc
    · simpa using hrun d h
  rcases hld with h | h
  · have := (Lexer.isLetter_iff d).mp h
    omega
  · have := (Lexer.isDigit_iff d).mp h
    omega

theorem TrimSpace_identifier_space {n : Str} (hn : isIdentifierText n = true) :
    TrimSpace (n ++ [32]) = n := by
  obtain ⟨hne, hb⟩ := identifier_bytes hn
  have hmem : ∀ s : Str, s ≠ [] → s.headD 0 ∈ s := by
    intro s hs
    cases s with
    | nil => exact absurd rfl hs
    | cons a as => simp
  have h1 := hb _ (hmem n hne)
  have h2 := hb _ (List.mem_reverse.mp (hmem n.reverse (by simpa using hne)))
  exact TrimSpace_append_space n hne (by omega) (by omega)

theorem Split_declare_literal {n : Str} (text : Str) (hn : isIdentifierText n = true)
    (heq : 61 ∉ text) :
    Split (n ++ ascii " = " ++ text) 61 = [n ++ [32], 32 :: text] := by
  have e2 : ascii " = " = [32, 61, 32] := by decide
  rw [Split_eq_pair, e2]
  refine ⟨by simp, ?_, ?_⟩
  · intro h
    rcases List.mem_append.mp h with h | h
    · exact (identifier_bytes hn).2 61 h |>.2.2 rfl
    · simp at h
  · intro h
    rcases List.mem_cons.mp h with h | h
    · simp at h
    · exact heq h

/-- C1 (amended): for every non-keyword identifier `n`, every value `v` (a
Number, Identifier or String token) whose text contains no `=`, and every
starting store, the line `declare n = v` lexes, parses and runs without error
and leaves the store as the old one with `n` set to the trimmed text of `v`;
after it, the line `displayln(n)` lexes, parses and runs and writes exactly a
Print event with that trimmed text. -/
theorem declare_then_display (vars : Store) (n : Str) (v : Value)
    (hn : isIdentifierText n = true) (hv : v.wellFormed = true) (heq : 61 ∉ v.text) :
    ∃ o, runLine vars (declareLine n v) = LineResult.ran o ∧ o.err = none ∧
      o.vars = vars.set n (TrimSpace v.text) ∧ o.vars n = some (TrimSpace v.text) ∧
      ∃ o2, runLine o.vars (displayLine (Value.ident n)) = LineResult.ran o2 ∧
        o2.err = none ∧ o2.vars = o.vars ∧ o2.output = [Event.Print (TrimSpace v.text)] := by
  obtain ⟨p, hp⟩ := parse_declareLine n v hn hv
  obtain ⟨p2, hp2⟩ := parse_displayLine (Value.ident n) hn
  have hrun : runLine vars (declareLine n v) = LineResult.ran (Interpret vars
      (Node.mk NodeType.BLOCK [] [Node.mk NodeType.VAR_DECL (n ++ ascii " = " ++ v.text) []])) := by
    simp only [runLine, hp]
  have hI : Interpret vars
      (Node.mk NodeType.BLOCK [] [Node.mk NodeType.VAR_DECL (n ++ ascii " = " ++ v.text) []])
      = { err := none, vars := vars.set n (TrimSpace v.text),
          output := [Event.VarDeclaration n (TrimSpace v.text)] } := by
    rw [Interpret, InterpretChildren_single,
      Interpret_VarDecl_ok vars _ _ _ [] (Split_declare_literal v.text hn heq),
      TrimSpace_identifier_space hn, TrimSpace_space_cons]
  refine ⟨_, hrun, ?_⟩
  rw [hI]
  refine ⟨rfl, rfl, by simp [Store.set], ?_⟩
  have hrun2 : runLine (vars.set n (TrimSpace v.text)) (displayLine (Value.ident n))
      = LineResult.ran (Interpret (vars.set n (TrimSpace v.text))
        (Node.mk NodeType.BLOCK [] [Node.mk NodeType.PRINT (ascii "print " ++ n) []])) := by
    simp only [runLine, hp2, Value.text]
  refine ⟨_, hrun2, ?_⟩
  rw [Interpret, InterpretChildren_single, Interpret, TrimPrefix_append]
  refine ⟨rfl, rfl, ?_⟩
  simp [evaluateExpression, Store.set]

/-- C1, witness: `declare x = 5` on the empty store. -/
theorem declare_then_display_witness :
    ∃ o, runLine emptyStore (declareLine (ascii "x") (Value.number (ascii "5")))
        = LineResult.ran o ∧ o.err = none ∧
      o.vars = emptyStore.set (ascii "x") (TrimSpace (Value.number (ascii "5")).text) ∧
      o.vars (ascii "x") = some (TrimSpace (Value.number (ascii "5")).text) ∧
      ∃ o2, runLine o.vars (displayLine (Value.ident (ascii "x"))) = LineResult.ran o2 ∧
        o2.err = none ∧ o2.vars = o.vars ∧
        o2.output = [Event.Print (TrimSpace (Value.number (ascii "5")).text)] :=
  declare_then_display emptyStore (ascii "x") (Value.number (ascii "5"))
    (by decide) (by decide) (by decide)

/-- C1, counterexample: the line `declare x = "a=b"` (identifier `x`, String
token `a=b`) parses, but running it returns the error, `x` stays unset, and
`displayln(x)` then writes Print `x`, not Print `a=b`. -/
theorem declare_string_with_equals :
    isIdentifierText (ascii "x") = true ∧
    (Value.string (ascii "a=b")).wellFormed = true ∧
    declareLine (ascii "x") (Value.string (ascii "a=b")) = ascii "declare x = \"a=b\"" ∧
    (runLine emptyStore (ascii "declare x = \"a=b\"")).err
      = some (RuntimeError.invalidVarDecl (ascii "x = a=b")) ∧
    (runLine emptyStore (ascii "declare x = \"a=b\"")).vars emptyStore (ascii "x") = none ∧
    (runLine ((runLine emptyStore (ascii "declare x = \"a=b\"")).vars emptyStore)
      (ascii "displayln(x)")).output = [Event.Print (ascii "x")] := by
  decide

end Kisumu

namespace Kisumu

/-- C8 (amended): for every line `declare n = v` (`n` an identifier, `v` a
Number, Identifier or String token) whose value text contains no `=`, the
literal of the parsed VarDecl node, split on `=` as the evaluator does, has
exactly two halves, which trimmed are the name `n` and the trimmed text of
`v`; and for every line `displayln(v)` the literal of the parsed Print node
with the prefix `print ` stripped is exactly the text of `v`. -/
theorem literal_round_trip (n : Str) (v : Value)
    (hn : isIdentifierText n = true) (hv : v.wellFormed = true) :
    (61 ∉ v.text →
      ∃ p literal a b,
        (NewParser (NewLexer (declareLine n v))).Parse =
          .ok (Node.mk NodeType.BLOCK [] [Node.mk NodeType.VAR_DECL literal []]) p ∧
        Split literal 61 = [a, b] ∧ TrimSpace a = n ∧ TrimSpace b = TrimSpace v.text) ∧
    (∃ p literal,
        (NewParser (NewLexer (displayLine v))).Parse =
          .ok (Node.mk NodeType.BLOCK [] [Node.mk NodeType.PRINT literal []]) p ∧
        TrimPrefix literal (ascii "print ") = v.text) := by
  constructor
  · intro heq
    obtain ⟨p, hp⟩ := parse_declareLine n v hn hv
    exact ⟨p, _, _, _, hp, Split_declare_literal v.text hn heq,
      TrimSpace_identifier_space hn, TrimSpace_space_cons v.text⟩
  · obtain ⟨p, hp⟩ := parse_displayLine v hv
    exact ⟨p, _, hp, TrimPrefix_append _ _⟩

/-- C8, witness: the lines `declare count = " 12 "` and `displayln(" 12 ")`. -/
theorem literal_round_trip_witness :
    ∃ p literal a b,
      (NewParser (NewLexer (declareLine (ascii "count") (Value.string (ascii " 12 "))))).Parse =
        .ok (Node.mk NodeType.BLOCK [] [Node.mk NodeType.VAR_DECL literal []]) p ∧
      Split literal 61 = [a, b] ∧ TrimSpace a = ascii "count" ∧
      TrimSpace b = TrimSpace (Value.string (ascii " 12 ")).text :=
  (literal_round_trip (ascii "count") (Value.string (ascii " 12 "))
    (by decide) (by decide)).1 (by decide)

/-- C8, counterexample: the line `declare s = "k=v"` parses to a VarDecl node
with literal `s = k=v`; split on `=` it has three pieces, not two halves, and
the piece after the name, trimmed, is `k`, not the text `k=v` of the value. -/
theorem literal_round_trip_lost :
    isIdentifierText (ascii "s") = true ∧
    (Value.string (ascii "k=v")).wellFormed = true ∧
    (∃ p, (NewParser (NewLexer (declareLine (ascii "s") (Value.string (ascii "k=v"))))).Parse =
      .ok (Node.mk NodeType.BLOCK [] [Node.mk NodeType.VAR_DECL (ascii "s = k=v") []]) p) ∧
    Split (ascii "s = k=v") 61 = [ascii "s ", ascii " k", ascii "v"] ∧
    TrimSpace (ascii " k") = ascii "k" ∧
    TrimSpace (Value.string (ascii "k=v")).text = ascii "k=v" :=
  ⟨by decide, by decide, ⟨_, rfl⟩, by decide, by decide, by decide⟩

end Kisumu

namespace Kisumu

/-! ## Parser: fuel -/

namespace Parser

theorem parseIf_congr (cb cb2 : Parser → PResult Node) (p : Parser)
    (h : ∀ q, cb q ≠ .fuelOut → cb2 q = cb q) (hne : parseIf cb p ≠ .fuelOut) :
    parseIf cb2 p = parseIf cb p := by
  unfold parseIf at hne ⊢
  dsimp only at hne ⊢
  split_ifs at hne ⊢ with h1
  · rfl
  · cases hc : parseCondition p.nextToken.nextToken with
    | fuelOut => rfl
    | error e => rfl
    | ok condition p3 =>
      rw [hc] at hne
      dsimp only at hne ⊢
      split_ifs at hne ⊢ with h2
      · rfl
      · have hcb : cb p3.nextToken ≠ .fuelOut := by
          intro hf
          rw [hf] at hne
          exact hne rfl
        rw [h _ hcb]

theorem parseOtherwise_congr (cb cb2 : Parser → PResult Node) (p : Parser)
    (h : ∀ q, cb q ≠ .fuelOut → cb2 q = cb q) (hne : parseOtherwise cb p ≠ .fuelOut) :
    parseOtherwise cb2 p = parseOtherwise cb p := by
  unfold parseOtherwise at hne ⊢
  dsimp only at hne ⊢
  split_ifs at hne ⊢ with h1
  · rfl
  · have hcb : cb p.nextToken.nextToken ≠ .fuelOut := by
      intro hf
      rw [hf] at hne
      exact hne rfl
    rw [h _ hcb]

theorem fuel_succ (fuel : Nat) :
    (∀ p, parseStatement fuel p ≠ .fuelOut →
      parseStatement (fuel + 1) p = parseStatement fuel p) ∧
    (∀ acc p, parseBlockLoop fuel acc p ≠ .fuelOut →
      parseBlockLoop (fuel + 1) acc p = parseBlockLoop fuel acc p) := by
  induction fuel with
  | zero =>
    constructor
    · intro p h
      exact absurd rfl h
    · intro acc p h
      exact absurd rfl h
  | succ f ih =>
    constructor
    · intro p h
      rw [parseStatement] at h
      rw [parseStatement, parseStatement]
      split_ifs at h ⊢ with h1 h2 h3 h4 h5
      · rfl
      · rfl
      · exact parseIf_congr _ _ p (fun q hq => ih.2 [] q hq) h
      · exact parseOtherwise_congr _ _ p (fun q hq => ih.2 [] q hq) h
      · rfl
      · rfl
    · intro acc p h
      rw [parseBlockLoop] at h
      rw [parseBlockLoop, parseBlockLoop]
      split_ifs at h ⊢ with h1
      · have hs : parseStatement f p ≠ .fuelOut := by
          intro hf
          rw [hf] at h
          exact h rfl
        rw [ih.1 p hs]
        cases hst : parseStatement f p with
        | fuelOut => exact absurd hst hs
        | error e => rfl
        | ok stmt p1 =>
          rw [hst] at h
          dsimp only at h ⊢
          exact ih.2 _ p1 h
      · rfl

theorem parseStatement_fuel_le {f f2 : Nat} (hle : f ≤ f2) (p : Parser)
    (h : parseStatement f p ≠ .fuelOut) : parseStatement f2 p = parseStatement f p := by
  induction hle with
  | refl => rfl
  | step _ ih => rw [(fuel_succ _).1 p (by rw [ih]; exact h), ih]

theorem parseBlockLoop_fuel_le {f f2 : Nat} (hle : f ≤ f2) (acc : List Node) (p : Parser)
    (h : parseBlockLoop f acc p ≠ .fuelOut) :
    parseBlockLoop f2 acc p = parseBlockLoop f acc p := by
  induction hle with
  | refl => rfl
  | step _ ih => rw [(fuel_succ _).2 acc p (by rw [ih]; exact h), ih]

theorem ParseLoop_fuel_succ (fuel : Nat) :
    ∀ acc p, ParseLoop fuel acc p ≠ .fuelOut →
      ParseLoop (fuel + 1) acc p = ParseLoop fuel acc p := by
  induction fuel with
  | zero =>
    intro acc p h
    exact absurd rfl h
  | succ f ih =>
    intro acc p h
    rw [ParseLoop] at h
    rw [ParseLoop, ParseLoop]
    split_ifs at h ⊢ with h1
    · have hs : parseStatement f p ≠ .fuelOut := by
        intro hf
        rw [hf] at h
        exact h rfl
      rw [(fuel_succ f).1 p hs]
      cases hst : parseStatement f p with
      | fuelOut => exact absurd hst hs
      | error e => rfl
      | ok stmt p1 =>
        rw [hst] at h
        dsimp only at h ⊢
        exact ih _ p1 h
    · rfl

theorem ParseLoop_fuel_le {f f2 : Nat} (hle : f ≤ f2) (acc : List Node) (p : Parser)
    (h : ParseLoop f acc p ≠ .fuelOut) : ParseLoop f2 acc p = ParseLoop f acc p := by
  induction hle with
  | refl => rfl
  | step _ ih => rw [ParseLoop_fuel_succ _ acc p (by rw [ih]; exact h), ih]

end Parser

end Kisumu

namespace Kisumu

/-! ## Parser: what each method accepts -/

namespace Parser

theorem advance_add (a b : Nat) (p : Parser) : advance (a + b) p = advance b (advance a p) := by
  induction a generalizing p with
  | zero => simp [advance]
  | succ k ih =>
    rw [Nat.succ_add, advance, advance, ih]

theorem tokens_add (a b : Nat) (p : Parser) :
    tokens (a + b) p = tokens a p ++ tokens b (advance a p) := by
  induction a generalizing p with
  | zero => simp [tokens, advance]
  | succ k ih =>
    rw [Nat.succ_add, tokens, tokens, advance, ih, List.cons_append]

theorem tokens_length (n : Nat) (p : Parser) : (tokens n p).length = n := by
  induction n generalizing p with
  | zero => rfl
  | succ k ih => simp [tokens, ih]

theorem advance_succ_last (n : Nat) (p : Parser) : advance (n + 1) p = (advance n p).nextToken := by
  rw [advance_add]
  rfl

theorem tokens_succ_last (n : Nat) (p : Parser) :
    tokens (n + 1) p = tokens n p ++ [(advance n p).current] := by
  rw [tokens_add]
  rfl

theorem parseVarDecl_eq_ok (p : Parser) (node : Node) (p2 : Parser) :
    parseVarDecl p = .ok node p2 ↔
      p.nextToken.current.Typ = TokenType.IDENT ∧
      p.nextToken.nextToken.current.Literal = ascii "=" ∧
      Grammar.isValue p.nextToken.nextToken.nextToken.current ∧
      node = Node.mk NodeType.VAR_DECL (p.nextToken.current.Literal ++ ascii " = "
        ++ p.nextToken.nextToken.nextToken.current.Literal) [] ∧
      p2 = p.nextToken.nextToken.nextToken.nextToken := by
  constructor
  · intro h
    unfold parseVarDecl at h
    dsimp only at h
    split_ifs at h with h1 h2 h3
    injection h with hn hp
    refine ⟨not_not.mp h1, not_not.mp h2, ?_, hn.symm, hp.symm⟩
    unfold Grammar.isValue
    by_contra hc
    exact h3 ⟨fun e => hc (Or.inl e), fun e => hc (Or.inr (Or.inl e)),
      fun e => hc (Or.inr (Or.inr e))⟩
  · rintro ⟨h1, h2, h3, rfl, rfl⟩
    exact parseVarDecl_ok p h1 h2 h3

theorem parsePrint_eq_ok (p : Parser) (node : Node) (p2 : Parser) :
    parsePrint p = .ok node p2 ↔
      p.nextToken.current.Literal = ascii "(" ∧
      Grammar.isValue p.nextToken.nextToken.current ∧
      p.nextToken.nextToken.nextToken.current.Literal = ascii ")" ∧
      node = Node.mk NodeType.PRINT
        (ascii "print " ++ p.nextToken.nextToken.current.Literal) [] ∧
      p2 = p.nextToken.nextToken.nextToken.nextToken := by
  constructor
  · intro h
    unfold parsePrint at h
    dsimp only at h
    split_ifs at h with h1 h2 h3
    injection h with hn hp
    refine ⟨not_not.mp h1, ?_, not_not.mp h3, hn.symm, hp.symm⟩
    unfold Grammar.isValue
    by_contra hc
    exact h2 ⟨fun e => hc (Or.inr (Or.inl e)), fun e => hc (Or.inl e),
      fun e => hc (Or.inr (Or.inr e))⟩
  · rintro ⟨h1, h2, h3, rfl, rfl⟩
    refine parsePrint_ok p h1 ?_ h3
    rcases h2 with h | h | h
    · exact Or.inr (Or.inl h)
    · exact Or.inl h
    · exact Or.inr (Or.inr h)

theorem parseCondition_eq_ok (p : Parser) (c : Str) (p2 : Parser) :
    parseCondition p = .ok c p2 ↔
      p.nextToken.current.Typ = TokenType.OPERATOR ∧
      c = p.current.Literal ++ ascii " " ++ p.nextToken.current.Literal ++ ascii " "
        ++ p.nextToken.nextToken.current.Literal ∧
      p2 = p.nextToken.nextToken.nextToken := by
  constructor
  · intro h
    unfold parseCondition at h
    dsimp only at h
    split_ifs at h with h1
    injection h with hn hp
    exact ⟨not_not.mp h1, hn.symm, hp.symm⟩
  · rintro ⟨h1, rfl, rfl⟩
    unfold parseCondition
    dsimp only
    rw [if_neg (not_not.mpr h1)]

theorem parseCondition_ne_fuelOut (p : Parser) : parseCondition p ≠ .fuelOut := by
  unfold parseCondition
  dsimp only
  split_ifs <;> simp

theorem parseIf_eq_ok (cb : Parser → PResult Node) (p : Parser) (node : Node) (p2 : Parser) :
    parseIf cb p = .ok node p2 ↔
      p.nextToken.current.Literal = ascii "case" ∧
      (advance 3 p).current.Typ = TokenType.OPERATOR ∧
      (advance 5 p).current.Literal = ascii "\x7b" ∧
      ∃ block p5, cb (advance 6 p) = .ok block p5 ∧
        p5.current.Literal = ascii "\x7d" ∧
        node = Node.mk NodeType.IF (ascii "if " ++ ((advance 2 p).current.Literal ++ ascii " "
          ++ (advance 3 p).current.Literal ++ ascii " " ++ (advance 4 p).current.Literal))
          [block] ∧
        p2 = p5.nextToken := by
  constructor
  · intro h
    unfold parseIf at h
    dsimp only at h
    split_ifs at h with h1
    cases hc : parseCondition p.nextToken.nextToken with
    | fuelOut => rw [hc] at h; cases h
    | error e => rw [hc] at h; cases h
    | ok condition p3 =>
      rw [hc] at h
      dsimp only at h
      obtain ⟨hop, rfl, rfl⟩ := (parseCondition_eq_ok _ _ _).mp hc
      split_ifs at h with h2
      cases hb : cb p.nextToken.nextToken.nextToken.nextToken.nextToken.nextToken with
      | fuelOut => rw [hb] at h; cases h
      | error e => rw [hb] at h; cases h
      | ok block p5 =>
        rw [hb] at h
        dsimp only at h
        split_ifs at h with h3
        injection h with hn hp
        exact ⟨not_not.mp h1, hop, not_not.mp h2, block, p5, hb, not_not.mp h3, hn.symm,
          hp.symm⟩
  · rintro ⟨h1, hop, h2, block, p5, hb, h3, rfl, rfl⟩
    have hc : parseCondition p.nextToken.nextToken = .ok
        ((advance 2 p).current.Literal ++ ascii " " ++ (advance 3 p).current.Literal
          ++ ascii " " ++ (advance 4 p).current.Literal) (advance 5 p) :=
      (parseCondition_eq_ok _ _ _).mpr ⟨hop, rfl, rfl⟩
    unfold parseIf
    dsimp only
    rw [if_neg (not_not.mpr h1), hc]
    dsimp only
    rw [if_neg (not_not.mpr h2)]
    have hb2 : cb (advance 5 p).nextToken = .ok block p5 := hb
    rw [hb2]
    dsimp only
    rw [if_neg (not_not.mpr h3)]

theorem parseOtherwise_eq_ok (cb : Parser → PResult Node) (p : Parser) (node : Node)
    (p2 : Parser) :
    parseOtherwise cb p = .ok node p2 ↔
      p.nextToken.current.Literal = ascii "\x7b" ∧
      ∃ block p3, cb (advance 2 p) = .ok block p3 ∧
        p3.current.Literal = ascii "\x7d" ∧
        node = Node.mk NodeType.OTHERWISE (ascii "otherwise") [block] ∧
        p2 = p3.nextToken := by
  constructor
  · intro h
    unfold parseOtherwise at h
    dsimp only at h
    split_ifs at h with h1
    cases hb : cb p.nextToken.nextToken with
    | fuelOut => rw [hb] at h; cases h
    | error e => rw [hb] at h; cases h
    | ok block p3 =>
      rw [hb] at h
      dsimp only at h
      split_ifs at h with h3
      injection h with hn hp
      exact ⟨not_not.mp h1, block, p3, hb, not_not.mp h3, hn.symm, hp.symm⟩
  · rintro ⟨h1, block, p3, hb, h3, rfl, rfl⟩
    unfold parseOtherwise
    dsimp only
    have hb2 : cb p.nextToken.nextToken = .ok block p3 := hb
    rw [if_neg (not_not.mpr h1), hb2]
    dsimp only
    rw [if_neg (not_not.mpr h3)]

end Parser

end Kisumu

namespace Kisumu

/-! ## Parser and grammar -/

namespace Parser

theorem parseStatement_eq_ok (f : Nat) (p : Parser) (node : Node) (p2 : Parser) :
    parseStatement (f + 1) p = .ok node p2 ↔
      p.current.Typ = TokenType.KEYWORD ∧
      ((p.current.Literal = ascii "declare" ∧ parseVarDecl p = .ok node p2) ∨
       (p.current.Literal = ascii "displayln" ∧ parsePrint p = .ok node p2) ∨
       (p.current.Literal = ascii "if" ∧ parseIf (parseBlockLoop f []) p = .ok node p2) ∨
       (p.current.Literal = ascii "otherwise" ∧
          parseOtherwise (parseBlockLoop f []) p = .ok node p2)) := by
  have d1 : ascii "declare" ≠ ascii "displayln" := by decide
  have d2 : ascii "declare" ≠ ascii "if" := by decide
  have d3 : ascii "declare" ≠ ascii "otherwise" := by decide
  have d4 : ascii "displayln" ≠ ascii "if" := by decide
  have d5 : ascii "displayln" ≠ ascii "otherwise" := by decide
  have d6 : ascii "if" ≠ ascii "otherwise" := by decide
  rw [parseStatement]
  by_cases hk : p.current.Typ = TokenType.KEYWORD
  · rw [if_pos hk]
    by_cases h1 : p.current.Literal = ascii "declare"
    · rw [if_pos h1]
      simp only [hk, h1, true_and, d1, d2, d3, false_and, or_false]
    · rw [if_neg h1]
      by_cases h2 : p.current.Literal = ascii "displayln"
      · rw [if_pos h2]
        simp only [hk, h2, true_and, d1.symm, d4, d5, false_and, or_false, false_or]
      · rw [if_neg h2]
        by_cases h3 : p.current.Literal = ascii "if"
        · rw [if_pos h3]
          simp only [hk, h3, true_and, d2.symm, d4.symm, d6, false_and, or_false, false_or]
        · rw [if_neg h3]
          by_cases h4 : p.current.Literal = ascii "otherwise"
          · rw [if_pos h4]
            simp only [hk, h4, true_and, d3.symm, d5.symm, d6.symm, false_and, false_or]
          · rw [if_neg h4]
            simp only [h1, h2, h3, h4, false_and, or_false, and_false]
            constructor
            · intro h
              cases h
            · exact False.elim
  · rw [if_neg hk]
    simp only [hk, false_and]
    constructor
    · intro h
      cases h
    · exact False.elim

theorem parseBlockLoop_succ (f : Nat) (acc : List Node) (p : Parser) :
    parseBlockLoop (f + 1) acc p =
      if p.current.Typ ≠ TokenType.EOF ∧ p.current.Literal ≠ ascii "\x7d" then
        match parseStatement f p with
        | .fuelOut => .fuelOut
        | .error err => .error err
        | .ok stmt p1 => parseBlockLoop f (acc ++ [stmt]) p1
      else .ok (Node.mk NodeType.BLOCK [] acc) p := by
  rw [parseBlockLoop]

theorem sound (f : Nat) :
    (∀ p node p2, parseStatement f p = .ok node p2 →
      ∃ n, Grammar.Derives Grammar.Cat.statement (tokens n p) ∧ p2 = advance n p) ∧
    (∀ acc p node p2, parseBlockLoop f acc p = .ok node p2 →
      ∃ n, Grammar.Derives Grammar.Cat.statements (tokens n p) ∧ p2 = advance n p ∧
        ¬ (p2.current.Typ ≠ TokenType.EOF ∧ p2.current.Literal ≠ ascii "\x7d")) := by
  induction f with
  | zero =>
    constructor
    · intro p node p2 h
      cases h
    · intro acc p node p2 h
      cases h
  | succ f ih =>
    constructor
    · intro p node p2 h
      obtain ⟨hk, hcase⟩ := (parseStatement_eq_ok f p node p2).mp h
      rcases hcase with ⟨hl, hp⟩ | ⟨hl, hp⟩ | ⟨hl, hp⟩ | ⟨hl, hp⟩
      · obtain ⟨h1, h2, h3, _, rfl⟩ := (parseVarDecl_eq_ok _ _ _).mp hp
        exact ⟨4, Grammar.Derives.varDecl _ _ _ _ ⟨hk, hl⟩ h1 h2 h3, rfl⟩
      · obtain ⟨h1, h2, h3, _, rfl⟩ := (parsePrint_eq_ok _ _ _).mp hp
        exact ⟨4, Grammar.Derives.print _ _ _ _ ⟨hk, hl⟩ h1 h2 h3, rfl⟩
      · obtain ⟨h1, hop, h2, block, p5, hb, h3, _, rfl⟩ := (parseIf_eq_ok _ _ _ _).mp hp
        obtain ⟨n, hd, rfl, _⟩ := ih.2 [] _ block p5 hb
        refine ⟨6 + n + 1, ?_, ?_⟩
        · rw [tokens_succ_last, tokens_add]
          have h3' : (advance (6 + n) p).current.Literal = ascii "\x7d" := by
            rw [advance_add]
            exact h3
          exact Grammar.Derives.ifStmt p.current _ _ _ _ _ _ _ ⟨hk, hl⟩ h1 hop h2 hd h3'
        · rw [advance_succ_last (6 + n), advance_add 6 n]
      · obtain ⟨h1, block, p3, hb, h3, _, rfl⟩ := (parseOtherwise_eq_ok _ _ _ _).mp hp
        obtain ⟨n, hd, rfl, _⟩ := ih.2 [] _ block p3 hb
        refine ⟨2 + n + 1, ?_, ?_⟩
        · rw [tokens_succ_last, tokens_add]
          have h3' : (advance (2 + n) p).current.Literal = ascii "\x7d" := by
            rw [advance_add]
            exact h3
          exact Grammar.Derives.otherwise p.current _ _ _ ⟨hk, hl⟩ h1 hd h3'
        · rw [advance_succ_last (2 + n), advance_add 2 n]
    · intro acc p node p2 h
      rw [parseBlockLoop_succ] at h
      split_ifs at h with hc
      · cases hs : parseStatement f p with
        | fuelOut => rw [hs] at h; cases h
        | error e => rw [hs] at h; cases h
        | ok stmt p1 =>
          rw [hs] at h
          dsimp only at h
          obtain ⟨n1, hd1, rfl⟩ := ih.1 p stmt p1 hs
          obtain ⟨n2, hd2, rfl, hstop⟩ := ih.2 _ _ node p2 h
          refine ⟨n1 + n2, ?_, ?_, ?_⟩
          · rw [tokens_add]
            exact Grammar.Derives.more _ _ hd1 hd2
          · rw [advance_add]
          · exact hstop
      · injection h with _ hp
        subst hp
        exact ⟨0, Grammar.Derives.none, rfl, hc⟩

theorem ParseLoop_sound (f : Nat) :
    ∀ acc p node p2, ParseLoop f acc p = .ok node p2 →
      ∃ n, Grammar.Derives Grammar.Cat.statements (tokens n p) ∧ p2 = advance n p ∧
        p2.current.Typ = TokenType.EOF := by
  induction f with
  | zero =>
    intro acc p node p2 h
    cases h
  | succ f ih =>
    intro acc p node p2 h
    rw [ParseLoop] at h
    split_ifs at h with hc
    · cases hs : parseStatement f p with
      | fuelOut => rw [hs] at h; cases h
      | error e => rw [hs] at h; cases h
      | ok stmt p1 =>
        rw [hs] at h
        dsimp only at h
        obtain ⟨n1, hd1, rfl⟩ := (sound f).1 p stmt p1 hs
        obtain ⟨n2, hd2, rfl, hstop⟩ := ih _ _ node p2 h
        refine ⟨n1 + n2, ?_, ?_, ?_⟩
        · rw [tokens_add]
          exact Grammar.Derives.more _ _ hd1 hd2
        · rw [advance_add]
        · exact hstop
    · injection h with _ hp
      subst hp
      exact ⟨0, Grammar.Derives.none, rfl, not_not.mp hc⟩

end Parser

end Kisumu

namespace Kisumu

namespace Parser

theorem statement_head {c : Grammar.Cat} {ts : List Token} (h : Grammar.Derives c ts)
    (hc : c = Grammar.Cat.statement) :
    ∃ kw rest, ts = kw :: rest ∧ kw.Typ = TokenType.KEYWORD ∧ kw.Literal ≠ ascii "\x7d" := by
  have d1 : ascii "declare" ≠ ascii "\x7d" := by decide
  have d2 : ascii "displayln" ≠ ascii "\x7d" := by decide
  have d3 : ascii "if" ≠ ascii "\x7d" := by decide
  have d4 : ascii "otherwise" ≠ ascii "\x7d" := by decide
  cases h with
  | varDecl kw name eq value hk => exact ⟨kw, _, rfl, hk.1, by rw [hk.2]; exact d1⟩
  | print kw lparen value rparen hk => exact ⟨kw, _, rfl, hk.1, by rw [hk.2]; exact d2⟩
  | ifStmt kw case left op right lbrace rbrace body hk =>
    exact ⟨kw, _, rfl, hk.1, by rw [hk.2]; exact d3⟩
  | otherwise kw lbrace rbrace body hk => exact ⟨kw, _, rfl, hk.1, by rw [hk.2]; exact d4⟩
  | none => cases hc
  | more first rest => cases hc

theorem tokens_head {n : Nat} {p : Parser} {kw : Token} {rest : List Token}
    (h : tokens n p = kw :: rest) : p.current = kw := by
  cases n with
  | zero => cases h
  | succ k =>
    rw [tokens] at h
    injection h

theorem tokens_append_inv {a b : List Token} {p : Parser}
    (h : tokens (a ++ b).length p = a ++ b) :
    tokens a.length p = a ∧ tokens b.length (advance a.length p) = b := by
  rw [List.length_append, tokens_add] at h
  exact List.append_inj h (tokens_length _ _)

theorem complete {c : Grammar.Cat} {ts : List Token} (h : Grammar.Derives c ts) :
    (c = Grammar.Cat.statement → ∀ p, tokens ts.length p = ts →
      ∃ f node, parseStatement f p = .ok node (advance ts.length p)) ∧
    (c = Grammar.Cat.statements → ∀ p, tokens ts.length p = ts →
      (¬ ((advance ts.length p).current.Typ ≠ TokenType.EOF ∧
          (advance ts.length p).current.Literal ≠ ascii "\x7d") →
        ∀ acc, ∃ f node, parseBlockLoop f acc p = .ok node (advance ts.length p)) ∧
      ((advance ts.length p).current.Typ = TokenType.EOF →
        ∀ acc, ∃ f node, ParseLoop f acc p = .ok node (advance ts.length p))) := by
  induction h with
  | varDecl kw name eq value hk hname heq hvalue =>
    refine ⟨fun _ p hp => ?_, fun hc => by cases hc⟩
    have hp' : [p.current, p.nextToken.current, p.nextToken.nextToken.current,
        p.nextToken.nextToken.nextToken.current] = [kw, name, eq, value] := hp
    simp only [List.cons.injEq, and_true] at hp'
    obtain ⟨e0, e1, e2, e3⟩ := hp'
    refine ⟨1, _, (parseStatement_eq_ok 0 p _ _).mpr ⟨by rw [e0]; exact hk.1, Or.inl
      ⟨by rw [e0]; exact hk.2, (parseVarDecl_eq_ok p _ _).mpr
        ⟨by rw [e1]; exact hname, by rw [e2]; exact heq, by rw [e3]; exact hvalue, rfl, rfl⟩⟩⟩⟩
  | print kw lparen value rparen hk hl hvalue hr =>
    refine ⟨fun _ p hp => ?_, fun hc => by cases hc⟩
    have hp' : [p.current, p.nextToken.current, p.nextToken.nextToken.current,
        p.nextToken.nextToken.nextToken.current] = [kw, lparen, value, rparen] := hp
    simp only [List.cons.injEq, and_true] at hp'
    obtain ⟨e0, e1, e2, e3⟩ := hp'
    refine ⟨1, _, (parseStatement_eq_ok 0 p _ _).mpr ⟨by rw [e0]; exact hk.1, Or.inr (Or.inl
      ⟨by rw [e0]; exact hk.2, (parsePrint_eq_ok p _ _).mpr
        ⟨by rw [e1]; exact hl, by rw [e2]; exact hvalue, by rw [e3]; exact hr, rfl, rfl⟩⟩)⟩⟩
  | ifStmt kw case left op right lbrace rbrace body hk hcase hop hlb _ hrb ih =>
    refine ⟨fun _ p hp => ?_, fun hc => by cases hc⟩
    have hsplit := tokens_append_inv hp
    obtain ⟨hfront, hlast⟩ := hsplit
    obtain ⟨hhead, hbody⟩ := tokens_append_inv hfront
    have hhead' : [p.current, (advance 1 p).current, (advance 2 p).current,
        (advance 3 p).current, (advance 4 p).current, (advance 5 p).current]
        = [kw, case, left, op, right, lbrace] := hhead
    simp only [List.cons.injEq, and_true] at hhead'
    obtain ⟨e0, e1, e2, e3, e4, e5⟩ := hhead'
    have hbody' : tokens body.length (advance 6 p) = body := hbody
    have hlen : ([kw, case, left, op, right, lbrace] ++ body).length = 6 + body.length := by
      simp
      omega
    have hlast' : (advance (6 + body.length) p).current = rbrace := by
      rw [hlen] at hlast
      exact tokens_head hlast
    have hlen2 : ([kw, case, left, op, right, lbrace] ++ body ++ [rbrace]).length
        = 6 + body.length + 1 := by
      rw [List.length_append, hlen]
      rfl
    have hstop : ¬ ((advance body.length (advance 6 p)).current.Typ ≠ TokenType.EOF ∧
        (advance body.length (advance 6 p)).current.Literal ≠ ascii "\x7d") := by
      rw [← advance_add, hlast', hrb]
      exact fun hh => hh.2 rfl
    obtain ⟨f, block, hblock⟩ := ((ih.2 rfl) (advance 6 p) hbody').1 hstop []
    refine ⟨f + 1, _, (parseStatement_eq_ok f p _ _).mpr ⟨by rw [e0]; exact hk.1,
      Or.inr (Or.inr (Or.inl ⟨by rw [e0]; exact hk.2, (parseIf_eq_ok _ p _ _).mpr
        ⟨by rw [show p.nextToken.current = (advance 1 p).current from rfl, e1]; exact hcase,
          by rw [e3]; exact hop, by rw [e5]; exact hlb, block, _, hblock,
          by rw [← advance_add, hlast']; exact hrb, rfl, ?_⟩⟩))⟩⟩
    rw [hlen2, advance_succ_last (6 + body.length), advance_add 6]
  | otherwise kw lbrace rbrace body hk hlb _ hrb ih =>
    refine ⟨fun _ p hp => ?_, fun hc => by cases hc⟩
    have hsplit := tokens_append_inv hp
    obtain ⟨hfront, hlast⟩ := hsplit
    obtain ⟨hhead, hbody⟩ := tokens_append_inv hfront
    have hhead' : [p.current, (advance 1 p).current] = [kw, lbrace] := hhead
    simp only [List.cons.injEq, and_true] at hhead'
    obtain ⟨e0, e1⟩ := hhead'
    have hbody' : tokens body.length (advance 2 p) = body := hbody
    have hlen : ([kw, lbrace] ++ body).length = 2 + body.length := by
      simp
      omega
    have hlast' : (advance (2 + body.length) p).current = rbrace := by
      rw [hlen] at hlast
      exact tokens_head hlast
    have hlen2 : ([kw, lbrace] ++ body ++ [rbrace]).length = 2 + body.length + 1 := by
      rw [List.length_append, hlen]
      rfl
    have hstop : ¬ ((advance body.length (advance 2 p)).current.Typ ≠ TokenType.EOF ∧
        (advance body.length (advance 2 p)).current.Literal ≠ ascii "\x7d") := by
      rw [← advance_add, hlast', hrb]
      exact fun hh => hh.2 rfl
    obtain ⟨f, block, hblock⟩ := ((ih.2 rfl) (advance 2 p) hbody').1 hstop []
    refine ⟨f + 1, _, (parseStatement_eq_ok f p _ _).mpr ⟨by rw [e0]; exact hk.1,
      Or.inr (Or.inr (Or.inr ⟨by rw [e0]; exact hk.2, (parseOtherwise_eq_ok _ p _ _).mpr
        ⟨by rw [show p.nextToken.current = (advance 1 p).current from rfl, e1]; exact hlb,
          block, _, hblock, by rw [← advance_add, hlast']; exact hrb, rfl, ?_⟩⟩))⟩⟩
    rw [hlen2, advance_succ_last (2 + body.length), advance_add 2]
  | none =>
    refine ⟨fun hc => (by cases hc), fun _ p _ => ⟨?_, ?_⟩⟩
    · intro hstop acc
      have hstop' : ¬ (p.current.Typ ≠ TokenType.EOF ∧ p.current.Literal ≠ ascii "\x7d") :=
        hstop
      refine ⟨1, Node.mk NodeType.BLOCK [] acc, ?_⟩
      rw [parseBlockLoop_succ, if_neg hstop']
      rfl
    · intro hstop acc
      have hstop' : p.current.Typ = TokenType.EOF := hstop
      refine ⟨1, Node.mk NodeType.BLOCK [] acc, ?_⟩
      rw [ParseLoop, if_neg (not_not.mpr hstop')]
      rfl
  | more first rest hfirst _ ih1 ih2 =>
    refine ⟨fun hc => (by cases hc), fun _ p hp => ?_⟩
    obtain ⟨h1, h2⟩ := tokens_append_inv hp
    obtain ⟨kw, tl, hkw, hkt, hkl⟩ := statement_head hfirst rfl
    have hcur : p.current = kw := by
      rw [hkw] at h1
      exact tokens_head h1
    have hcont : p.current.Typ ≠ TokenType.EOF ∧ p.current.Literal ≠ ascii "\x7d" := by
      rw [hcur, hkt]
      exact ⟨by decide, hkl⟩
    obtain ⟨f1, stmt, hstmt⟩ := (ih1.1 rfl) p h1
    have hne : parseStatement f1 p ≠ .fuelOut := by
      rw [hstmt]
      exact fun hh => by cases hh
    have hadv : advance (first ++ rest).length p = advance rest.length (advance first.length p) := by
      rw [List.length_append, advance_add]
    rw [hadv]
    constructor
    · intro hstop acc
      obtain ⟨f2, node, hnode⟩ := ((ih2.2 rfl) _ h2).1 hstop (acc ++ [stmt])
      have hne2 : parseBlockLoop f2 (acc ++ [stmt]) (advance first.length p) ≠ .fuelOut := by
        rw [hnode]
        exact fun hh => by cases hh
      refine ⟨max f1 f2 + 1, node, ?_⟩
      rw [parseBlockLoop_succ, if_pos hcont,
        parseStatement_fuel_le (Nat.le_max_left f1 f2) p hne, hstmt]
      dsimp only
      rw [parseBlockLoop_fuel_le (Nat.le_max_right f1 f2) _ _ hne2, hnode]
    · intro hstop acc
      obtain ⟨f2, node, hnode⟩ := ((ih2.2 rfl) _ h2).2 hstop (acc ++ [stmt])
      have hne2 : ParseLoop f2 (acc ++ [stmt]) (advance first.length p) ≠ .fuelOut := by
        rw [hnode]
        exact fun hh => by cases hh
      refine ⟨max f1 f2 + 1, node, ?_⟩
      rw [ParseLoop, if_pos hcont.1,
        parseStatement_fuel_le (Nat.le_max_left f1 f2) p hne, hstmt]
      dsimp only
      rw [ParseLoop_fuel_le (Nat.le_max_right f1 f2) _ _ hne2, hnode]

end Parser

end Kisumu

namespace Kisumu

/-! ## Lexer: every call moves on -/

namespace Lexer

theorem NextToken_error (input : Str) (p line col c : Nat) (hch : input.getD p 0 = c)
    (hws : isWhitespace c = false) (h61 : c ≠ 61)
    (hop : ¬ (c = 62 ∨ c = 60 ∨ c = 40 ∨ c = 41 ∨ c = 123 ∨ c = 125)) (h34 : c ≠ 34)
    (h0 : c ≠ 0) (hl : isLetter c = false) (hd : isDigit c = false) :
    (atPos input p line col).NextToken =
      ({ Typ := TokenType.ERROR, Literal := stringOfByte c, Line := line, Column := col },
        atPos input (p + 1) line (col + 1)) := by
  have hnws : isWhitespace (atPos input p line col).ch = false := by
    rw [atPos_ch, hch]
    exact hws
  unfold NextToken
  rw [skipWhitespace_of_not_ws _ hnws]
  simp only [atPos_ch, hch, readChar_atPos, newToken, atPos_line, atPos_column]
  rw [if_neg h61, if_neg hop, if_neg h34, if_neg h0, if_neg (by rw [hl]; exact Bool.false_ne_true),
    if_neg (by rw [hd]; exact Bool.false_ne_true)]

theorem mem_takeWhile {f : Nat → Bool} {s : Str} {c : Nat} (h : c ∈ s.takeWhile f) :
    f c = true :=
  List.mem_takeWhile_imp h

/-- Every `NextToken` call on a lexer that stands at index `p` leaves a lexer
that stands at a larger index; a token other than EndOfInput starts inside the
input; an EndOfInput token has empty text. -/
theorem NextToken_progress (input : Str) (p line col : Nat) :
    ∃ p2 line2 col2,
      ((atPos input p line col).NextToken).2 = atPos input p2 line2 col2 ∧ p < p2 ∧
      (((atPos input p line col).NextToken).1.Typ ≠ TokenType.EOF → p < input.length) ∧
      (((atPos input p line col).NextToken).1.Typ = TokenType.EOF →
        ((atPos input p line col).NextToken).1.Literal = []) := by
  have hsplit : input.drop p = (input.drop p).takeWhile isWhitespace
      ++ (input.drop p).dropWhile isWhitespace :=
    (List.takeWhile_append_dropWhile isWhitespace (input.drop p)).symm
  rw [NextToken_skip_ws input _ _ p line col hsplit (fun c hc => mem_takeWhile hc)]
  have hq := drop_add_of_drop hsplit
  have hnws := head_dropWhile_not isWhitespace (input.drop p)
  generalize (input.drop p).takeWhile isWhitespace = ws at hq
  generalize (input.drop p).dropWhile isWhitespace = rest at hq hnws
  generalize line + ws.count 10 = line1
  generalize columnAfter col ws = col1
  cases rest with
  | nil =>
    rw [NextToken_eof input _ _ _ (getD_of_drop_nil hq)]
    exact ⟨_, _, _, rfl, by omega, fun h => absurd rfl h, fun _ => rfl⟩
  | cons c rs =>
    have hch : input.getD (p + ws.length) 0 = c := getD_of_drop_cons hq
    have hlen : p + ws.length < input.length := by
      have := length_of_drop hq
      simp only [List.length_cons] at this
      omega
    have hcws : isWhitespace c = false := hnws c rfl
    by_cases h61 : c = 61
    · subst h61
      by_cases hpk : input.getD (p + ws.length + 1) 0 = 61
      · rw [NextToken_equals input _ _ _ hch hpk]
        exact ⟨_, _, _, rfl, by omega, fun _ => by omega, fun h => by cases h⟩
      · rw [NextToken_assign input _ _ _ hch hpk]
        exact ⟨_, _, _, rfl, by omega, fun _ => by omega, fun h => by cases h⟩
    by_cases hop : c = 62 ∨ c = 60 ∨ c = 40 ∨ c = 41 ∨ c = 123 ∨ c = 125
    · rw [NextToken_operator input _ _ _ c hch hop]
      exact ⟨_, _, _, rfl, by omega, fun _ => by omega, fun h => by cases h⟩
    by_cases h34 : c = 34
    · subst h34
      have hs : rs = rs.takeWhile (fun c => c != 34 && c != 0)
          ++ rs.dropWhile (fun c => c != 34 && c != 0) :=
        (List.takeWhile_append_dropWhile _ rs).symm
      have hq2 : input.drop (p + ws.length) = 34 :: (rs.takeWhile (fun c => c != 34 && c != 0)
          ++ rs.dropWhile (fun c => c != 34 && c != 0)) := by
        rw [← hs]
        exact hq
      rw [NextToken_string input _ _ _ _ _ hq2
        (fun c hc => by simpa using mem_takeWhile hc)
        (fun c hc => by
          have := head_dropWhile_not _ rs c hc
          simp only [Bool.and_eq_false_imp, bne_iff_ne, ne_eq, bne_eq_false_iff_eq] at this
          by_cases h : c = 34
          · exact Or.inl h
          · exact Or.inr (this h))]
      exact ⟨_, _, _, rfl, by omega, fun _ => by omega, fun h => by cases h⟩
    by_cases h0 : c = 0
    · subst h0
      rw [NextToken_eof input _ _ _ hch]
      exact ⟨_, _, _, rfl, by omega, fun _ => by omega, fun _ => rfl⟩
    have hidne : ∀ s : Str, identifierType s ≠ TokenType.EOF := by
      intro s
      unfold identifierType
      split_ifs <;> decide
    cases hl : isLetter c with
    | true =>
      have hs : rs = rs.takeWhile (fun d => isLetter d || isDigit d)
          ++ rs.dropWhile (fun d => isLetter d || isDigit d) :=
        (List.takeWhile_append_dropWhile _ rs).symm
      have hq2 : input.drop (p + ws.length)
          = (c :: rs.takeWhile (fun d => isLetter d || isDigit d))
            ++ rs.dropWhile (fun d => isLetter d || isDigit d) := by
        rw [List.cons_append, ← hs]
        exact hq
      rw [NextToken_ident input c _ _ _ _ _ hq2 hl (fun d hd => mem_takeWhile hd)
        (head_dropWhile_not _ rs)]
      refine ⟨_, _, _, rfl, ?_, fun _ => by omega, fun h => absurd h (hidne _)⟩
      simp only [List.length_cons]
      omega
    | false =>
      cases hdg : isDigit c with
      | true =>
        have hs : rs = rs.takeWhile isDigit ++ rs.dropWhile isDigit :=
          (List.takeWhile_append_dropWhile _ rs).symm
        have hq2 : input.drop (p + ws.length)
            = (c :: rs.takeWhile isDigit) ++ rs.dropWhile isDigit := by
          rw [List.cons_append, ← hs]
          exact hq
        rw [NextToken_number input c _ _ _ _ _ hq2
          (fun d hd => by
            rcases List.mem_cons.mp hd with rfl | h
            · exact hdg
            · exact mem_takeWhile h)
          (head_dropWhile_not _ rs)]
        refine ⟨_, _, _, rfl, ?_, fun _ => by omega, fun h => by cases h⟩
        simp only [List.length_cons]
        omega
      | false =>
        rw [NextToken_error input _ _ _ c hch hcws h61 hop h34 h0 hl hdg]
        exact ⟨_, _, _, rfl, by omega, fun _ => by omega, fun h => by cases h⟩

end Lexer

end Kisumu

namespace Kisumu

/-! ## Parser: the fuel of `Parse` is enough -/

namespace Parser

theorem worksOn_nextToken {input : Str} {p : Parser} (h : p.worksOn input) :
    p.nextToken.worksOn input ∧
    p.nextToken.remaining + (if p.current.Typ = TokenType.EOF then 0 else 1) ≤ p.remaining := by
  obtain ⟨⟨q, line, col, hl⟩, _⟩ := h
  obtain ⟨q2, line2, col2, h2, hlt, hin, heof⟩ := Lexer.NextToken_progress input q line col
  rw [← hl] at h2 hin heof
  refine ⟨⟨⟨q2, line2, col2, h2⟩, heof⟩, ?_⟩
  have e1 : p.nextToken.lexer = Lexer.atPos input q2 line2 col2 := h2
  have e2 : p.nextToken.current = (p.lexer.NextToken).1 := rfl
  simp only [remaining, e1, e2, hl, Lexer.atPos_input, Lexer.atPos_position]
  rw [← hl]
  by_cases ht : (p.lexer.NextToken).1.Typ = TokenType.EOF
  · rw [if_pos ht]
    omega
  · have := hin ht
    rw [if_neg ht]
    omega

theorem worksOn_advance {input : Str} (n : Nat) {p : Parser} (h : p.worksOn input) :
    (advance n p).worksOn input ∧ (advance n p).remaining ≤ p.remaining := by
  induction n generalizing p with
  | zero => exact ⟨h, Nat.le_refl _⟩
  | succ k ih =>
    obtain ⟨h1, h2⟩ := worksOn_nextToken h
    obtain ⟨h3, h4⟩ := ih h1
    exact ⟨h3, by rw [advance]; omega⟩

theorem remaining_advance_succ {input : Str} (n : Nat) {p : Parser} (h : p.worksOn input)
    (hcur : p.current.Typ ≠ TokenType.EOF) :
    (advance (n + 1) p).remaining + 1 ≤ p.remaining := by
  obtain ⟨h1, h2⟩ := worksOn_nextToken h
  rw [if_neg hcur] at h2
  have := (worksOn_advance n h1).2
  rw [advance]
  omega

theorem not_eof_of_literal {input : Str} {p : Parser} (h : p.worksOn input) {s : Str}
    (hs : p.current.Literal = s) (hne : s ≠ []) : p.current.Typ ≠ TokenType.EOF := by
  intro he
  exact hne (hs ▸ h.2 he)

theorem parseIf_ne_fuelOut (cb : Parser → PResult Node) (p : Parser)
    (h : (advance 5 p).current.Literal = ascii "\x7b" → cb (advance 6 p) ≠ .fuelOut) :
    parseIf cb p ≠ .fuelOut := by
  unfold parseIf
  dsimp only
  split_ifs with h1
  · exact fun hh => by cases hh
  · cases hc : parseCondition p.nextToken.nextToken with
    | fuelOut => exact absurd hc (parseCondition_ne_fuelOut _)
    | error e => exact fun hh => by cases hh
    | ok condition p3 =>
      obtain ⟨_, _, rfl⟩ := (parseCondition_eq_ok _ _ _).mp hc
      dsimp only
      split_ifs with h2
      · exact fun hh => by cases hh
      · have hcb := h (not_not.mp h2)
        cases hb : cb (advance 6 p) with
        | fuelOut => exact absurd hb hcb
        | error e =>
          have hb2 : cb p.nextToken.nextToken.nextToken.nextToken.nextToken.nextToken
              = .error e := hb
          rw [hb2]
          exact fun hh => by cases hh
        | ok block p5 =>
          have hb2 : cb p.nextToken.nextToken.nextToken.nextToken.nextToken.nextToken
              = .ok block p5 := hb
          rw [hb2]
          dsimp only
          split_ifs <;> exact fun hh => by cases hh

theorem parseOtherwise_ne_fuelOut (cb : Parser → PResult Node) (p : Parser)
    (h : (advance 1 p).current.Literal = ascii "\x7b" → cb (advance 2 p) ≠ .fuelOut) :
    parseOtherwise cb p ≠ .fuelOut := by
  unfold parseOtherwise
  dsimp only
  split_ifs with h1
  · exact fun hh => by cases hh
  · have hcb := h (not_not.mp h1)
    cases hb : cb (advance 2 p) with
    | fuelOut => exact absurd hb hcb
    | error e =>
      have hb2 : cb p.nextToken.nextToken = .error e := hb
      rw [hb2]
      exact fun hh => by cases hh
    | ok block p3 =>
      have hb2 : cb p.nextToken.nextToken = .ok block p3 := hb
      rw [hb2]
      dsimp only
      split_ifs <;> exact fun hh => by cases hh

theorem parseVarDecl_ne_fuelOut (p : Parser) : parseVarDecl p ≠ .fuelOut := by
  unfold parseVarDecl
  dsimp only
  split_ifs <;> exact fun hh => by cases hh

theorem parsePrint_ne_fuelOut (p : Parser) : parsePrint p ≠ .fuelOut := by
  unfold parsePrint
  dsimp only
  split_ifs <;> exact fun hh => by cases hh

/-- A statement that parses moves the parser on and lowers `remaining`. -/
theorem parseStatement_remaining {input : Str} {f : Nat} {p p2 : Parser} {node : Node}
    (hw : p.worksOn input) (hcur : p.current.Typ ≠ TokenType.EOF)
    (h : parseStatement f p = .ok node p2) :
    p2.worksOn input ∧ p2.remaining + 1 ≤ p.remaining := by
  obtain ⟨n, hd, rfl⟩ := (sound f).1 p node p2 h
  obtain ⟨kw, rest, hkw, _, _⟩ := statement_head hd rfl
  cases n with
  | zero => cases hkw
  | succ k => exact ⟨(worksOn_advance _ hw).1, remaining_advance_succ k hw hcur⟩

theorem enough_fuel {input : Str} (f : Nat) :
    (∀ p, p.worksOn input → p.current.Typ ≠ TokenType.EOF → p.remaining ≤ f →
      parseStatement f p ≠ .fuelOut) ∧
    (∀ acc p, p.worksOn input → p.remaining < f → parseBlockLoop f acc p ≠ .fuelOut) := by
  have hlb : ascii "\x7b" ≠ [] := by decide
  induction f with
  | zero =>
    constructor
    · intro p _ hcur hr
      have : 1 ≤ p.remaining := by
        unfold remaining
        rw [if_neg hcur]
        omega
      omega
    · intro acc p _ hr
      omega
  | succ f ih =>
    constructor
    · intro p hw hcur hr
      rw [parseStatement]
      split_ifs with h1 h2 h3 h4 h5
      · exact parseVarDecl_ne_fuelOut p
      · exact parsePrint_ne_fuelOut p
      · apply parseIf_ne_fuelOut
        intro hl
        have hw5 := (worksOn_advance 5 hw).1
        have hne5 := not_eof_of_literal hw5 hl hlb
        have r1 : (advance 5 p).remaining + 1 ≤ p.remaining := remaining_advance_succ 4 hw hcur
        have r2 := remaining_advance_succ 0 hw5 hne5
        have e : advance 1 (advance 5 p) = advance 6 p := (advance_add 5 1 p).symm
        rw [e] at r2
        exact ih.2 [] _ (worksOn_advance 6 hw).1 (by omega)
      · apply parseOtherwise_ne_fuelOut
        intro hl
        have hw1 := (worksOn_advance 1 hw).1
        have hne1 := not_eof_of_literal hw1 hl hlb
        have r1 : (advance 1 p).remaining + 1 ≤ p.remaining := remaining_advance_succ 0 hw hcur
        have r2 := remaining_advance_succ 0 hw1 hne1
        have e : advance 1 (advance 1 p) = advance 2 p := (advance_add 1 1 p).symm
        rw [e] at r2
        exact ih.2 [] _ (worksOn_advance 2 hw).1 (by omega)
      · exact fun hh => by cases hh
      · exact fun hh => by cases hh
    · intro acc p hw hr
      rw [parseBlockLoop_succ]
      split_ifs with hc
      · have hs := ih.1 p hw hc.1 (by omega)
        cases hst : parseStatement f p with
        | fuelOut => exact absurd hst hs
        | error e => exact fun hh => by cases hh
        | ok stmt p1 =>
          dsimp only
          obtain ⟨hw1, hr1⟩ := parseStatement_remaining hw hc.1 hst
          exact ih.2 _ p1 hw1 (by omega)
      · exact fun hh => by cases hh

theorem ParseLoop_enough_fuel {input : Str} (f : Nat) :
    ∀ acc p, p.worksOn input → p.remaining < f → ParseLoop f acc p ≠ .fuelOut := by
  induction f with
  | zero =>
    intro acc p _ hr
    omega
  | succ f ih =>
    intro acc p hw hr
    rw [ParseLoop]
    split_ifs with hc
    · have hs := (@enough_fuel input f).1 p hw hc (by omega)
      cases hst : parseStatement f p with
      | fuelOut => exact absurd hst hs
      | error e => exact fun hh => by cases hh
      | ok stmt p1 =>
        dsimp only
        obtain ⟨hw1, hr1⟩ := parseStatement_remaining hw hc hst
        exact ih _ p1 hw1 (by omega)
    · exact fun hh => by cases hh

end Parser

theorem NewParser_worksOn (input : Str) :
    (NewParser (NewLexer input)).worksOn input ∧
    (NewParser (NewLexer input)).remaining < input.length + 2 ∧
    (NewParser (NewLexer input)).lexer.input = input := by
  obtain ⟨q2, line2, col2, h2, hlt, hin, heof⟩ := Lexer.NextToken_progress input 0 1 1
  rw [← NewLexer_eq] at h2 hin heof
  have e1 : (NewParser (NewLexer input)).lexer = Lexer.atPos input q2 line2 col2 := h2
  refine ⟨⟨⟨q2, line2, col2, h2⟩, heof⟩, ?_, ?_⟩
  · simp only [Parser.remaining, e1, Lexer.atPos_input, Lexer.atPos_position]
    split_ifs <;> omega
  · rw [e1]
    rfl

theorem Parse_ne_fuelOut (input : Str) : (NewParser (NewLexer input)).Parse ≠ .fuelOut := by
  obtain ⟨hw, hr, hi⟩ := NewParser_worksOn input
  unfold Parser.Parse
  rw [hi]
  exact Parser.ParseLoop_enough_fuel _ [] _ hw hr

end Kisumu

namespace Kisumu

/-! ## Parse and the grammar -/

theorem nextToken_NewParser (l : Lexer) : (NewParser l).nextToken = NewParser (l.NextToken).2 :=
  rfl

theorem tokens_NewParser (n : Nat) (l : Lexer) : Parser.tokens n (NewParser l) = lexTokens n l := by
  induction n generalizing l with
  | zero => rfl
  | succ k ih =>
    rw [Parser.tokens, lexTokens, nextToken_NewParser, ih]
    rfl

/-- C6: `Parse` returns a tree exactly when the tokens the lexer returns, up
to some EndOfInput token, are derived by the grammar
`Program := Statement* EndOfInput` of the specification; on every other input
it returns an error (and no tree). -/
theorem Parse_iff_grammar (input : Str) :
    ((∃ tree p, (NewParser (NewLexer input)).Parse = .ok tree p) ↔
      ∃ n, Grammar.Program (lexTokens n (NewLexer input))) ∧
    ((¬ ∃ n, Grammar.Program (lexTokens n (NewLexer input))) →
      ∃ err, (NewParser (NewLexer input)).Parse = .error err) := by
  have hsound : (∃ tree p, (NewParser (NewLexer input)).Parse = .ok tree p) →
      ∃ n, Grammar.Program (lexTokens n (NewLexer input)) := by
    rintro ⟨tree, p, h⟩
    obtain ⟨n, hd, rfl, heof⟩ := Parser.ParseLoop_sound _ _ _ _ _ h
    refine ⟨n + 1, _, _, ?_, hd, heof⟩
    rw [← tokens_NewParser, Parser.tokens_succ_last]
  refine ⟨⟨hsound, ?_⟩, ?_⟩
  · rintro ⟨n, body, eof, hts, hd, heof⟩
    rw [← tokens_NewParser] at hts
    have hn : n = (body ++ [eof]).length := by
      rw [← hts, Parser.tokens_length]
    rw [hn] at hts
    obtain ⟨hbody, hlast⟩ := Parser.tokens_append_inv hts
    have hcur : (Parser.advance body.length (NewParser (NewLexer input))).current = eof :=
      Parser.tokens_head hlast
    obtain ⟨f, node, hnode⟩ :=
      (((Parser.complete hd).2 rfl) _ hbody).2 (by rw [hcur]; exact heof) []
    have hne : Parser.ParseLoop f [] (NewParser (NewLexer input)) ≠ .fuelOut := by
      rw [hnode]
      exact fun hh => by cases hh
    have hne2 := Parse_ne_fuelOut input
    refine ⟨node, Parser.advance body.length (NewParser (NewLexer input)), ?_⟩
    unfold Parser.Parse at hne2 ⊢
    rw [← Parser.ParseLoop_fuel_le (Nat.le_max_right f _) [] _ hne2,
      Parser.ParseLoop_fuel_le (Nat.le_max_left f _) [] _ hne, hnode]
  · intro hno
    cases hp : (NewParser (NewLexer input)).Parse with
    | fuelOut => exact absurd hp (Parse_ne_fuelOut input)
    | error e => exact ⟨e, rfl⟩
    | ok tree p => exact absurd (hsound ⟨tree, p, hp⟩) hno

/-- C6, witness: no sequence of tokens of the line `declare = 5` is derived by
the grammar, and `Parse` returns an error. -/
theorem Parse_iff_grammar_witness :
    ∃ err, (NewParser (NewLexer (ascii "declare = 5"))).Parse = .error err :=
  (Parse_iff_grammar (ascii "declare = 5")).2 (by
    rintro ⟨n, hprog⟩
    have h := (Parse_iff_grammar (ascii "declare = 5")).1.mpr ⟨n, hprog⟩
    obtain ⟨tree, p, hp⟩ := h
    have herr : ∃ e, (NewParser (NewLexer (ascii "declare = 5"))).Parse = .error e := ⟨_, rfl⟩
    obtain ⟨e, he⟩ := herr
    rw [he] at hp
    cases hp)

end Kisumu

namespace Kisumu

/-! ## The shape of parsed trees -/

theorem mem_nodesOfList (m : Node) (cs : List Node) :
    m ∈ Node.nodesOfList cs ↔ ∃ c ∈ cs, m ∈ c.nodes := by
  induction cs with
  | nil => simp [Node.nodesOfList]
  | cons c cs ih =>
    rw [Node.nodesOfList, List.mem_append, ih]
    simp

theorem mem_nodes (m : Node) (t : NodeType) (l : Str) (cs : List Node) :
    m ∈ (Node.mk t l cs).nodes ↔ m = Node.mk t l cs ∨ ∃ c ∈ cs, m ∈ c.nodes := by
  rw [Node.nodes, List.mem_cons, mem_nodesOfList]

theorem shape_leaf (t : NodeType) (l : Str) (ht : t = NodeType.VAR_DECL ∨ t = NodeType.PRINT) :
    (Node.mk t l []).isStatement ∧ ∀ m ∈ (Node.mk t l []).nodes, m.shapeOk := by
  refine ⟨?_, ?_⟩
  · rcases ht with rfl | rfl
    · exact Or.inl rfl
    · exact Or.inr (Or.inl rfl)
  · intro m hm
    rw [mem_nodes] at hm
    rcases hm with rfl | ⟨c, hc, _⟩
    · refine ⟨?_, fun _ => rfl, ?_⟩
      · intro h
        rcases ht with rfl | rfl <;> rcases h with h | h <;> cases h
      · intro h
        rcases ht with rfl | rfl <;> cases h
    · cases hc

theorem shape_compound (t : NodeType) (l : Str) (block : Node)
    (ht : t = NodeType.IF ∨ t = NodeType.OTHERWISE) (hb : block.Typ = NodeType.BLOCK)
    (hgood : ∀ m ∈ block.nodes, m.shapeOk) :
    (Node.mk t l [block]).isStatement ∧ ∀ m ∈ (Node.mk t l [block]).nodes, m.shapeOk := by
  refine ⟨?_, ?_⟩
  · rcases ht with rfl | rfl
    · exact Or.inr (Or.inr (Or.inl rfl))
    · exact Or.inr (Or.inr (Or.inr rfl))
  · intro m hm
    rw [mem_nodes] at hm
    rcases hm with rfl | ⟨c, hc, hmc⟩
    · refine ⟨fun _ => ⟨block, rfl, hb⟩, ?_, ?_⟩
      · intro h
        rcases ht with rfl | rfl <;> rcases h with h | h <;> cases h
      · intro h
        rcases ht with rfl | rfl <;> cases h
    · rw [List.mem_singleton] at hc
      subst hc
      exact hgood m hmc

theorem shape_block (acc : List Node)
    (hacc : ∀ c ∈ acc, c.isStatement ∧ ∀ m ∈ c.nodes, m.shapeOk) :
    (Node.mk NodeType.BLOCK [] acc).Typ = NodeType.BLOCK ∧
    ∀ m ∈ (Node.mk NodeType.BLOCK [] acc).nodes, m.shapeOk := by
  refine ⟨rfl, ?_⟩
  intro m hm
  rw [mem_nodes] at hm
  rcases hm with rfl | ⟨c, hc, hmc⟩
  · refine ⟨?_, ?_, fun _ c hc => (hacc c hc).1⟩
    · intro h
      rcases h with h | h <;> cases h
    · intro h
      rcases h with h | h <;> cases h
  · exact (hacc c hc).2 m hmc

theorem acc_snoc {acc : List Node} {stmt : Node}
    (hacc : ∀ c ∈ acc, c.isStatement ∧ ∀ m ∈ c.nodes, m.shapeOk)
    (hs : stmt.isStatement ∧ ∀ m ∈ stmt.nodes, m.shapeOk) :
    ∀ c ∈ acc ++ [stmt], c.isStatement ∧ ∀ m ∈ c.nodes, m.shapeOk := by
  intro c hc
  rcases List.mem_append.mp hc with h | h
  · exact hacc c h
  · rw [List.mem_singleton] at h
    subst h
    exact hs

theorem parse_shape (f : Nat) :
    (∀ p node p2, Parser.parseStatement f p = .ok node p2 →
      node.isStatement ∧ ∀ m ∈ node.nodes, m.shapeOk) ∧
    (∀ acc p node p2, Parser.parseBlockLoop f acc p = .ok node p2 →
      (∀ c ∈ acc, c.isStatement ∧ ∀ m ∈ c.nodes, m.shapeOk) →
      node.Typ = NodeType.BLOCK ∧ ∀ m ∈ node.nodes, m.shapeOk) := by
  induction f with
  | zero =>
    constructor
    · intro p node p2 h
      cases h
    · intro acc p node p2 h
      cases h
  | succ f ih =>
    constructor
    · intro p node p2 h
      obtain ⟨_, hcase⟩ := (Parser.parseStatement_eq_ok f p node p2).mp h
      rcases hcase with ⟨_, hp⟩ | ⟨_, hp⟩ | ⟨_, hp⟩ | ⟨_, hp⟩
      · obtain ⟨_, _, _, rfl, _⟩ := (Parser.parseVarDecl_eq_ok _ _ _).mp hp
        exact shape_leaf _ _ (Or.inl rfl)
      · obtain ⟨_, _, _, rfl, _⟩ := (Parser.parsePrint_eq_ok _ _ _).mp hp
        exact shape_leaf _ _ (Or.inr rfl)
      · obtain ⟨_, _, _, block, p5, hb, _, rfl, _⟩ := (Parser.parseIf_eq_ok _ _ _ _).mp hp
        obtain ⟨h1, h2⟩ := ih.2 [] _ block p5 hb (fun c hc => by cases hc)
        exact shape_compound _ _ block (Or.inl rfl) h1 h2
      · obtain ⟨_, block, p3, hb, _, rfl, _⟩ := (Parser.parseOtherwise_eq_ok _ _ _ _).mp hp
        obtain ⟨h1, h2⟩ := ih.2 [] _ block p3 hb (fun c hc => by cases hc)
        exact shape_compound _ _ block (Or.inr rfl) h1 h2
    · intro acc p node p2 h hacc
      rw [Parser.parseBlockLoop_succ] at h
      split_ifs at h with hc
      · cases hs : Parser.parseStatement f p with
        | fuelOut => rw [hs] at h; cases h
        | error e => rw [hs] at h; cases h
        | ok stmt p1 =>
          rw [hs] at h
          dsimp only at h
          exact ih.2 _ _ node p2 h (acc_snoc hacc (ih.1 p stmt p1 hs))
      · injection h with hn _
        subst hn
        exact shape_block acc hacc

theorem ParseLoop_shape (f : Nat) :
    ∀ acc p node p2, Parser.ParseLoop f acc p = .ok node p2 →
      (∀ c ∈ acc, c.isStatement ∧ ∀ m ∈ c.nodes, m.shapeOk) →
      node.Typ = NodeType.BLOCK ∧ ∀ m ∈ node.nodes, m.shapeOk := by
  induction f with
  | zero =>
    intro acc p node p2 h
    cases h
  | succ f ih =>
    intro acc p node p2 h hacc
    rw [Parser.ParseLoop] at h
    split_ifs at h with hc
    · cases hs : Parser.parseStatement f p with
      | fuelOut => rw [hs] at h; cases h
      | error e => rw [hs] at h; cases h
      | ok stmt p1 =>
        rw [hs] at h
        dsimp only at h
        exact ih _ _ node p2 h (acc_snoc hacc ((parse_shape f).1 p stmt p1 hs))
    · injection h with hn _
      subst hn
      exact shape_block acc hacc

/-- C7: when `Parse` succeeds on an input, the tree returned is a Block node,
and every node `m` anywhere in the tree has the right shape: an If or
Otherwise node has exactly one child, a Block; a VarDecl or Print node has no
children; every child of a Block is a VarDecl, Print, If or Otherwise node. -/
theorem Parse_tree_shape (input : Str) (tree : Node) (p : Parser)
    (h : (NewParser (NewLexer input)).Parse = .ok tree p) :
    tree.Typ = NodeType.BLOCK ∧
    ∀ m ∈ tree.nodes,
      ((m.Typ = NodeType.IF ∨ m.Typ = NodeType.OTHERWISE) →
        ∃ b, m.Children = [b] ∧ b.Typ = NodeType.BLOCK) ∧
      ((m.Typ = NodeType.VAR_DECL ∨ m.Typ = NodeType.PRINT) → m.Children = []) ∧
      (m.Typ = NodeType.BLOCK → ∀ c ∈ m.Children,
        c.Typ = NodeType.VAR_DECL ∨ c.Typ = NodeType.PRINT ∨ c.Typ = NodeType.IF
          ∨ c.Typ = NodeType.OTHERWISE) :=
  ParseLoop_shape _ [] _ tree p h (fun c hc => by cases hc)

/-- C7, witness: the line `if case 1 < 2 { otherwise { displayln(3) } }`. -/
theorem Parse_tree_shape_witness :
    (Node.mk NodeType.BLOCK [] [Node.mk NodeType.IF (ascii "if 1 < 2")
      [Node.mk NodeType.BLOCK [] [Node.mk NodeType.OTHERWISE (ascii "otherwise")
        [Node.mk NodeType.BLOCK [] [Node.mk NodeType.PRINT (ascii "print 3") []]]]]]).Typ
      = NodeType.BLOCK ∧
    ((Node.mk NodeType.IF (ascii "if 1 < 2")
      [Node.mk NodeType.BLOCK [] [Node.mk NodeType.OTHERWISE (ascii "otherwise")
        [Node.mk NodeType.BLOCK [] [Node.mk NodeType.PRINT (ascii "print 3") []]]]]).Typ
          = NodeType.IF ∨
      (Node.mk NodeType.IF (ascii "if 1 < 2")
      [Node.mk NodeType.BLOCK [] [Node.mk NodeType.OTHERWISE (ascii "otherwise")
        [Node.mk NodeType.BLOCK [] [Node.mk NodeType.PRINT (ascii "print 3") []]]]]).Typ
          = NodeType.OTHERWISE →
      ∃ b, (Node.mk NodeType.IF (ascii "if 1 < 2")
      [Node.mk NodeType.BLOCK [] [Node.mk NodeType.OTHERWISE (ascii "otherwise")
        [Node.mk NodeType.BLOCK [] [Node.mk NodeType.PRINT (ascii "print 3") []]]]]).Children
          = [b] ∧ b.Typ = NodeType.BLOCK) :=
  ⟨(Parse_tree_shape
      (ascii "if case 1 < 2 \x7b otherwise \x7b displayln(3) \x7d \x7d") _ _ rfl).1,
   ((Parse_tree_shape
      (ascii "if case 1 < 2 \x7b otherwise \x7b displayln(3) \x7d \x7d") _ _ rfl).2 _
        (by rw [mem_nodes]; exact Or.inr ⟨_, List.mem_singleton.mpr rfl,
          by rw [mem_nodes]; exact Or.inl rfl⟩)).1⟩

end Kisumu

namespace Kisumu

/-! ## Lexer: the loops leave through their own condition

These hold for every value of the struct `Lexer`, reachable or not. -/

namespace Lexer

theorem readChar_ch_of_le (l : Lexer) (h : l.input.length ≤ l.readPosition) :
    l.readChar.ch = 0 := by
  simp only [readChar]
  rw [if_pos h]

theorem skipWhitespaceLoop_exits (n : Nat) :
    ∀ l : Lexer, ((0 < n ∧ l.input.length < l.readPosition + n) ∨ isWhitespace l.ch = false) →
      isWhitespace (skipWhitespaceLoop n l).ch = false := by
  induction n with
  | zero =>
    intro l h
    rcases h with ⟨h, _⟩ | h
    · omega
    · exact h
  | succ k ih =>
    intro l h
    rw [skipWhitespaceLoop]
    cases hw : isWhitespace l.ch with
    | false =>
      rw [if_neg (by exact Bool.false_ne_true)]
      exact hw
    | true =>
      rw [if_pos rfl]
      have hlt : l.input.length < l.readPosition + (k + 1) := by
        rcases h with ⟨_, h⟩ | h
        · exact h
        · rw [hw] at h
          cases h
      apply ih
      by_cases hk : k = 0
      · right
        have hle : l.input.length ≤ l.readPosition := by omega
        split_ifs
        · exact congrArg isWhitespace (readChar_ch_of_le _ hle)
        · exact congrArg isWhitespace (readChar_ch_of_le _ hle)
      · left
        refine ⟨by omega, ?_⟩
        split_ifs
        · show l.input.length < l.readPosition + 1 + k
          omega
        · show l.input.length < l.readPosition + 1 + k
          omega

theorem skipWhitespace_exits (l : Lexer) : isWhitespace l.skipWhitespace.ch = false :=
  skipWhitespaceLoop_exits _ l (Or.inl ⟨by unfold steps; omega, by unfold steps; omega⟩)

theorem readIdentifierLoop_exits (n : Nat) :
    ∀ l : Lexer, ((0 < n ∧ l.input.length < l.readPosition + n)
        ∨ (isLetter l.ch || isDigit l.ch) = false) →
      (isLetter (readIdentifierLoop n l).ch || isDigit (readIdentifierLoop n l).ch) = false := by
  induction n with
  | zero =>
    intro l h
    rcases h with ⟨h, _⟩ | h
    · omega
    · exact h
  | succ k ih =>
    intro l h
    rw [readIdentifierLoop]
    cases hw : (isLetter l.ch || isDigit l.ch) with
    | false =>
      rw [if_neg (by exact Bool.false_ne_true)]
      exact hw
    | true =>
      rw [if_pos rfl]
      have hlt : l.input.length < l.readPosition + (k + 1) := by
        rcases h with ⟨_, h⟩ | h
        · exact h
        · rw [hw] at h
          cases h
      apply ih
      by_cases hk : k = 0
      · right
        have hle : l.input.length ≤ l.readPosition := by omega
        rw [readChar_ch_of_le _ hle]
        rfl
      · left
        refine ⟨by omega, ?_⟩
        show l.input.length < l.readPosition + 1 + k
        omega

theorem readIdentifier_exits (l : Lexer) :
    (isLetter l.readIdentifier.2.ch || isDigit l.readIdentifier.2.ch) = false :=
  readIdentifierLoop_exits _ l (Or.inl ⟨by unfold steps; omega, by unfold steps; omega⟩)

theorem readNumberLoop_exits (n : Nat) :
    ∀ l : Lexer, ((0 < n ∧ l.input.length < l.readPosition + n) ∨ isDigit l.ch = false) →
      isDigit (readNumberLoop n l).ch = false := by
  induction n with
  | zero =>
    intro l h
    rcases h with ⟨h, _⟩ | h
    · omega
    · exact h
  | succ k ih =>
    intro l h
    rw [readNumberLoop]
    cases hw : isDigit l.ch with
    | false =>
      rw [if_neg (by exact Bool.false_ne_true)]
      exact hw
    | true =>
      rw [if_pos rfl]
      have hlt : l.input.length < l.readPosition + (k + 1) := by
        rcases h with ⟨_, h⟩ | h
        · exact h
        · rw [hw] at h
          cases h
      apply ih
      by_cases hk : k = 0
      · right
        have hle : l.input.length ≤ l.readPosition := by omega
        rw [readChar_ch_of_le _ hle]
        rfl
      · left
        refine ⟨by omega, ?_⟩
        show l.input.length < l.readPosition + 1 + k
        omega

theorem readNumber_exits (l : Lexer) : isDigit l.readNumber.2.ch = false :=
  readNumberLoop_exits _ l (Or.inl ⟨by unfold steps; omega, by unfold steps; omega⟩)

theorem readStringLoop_exits (n : Nat) :
    ∀ l : Lexer, 0 < n → l.input.length < l.readPosition + n →
      (readStringLoop n l).ch = 34 ∨ (readStringLoop n l).ch = 0 := by
  induction n with
  | zero =>
    intro l h
    omega
  | succ k ih =>
    intro l _ hlt
    rw [readStringLoop]
    by_cases hx : l.readChar.ch = 34 ∨ l.readChar.ch = 0
    · rw [if_pos hx]
      exact hx
    · rw [if_neg hx]
      have hin : l.readPosition < l.input.length := by
        by_contra hc
        exact hx (Or.inr (readChar_ch_of_le l (by omega)))
      apply ih
      · omega
      · show l.input.length < l.readPosition + 1 + k
        omega

theorem readString_exits (l : Lexer) : l.readString.2.ch = 34 ∨ l.readString.2.ch = 0 :=
  readStringLoop_exits _ l (by unfold steps; omega) (by unfold steps; omega)

end Lexer

end Kisumu

namespace Kisumu

/-! ## Interpreter: expressions, frame, errors -/

/-- C14: `evaluateExpression(e)` is the stored value when `e` is a key of the
store and `e` itself otherwise; it is a total function.  So a Print node for a
text that is no key writes that text, and the line `displayln(v)` for an
identifier, number or string `v` whose text is no key writes the text of `v`. -/
theorem evaluateExpression_spec (vars : Store) (e : Str) (v : Value) :
    (∀ val, vars e = some val → evaluateExpression vars e = val) ∧
    (vars e = none → evaluateExpression vars e = e) ∧
    (vars e = none → ∀ children,
      (Interpret vars (Node.mk NodeType.PRINT (ascii "print " ++ e) children)).err = none ∧
      (Interpret vars (Node.mk NodeType.PRINT (ascii "print " ++ e) children)).output
        = [Event.Print e]) ∧
    (v.wellFormed = true → vars v.text = none →
      ∃ o, runLine vars (displayLine v) = LineResult.ran o ∧ o.err = none ∧ o.vars = vars ∧
        o.output = [Event.Print v.text]) := by
  refine ⟨?_, ?_, ?_, ?_⟩
  · intro val h
    simp [evaluateExpression, h]
  · intro h
    simp [evaluateExpression, h]
  · intro h children
    rw [Interpret, TrimPrefix_append]
    simp [evaluateExpression, h]
  · intro hv h
    obtain ⟨p, hp⟩ := parse_displayLine v hv
    have hrun : runLine vars (displayLine v) = LineResult.ran (Interpret vars
        (Node.mk NodeType.BLOCK [] [Node.mk NodeType.PRINT (ascii "print " ++ v.text) []])) := by
      simp only [runLine, hp]
    refine ⟨_, hrun, ?_⟩
    rw [Interpret, InterpretChildren_single, Interpret, TrimPrefix_append]
    simp [evaluateExpression, h]

/-- C14, witness: the store with `x` set to `5`, and the line `displayln(7)`
on the empty store. -/
theorem evaluateExpression_spec_witness :
    evaluateExpression (emptyStore.set (ascii "x") (ascii "5")) (ascii "x") = ascii "5" ∧
    evaluateExpression emptyStore (ascii "y") = ascii "y" ∧
    (∃ o, runLine emptyStore (displayLine (Value.number (ascii "7"))) = LineResult.ran o ∧
      o.err = none ∧ o.vars = emptyStore ∧
      o.output = [Event.Print (Value.number (ascii "7")).text]) :=
  ⟨(evaluateExpression_spec (emptyStore.set (ascii "x") (ascii "5")) (ascii "x")
      (Value.number (ascii "7"))).1 (ascii "5") (by decide),
   (evaluateExpression_spec emptyStore (ascii "y") (Value.number (ascii "7"))).2.1 rfl,
   (evaluateExpression_spec emptyStore (ascii "y") (Value.number (ascii "7"))).2.2.2
      (by decide) rfl⟩

mutual

theorem Interpret_no_decl (vars : Store) :
    (t : Node) → (∀ m ∈ t.nodes, m.Typ ≠ NodeType.VAR_DECL) →
      (Interpret vars t).err = none ∧ (Interpret vars t).vars = vars
  | .mk NodeType.VAR_DECL literal children, h =>
    absurd rfl (h _ (by rw [Node.nodes]; exact List.mem_cons_self _ _))
  | .mk NodeType.PRINT literal children, _ => by
    rw [Interpret]
    exact ⟨rfl, rfl⟩
  | .mk NodeType.IF literal children, h => by
    rw [Interpret]
    have hc := InterpretChildren_no_decl vars children (fun m hm => h m (by
      rw [Node.nodes]; exact List.mem_cons_of_mem _ hm))
    dsimp only
    split_ifs
    · exact hc
    · exact ⟨rfl, rfl⟩
  | .mk NodeType.OTHERWISE literal children, h => by
    rw [Interpret]
    exact InterpretChildren_no_decl vars children (fun m hm => h m (by
      rw [Node.nodes]; exact List.mem_cons_of_mem _ hm))
  | .mk NodeType.BLOCK literal children, h => by
    rw [Interpret]
    exact InterpretChildren_no_decl vars children (fun m hm => h m (by
      rw [Node.nodes]; exact List.mem_cons_of_mem _ hm))

theorem InterpretChildren_no_decl (vars : Store) :
    (cs : List Node) → (∀ m ∈ Node.nodesOfList cs, m.Typ ≠ NodeType.VAR_DECL) →
      (InterpretChildren vars cs).err = none ∧ (InterpretChildren vars cs).vars = vars
  | [], _ => by
    rw [InterpretChildren]
    exact ⟨rfl, rfl⟩
  | c :: cs, h => by
    have h1 := Interpret_no_decl vars c (fun m hm => h m (by
      rw [Node.nodesOfList]; exact List.mem_append_left _ hm))
    have h2 := InterpretChildren_no_decl vars cs (fun m hm => h m (by
      rw [Node.nodesOfList]; exact List.mem_append_right _ hm))
    rw [InterpretChildren]
    dsimp only
    rw [h1.1]
    dsimp only
    rw [h1.2]
    exact h2

end

end Kisumu

namespace Kisumu

/-- C15: the store is changed only by VarDecl nodes.  On a tree with no VarDecl
node anywhere (any nesting of Print, If, Otherwise and Block nodes) `Interpret`
returns no error and the store it leaves is the store it started with.  On a
VarDecl node for the name `trim a` (literal `a`, `=`, `b`) every entry other
than `trim a` is left as it was, and a VarDecl node that returns the error
leaves the whole store as it was. -/
theorem store_frame (vars : Store) (t : Node) (literal : Str) (children : List Node) :
    ((∀ m ∈ t.nodes, m.Typ ≠ NodeType.VAR_DECL) →
      (Interpret vars t).err = none ∧ (Interpret vars t).vars = vars) ∧
    (∀ a b k, literal = a ++ 61 :: b → 61 ∉ a → 61 ∉ b → k ≠ TrimSpace a →
      (Interpret vars (Node.mk NodeType.VAR_DECL literal children)).vars k = vars k) ∧
    (literal.count 61 ≠ 1 →
      (Interpret vars (Node.mk NodeType.VAR_DECL literal children)).vars = vars) := by
  refine ⟨Interpret_no_decl vars t, ?_, ?_⟩
  · intro a b k hl ha hb hk
    rw [Interpret_VarDecl_ok vars literal a b children
      ((Split_eq_pair literal 61 a b).mpr ⟨hl, ha, hb⟩)]
    simp [Store.set, hk]
  · intro hc
    rw [Interpret_VarDecl_err vars literal children (by
      rw [Split_length]
      omega)]

/-- C15, witness: the tree of `if case 1 < 2 { displayln(3) }` has no VarDecl
node; the VarDecl literal `x = 5` leaves the entry `y` alone. -/
theorem store_frame_witness :
    ((Interpret (emptyStore.set (ascii "y") (ascii "1"))
        (Node.mk NodeType.IF (ascii "if 1 < 2")
          [Node.mk NodeType.BLOCK [] [Node.mk NodeType.PRINT (ascii "print 3") []]])).err = none ∧
      (Interpret (emptyStore.set (ascii "y") (ascii "1"))
        (Node.mk NodeType.IF (ascii "if 1 < 2")
          [Node.mk NodeType.BLOCK [] [Node.mk NodeType.PRINT (ascii "print 3") []]])).vars
        = emptyStore.set (ascii "y") (ascii "1")) ∧
    (Interpret (emptyStore.set (ascii "y") (ascii "1"))
        (Node.mk NodeType.VAR_DECL (ascii "x = 5") [])).vars (ascii "y")
      = (emptyStore.set (ascii "y") (ascii "1")) (ascii "y") :=
  ⟨(store_frame (emptyStore.set (ascii "y") (ascii "1"))
      (Node.mk NodeType.IF (ascii "if 1 < 2")
        [Node.mk NodeType.BLOCK [] [Node.mk NodeType.PRINT (ascii "print 3") []]])
      (ascii "x = 5") []).1 (by
        intro m hm
        simp only [Node.nodes, Node.nodesOfList, List.append_nil, List.mem_cons,
          List.mem_singleton, List.not_mem_nil, or_false] at hm
        rcases hm with rfl | rfl | rfl <;> decide),
   (store_frame (emptyStore.set (ascii "y") (ascii "1"))
      (Node.mk NodeType.IF (ascii "if 1 < 2")
        [Node.mk NodeType.BLOCK [] [Node.mk NodeType.PRINT (ascii "print 3") []]])
      (ascii "x = 5") []).2.1 (ascii "x ") (ascii " 5") (ascii "y")
        (by decide) (by decide) (by decide) (by decide)⟩

theorem InterpretChildren_cons_err (vars : Store) (c : Node) (post : List Node)
    (e : RuntimeError) (h : (Interpret vars c).err = some e) :
    (InterpretChildren vars (c :: post)).err = some e ∧
    (InterpretChildren vars (c :: post)).vars = (Interpret vars c).vars ∧
    (InterpretChildren vars (c :: post)).output = (Interpret vars c).output := by
  rw [InterpretChildren]
  dsimp only
  rw [h]
  exact ⟨rfl, rfl, rfl⟩

theorem InterpretChildren_append (vars : Store) (pre rest : List Node)
    (h : (InterpretChildren vars pre).err = none) :
    (InterpretChildren vars (pre ++ rest)).err
      = (InterpretChildren (InterpretChildren vars pre).vars rest).err ∧
    (InterpretChildren vars (pre ++ rest)).vars
      = (InterpretChildren (InterpretChildren vars pre).vars rest).vars ∧
    (InterpretChildren vars (pre ++ rest)).output
      = (InterpretChildren vars pre).output
        ++ (InterpretChildren (InterpretChildren vars pre).vars rest).output := by
  induction pre generalizing vars with
  | nil =>
    rw [InterpretChildren]
    exact ⟨rfl, rfl, rfl⟩
  | cons c cs ih =>
    rw [List.cons_append]
    rw [InterpretChildren] at h
    dsimp only at h
    cases hc : (Interpret vars c).err with
    | some e =>
      rw [hc] at h
      cases h
    | none =>
      rw [hc] at h
      dsimp only at h
      have ih2 := ih (Interpret vars c).vars h
      rw [InterpretChildren, InterpretChildren]
      dsimp only
      rw [hc]
      dsimp only
      refine ⟨ih2.1, ih2.2.1, ?_⟩
      rw [ih2.2.2, List.append_assoc]

/-- C16: in a Block whose children `pre` all run without error and whose next
child `c` returns the error `e`, `Interpret` returns `e`; the store and the
output are those left by `pre` followed by `c` (nothing is rolled back), and
they do not depend on the children `post` after `c`, which are not run. -/
theorem Block_first_error (vars : Store) (literal : Str) (pre post : List Node) (c : Node)
    (e : RuntimeError) (hpre : (InterpretChildren vars pre).err = none)
    (hc : (Interpret (InterpretChildren vars pre).vars c).err = some e) :
    (Interpret vars (Node.mk NodeType.BLOCK literal (pre ++ c :: post))).err = some e ∧
    (Interpret vars (Node.mk NodeType.BLOCK literal (pre ++ c :: post))).vars
      = (Interpret (InterpretChildren vars pre).vars c).vars ∧
    (Interpret vars (Node.mk NodeType.BLOCK literal (pre ++ c :: post))).output
      = (InterpretChildren vars pre).output
        ++ (Interpret (InterpretChildren vars pre).vars c).output ∧
    (Interpret vars (Node.mk NodeType.BLOCK literal (pre ++ c :: post))).vars
      = (Interpret vars (Node.mk NodeType.BLOCK literal (pre ++ [c]))).vars ∧
    (Interpret vars (Node.mk NodeType.BLOCK literal (pre ++ c :: post))).output
      = (Interpret vars (Node.mk NodeType.BLOCK literal (pre ++ [c]))).output := by
  have key : ∀ post : List Node,
      (Interpret vars (Node.mk NodeType.BLOCK literal (pre ++ c :: post))).err = some e ∧
      (Interpret vars (Node.mk NodeType.BLOCK literal (pre ++ c :: post))).vars
        = (Interpret (InterpretChildren vars pre).vars c).vars ∧
      (Interpret vars (Node.mk NodeType.BLOCK literal (pre ++ c :: post))).output
        = (InterpretChildren vars pre).output
          ++ (Interpret (InterpretChildren vars pre).vars c).output := by
    intro post
    have h1 := InterpretChildren_append vars pre (c :: post) hpre
    have h2 := InterpretChildren_cons_err (InterpretChildren vars pre).vars c post e hc
    rw [Interpret]
    exact ⟨h1.1.trans h2.1, h1.2.1.trans h2.2.1, by rw [h1.2.2, h2.2.2]⟩
  have k1 := key post
  have k2 := key []
  exact ⟨k1.1, k1.2.1, k1.2.2, k1.2.1.trans k2.2.1.symm, k1.2.2.trans k2.2.2.symm⟩

/-- C16, witness: the line `declare a = 1 declare b = "x=y" declare c = 3`: the
second declaration returns the error, `a` keeps its value, `c` is never set,
and only the first declaration wrote an event. -/
theorem Block_first_error_witness :
    (Interpret emptyStore (Node.mk NodeType.BLOCK []
        ([Node.mk NodeType.VAR_DECL (ascii "a = 1") []]
          ++ Node.mk NodeType.VAR_DECL (ascii "b = x=y") []
            :: [Node.mk NodeType.VAR_DECL (ascii "c = 3") []]))).err
      = some (RuntimeError.invalidVarDecl (ascii "b = x=y")) ∧
    (runLine emptyStore (ascii "declare a = 1 declare b = \"x=y\" declare c = 3")).err
      = some (RuntimeError.invalidVarDecl (ascii "b = x=y")) ∧
    (runLine emptyStore (ascii "declare a = 1 declare b = \"x=y\" declare c = 3")).vars
      emptyStore (ascii "a") = some (ascii "1") ∧
    (runLine emptyStore (ascii "declare a = 1 declare b = \"x=y\" declare c = 3")).vars
      emptyStore (ascii "c") = none ∧
    (runLine emptyStore (ascii "declare a = 1 declare b = \"x=y\" declare c = 3")).output
      = [Event.VarDeclaration (ascii "a") (ascii "1")] :=
  ⟨(Block_first_error emptyStore [] [Node.mk NodeType.VAR_DECL (ascii "a = 1") []]
      [Node.mk NodeType.VAR_DECL (ascii "c = 3") []]
      (Node.mk NodeType.VAR_DECL (ascii "b = x=y") [])
      (RuntimeError.invalidVarDecl (ascii "b = x=y")) (by decide) (by decide)).1,
    by decide, by decide, by decide, by decide⟩

end Kisumu

namespace Kisumu

/-! ## Conditions on two operands -/

theorem evaluateCondition_of_parts (vars : Store) (l op r : Str)
    (hl : 32 ∉ l) (hop : 32 ∉ op) (hr : 32 ∉ r) :
    evaluateCondition vars (l ++ 32 :: (op ++ 32 :: r)) =
      match Atoi (evaluateExpression vars l), Atoi (evaluateExpression vars r) with
      | some leftNum, some rightNum =>
        if op = ascii ">" then decide (leftNum > rightNum)
        else if op = ascii "<" then decide (leftNum < rightNum)
        else if op = ascii "==" then decide (leftNum = rightNum)
        else false
      | _, _ => false := by
  unfold evaluateCondition
  rw [(Split_eq_triple _ 32 l op r).mpr ⟨rfl, hl, hop, hr⟩]

theorem condition_text (l op r : Str) :
    l ++ (32 :: (op ++ [32])) ++ r = l ++ 32 :: (op ++ 32 :: r) := by
  simp

theorem evaluateCondition_gt (vars : Store) (l r : Str) (hl : 32 ∉ l) (hr : 32 ∉ r) :
    evaluateCondition vars (l ++ ascii " > " ++ r) =
      match Atoi (evaluateExpression vars l), Atoi (evaluateExpression vars r) with
      | some a, some b => decide (a > b)
      | _, _ => false := by
  have e : ascii " > " = 32 :: (ascii ">" ++ [32]) := by decide
  rw [e, condition_text, evaluateCondition_of_parts vars l _ r hl (by decide) hr]
  simp

theorem evaluateCondition_lt (vars : Store) (l r : Str) (hl : 32 ∉ l) (hr : 32 ∉ r) :
    evaluateCondition vars (l ++ ascii " < " ++ r) =
      match Atoi (evaluateExpression vars l), Atoi (evaluateExpression vars r) with
      | some a, some b => decide (a < b)
      | _, _ => false := by
  have e : ascii " < " = 32 :: (ascii "<" ++ [32]) := by decide
  have d : ascii "<" ≠ ascii ">" := by decide
  rw [e, condition_text, evaluateCondition_of_parts vars l _ r hl (by decide) hr]
  simp [d]

theorem evaluateCondition_eq (vars : Store) (l r : Str) (hl : 32 ∉ l) (hr : 32 ∉ r) :
    evaluateCondition vars (l ++ ascii " == " ++ r) =
      match Atoi (evaluateExpression vars l), Atoi (evaluateExpression vars r) with
      | some a, some b => decide (a = b)
      | _, _ => false := by
  have e : ascii " == " = 32 :: (ascii "==" ++ [32]) := by decide
  have d1 : ascii "==" ≠ ascii ">" := by decide
  have d2 : ascii "==" ≠ ascii "<" := by decide
  rw [e, condition_text, evaluateCondition_of_parts vars l _ r hl (by decide) hr]
  simp [d1, d2]

/-- C20: for operand texts `l` and `r` without a space: when both resolved
operands parse as integers, exactly one of the conditions `l > r`, `l < r`,
`l == r` is true, and `l > r` has the value of `r < l`; when one of them does
not parse, all three are false. -/
theorem evaluateCondition_comparisons (vars : Store) (l r : Str) (hl : 32 ∉ l) (hr : 32 ∉ r) :
    (∀ a b, Atoi (evaluateExpression vars l) = some a →
        Atoi (evaluateExpression vars r) = some b →
      ((evaluateCondition vars (l ++ ascii " > " ++ r) = true ∧
          evaluateCondition vars (l ++ ascii " < " ++ r) = false ∧
          evaluateCondition vars (l ++ ascii " == " ++ r) = false) ∨
       (evaluateCondition vars (l ++ ascii " > " ++ r) = false ∧
          evaluateCondition vars (l ++ ascii " < " ++ r) = true ∧
          evaluateCondition vars (l ++ ascii " == " ++ r) = false) ∨
       (evaluateCondition vars (l ++ ascii " > " ++ r) = false ∧
          evaluateCondition vars (l ++ ascii " < " ++ r) = false ∧
          evaluateCondition vars (l ++ ascii " == " ++ r) = true)) ∧
      evaluateCondition vars (l ++ ascii " > " ++ r)
        = evaluateCondition vars (r ++ ascii " < " ++ l)) ∧
    ((Atoi (evaluateExpression vars l) = none ∨ Atoi (evaluateExpression vars r) = none) →
      evaluateCondition vars (l ++ ascii " > " ++ r) = false ∧
      evaluateCondition vars (l ++ ascii " < " ++ r) = false ∧
      evaluateCondition vars (l ++ ascii " == " ++ r) = false) := by
  rw [evaluateCondition_gt vars l r hl hr, evaluateCondition_lt vars l r hl hr,
    evaluateCondition_eq vars l r hl hr, evaluateCondition_lt vars r l hr hl]
  constructor
  · intro a b ha hb
    rw [ha, hb]
    refine ⟨?_, rfl⟩
    simp only [decide_eq_true_eq, decide_eq_false_iff_not, gt_iff_lt]
    rcases lt_trichotomy a b with h | h | h
    · exact Or.inr (Or.inl ⟨by omega, h, by omega⟩)
    · exact Or.inr (Or.inr ⟨by omega, by omega, h⟩)
    · exact Or.inl ⟨h, by omega, by omega⟩
  · intro h
    rcases h with h | h
    · rw [h]
      exact ⟨rfl, rfl, rfl⟩
    · rw [h]
      cases Atoi (evaluateExpression vars l) <;> exact ⟨rfl, rfl, rfl⟩

/-- C20, witness: the operands `x` (declared as `7`) and `12`. -/
theorem evaluateCondition_comparisons_witness :
    evaluateCondition (emptyStore.set (ascii "x") (ascii "7")) (ascii "x" ++ ascii " > " ++ ascii "12")
      = evaluateCondition (emptyStore.set (ascii "x") (ascii "7"))
          (ascii "12" ++ ascii " < " ++ ascii "x") :=
  ((evaluateCondition_comparisons (emptyStore.set (ascii "x") (ascii "7")) (ascii "x") (ascii "12")
    (by decide) (by decide)).1 7 12 (by decide) (by decide)).2

end Kisumu

namespace Kisumu

/-! ## Lexer: what every token looks like -/

namespace Lexer

theorem identifierType_cases (s : Str) :
    (s ∈ keywords ∧ identifierType s = TokenType.KEYWORD) ∨
    (s ∉ keywords ∧ identifierType s = TokenType.IDENT) := by
  unfold identifierType
  by_cases h : s ∈ keywords
  · exact Or.inl ⟨h, if_pos h⟩
  · exact Or.inr ⟨h, if_neg h⟩

theorem wellLexed_identifier (c : Nat) (run : Str) (line col : Nat)
    (hc : isLetter c = true) (hrun : ∀ d ∈ run, (isLetter d || isDigit d) = true) :
    (Token.mk (identifierType (c :: run)) (c :: run) line col).wellLexed := by
  rcases identifierType_cases (c :: run) with ⟨hk, ht⟩ | ⟨hk, ht⟩
  · rw [ht]
    refine ⟨fun h => (by cases h), fun h => (by cases h), fun _ => hk, fun h => (by cases h),
      fun h => (by cases h)⟩
  · rw [ht]
    refine ⟨fun _ => (isIdentifierText_iff _).mpr ⟨c, run, rfl, hc, hrun, hk⟩,
      fun h => (by cases h), fun h => (by cases h), fun h => (by cases h), fun h => (by cases h)⟩

/-- Every token `NextToken` returns on a lexer that stands at an index of its
input is well lexed. -/
theorem NextToken_wellLexed (input : Str) (p line col : Nat) :
    ((atPos input p line col).NextToken).1.wellLexed := by
  have hsplit : input.drop p = (input.drop p).takeWhile isWhitespace
      ++ (input.drop p).dropWhile isWhitespace :=
    (List.takeWhile_append_dropWhile isWhitespace (input.drop p)).symm
  rw [NextToken_skip_ws input _ _ p line col hsplit (fun c hc => mem_takeWhile hc)]
  have hq := drop_add_of_drop hsplit
  have hnws := head_dropWhile_not isWhitespace (input.drop p)
  generalize (input.drop p).takeWhile isWhitespace = ws at hq
  generalize (input.drop p).dropWhile isWhitespace = rest at hq hnws
  generalize line + ws.count 10 = line1
  generalize columnAfter col ws = col1
  have hop : ∀ (lit : Str), (Token.mk TokenType.OPERATOR lit line1 col1).wellLexed := fun lit =>
    ⟨fun h => (by cases h), fun h => (by cases h), fun h => (by cases h), fun h => (by cases h),
      fun h => (by cases h)⟩
  have heof : (Token.mk TokenType.EOF [] line1 col1).wellLexed :=
    ⟨fun h => (by cases h), fun h => (by cases h), fun h => (by cases h), fun _ => rfl,
      fun h => (by cases h)⟩
  cases rest with
  | nil =>
    rw [NextToken_eof input _ _ _ (getD_of_drop_nil hq)]
    exact heof
  | cons c rs =>
    have hch : input.getD (p + ws.length) 0 = c := getD_of_drop_cons hq
    have hcws : isWhitespace c = false := hnws c rfl
    by_cases h61 : c = 61
    · subst h61
      by_cases hpk : input.getD (p + ws.length + 1) 0 = 61
      · rw [NextToken_equals input _ _ _ hch hpk]
        exact hop _
      · rw [NextToken_assign input _ _ _ hch hpk]
        exact hop _
    by_cases hopc : c = 62 ∨ c = 60 ∨ c = 40 ∨ c = 41 ∨ c = 123 ∨ c = 125
    · rw [NextToken_operator input _ _ _ c hch hopc]
      exact hop _
    by_cases h34 : c = 34
    · subst h34
      have hs : rs = rs.takeWhile (fun c => c != 34 && c != 0)
          ++ rs.dropWhile (fun c => c != 34 && c != 0) :=
        (List.takeWhile_append_dropWhile _ rs).symm
      have hq2 : input.drop (p + ws.length) = 34 :: (rs.takeWhile (fun c => c != 34 && c != 0)
          ++ rs.dropWhile (fun c => c != 34 && c != 0)) := by
        rw [← hs]
        exact hq
      have hbody : ∀ c ∈ rs.takeWhile (fun c => c != 34 && c != 0), c ≠ 34 ∧ c ≠ 0 :=
        fun c hc => by simpa using mem_takeWhile hc
      rw [NextToken_string input _ _ _ _ _ hq2 hbody
        (fun c hc => by
          have := head_dropWhile_not _ rs c hc
          simp only [Bool.and_eq_false_imp, bne_iff_ne, ne_eq, bne_eq_false_iff_eq] at this
          by_cases h : c = 34
          · exact Or.inl h
          · exact Or.inr (this h))]
      exact ⟨fun h => (by cases h), fun h => (by cases h), fun h => (by cases h),
        fun h => (by cases h), fun _ => hbody⟩
    by_cases h0 : c = 0
    · subst h0
      rw [NextToken_eof input _ _ _ hch]
      exact heof
    cases hl : isLetter c with
    | true =>
      have hs : rs = rs.takeWhile (fun d => isLetter d || isDigit d)
          ++ rs.dropWhile (fun d => isLetter d || isDigit d) :=
        (List.takeWhile_append_dropWhile _ rs).symm
      have hq2 : input.drop (p + ws.length)
          = (c :: rs.takeWhile (fun d => isLetter d || isDigit d))
            ++ rs.dropWhile (fun d => isLetter d || isDigit d) := by
        rw [List.cons_append, ← hs]
        exact hq
      rw [NextToken_ident input c _ _ _ _ _ hq2 hl (fun d hd => mem_takeWhile hd)
        (head_dropWhile_not _ rs)]
      exact wellLexed_identifier c _ _ _ hl (fun d hd => mem_takeWhile hd)
    | false =>
      cases hdg : isDigit c with
      | true =>
        have hs : rs = rs.takeWhile isDigit ++ rs.dropWhile isDigit :=
          (List.takeWhile_append_dropWhile _ rs).symm
        have hq2 : input.drop (p + ws.length)
            = (c :: rs.takeWhile isDigit) ++ rs.dropWhile isDigit := by
          rw [List.cons_append, ← hs]
          exact hq
        have hall : ∀ d ∈ c :: rs.takeWhile isDigit, isDigit d = true := by
          intro d hd
          rcases List.mem_cons.mp hd with rfl | h
          · exact hdg
          · exact mem_takeWhile h
        rw [NextToken_number input c _ _ _ _ _ hq2 hall (head_dropWhile_not _ rs)]
        refine ⟨fun h => (by cases h), fun _ => ?_, fun h => (by cases h), fun h => (by cases h),
          fun h => (by cases h)⟩
        simp only [isNumberText, List.isEmpty_cons, Bool.not_false, Bool.true_and,
          List.all_eq_true]
        exact hall
      | false =>
        rw [NextToken_error input _ _ _ c hch hcws h61 hopc h34 h0 hl hdg]
        exact ⟨fun h => (by cases h), fun h => (by cases h), fun h => (by cases h),
          fun h => (by cases h), fun h => (by cases h)⟩

end Lexer

theorem lexerAfter_atPos (input : Str) (k : Nat) :
    ∀ p line col, ∃ p2 line2 col2, p + k ≤ p2 ∧
      lexerAfter k (Lexer.atPos input p line col) = Lexer.atPos input p2 line2 col2 := by
  induction k with
  | zero =>
    intro p line col
    exact ⟨p, line, col, Nat.le_refl _, rfl⟩
  | succ k ih =>
    intro p line col
    obtain ⟨q, line1, col1, hq, hlt, _, _⟩ := Lexer.NextToken_progress input p line col
    obtain ⟨p2, line2, col2, hle, h2⟩ := ih q line1 col1
    refine ⟨p2, line2, col2, by omega, ?_⟩
    rw [lexerAfter, hq, h2]

theorem lexerAfter_NewLexer (input : Str) (k : Nat) :
    ∃ p line col, lexerAfter k (NewLexer input) = Lexer.atPos input p line col := by
  obtain ⟨p, line, col, _, h⟩ := lexerAfter_atPos input k 0 1 1
  exact ⟨p, line, col, by rw [NewLexer_eq, h]⟩

end Kisumu

namespace Kisumu

/-! ## Lexer: `=` and `==`, identifiers, the end of the input -/

/-- C11: when the unread input of the lexer is white space `ws`, a `=` and
`rest`: if `rest` starts with `=`, `NextToken` returns one Operator token with
text `==` and the lexer stands two bytes after the first `=`; otherwise it
returns an Operator token with text `=` and the lexer stands one byte after
it, with `rest` unread, so the byte after the `=` is the first one the next
call looks at. -/
theorem NextToken_at_equals (input ws rest : Str) (p line col : Nat)
    (hd : input.drop p = ws ++ 61 :: rest) (hws : ∀ c ∈ ws, Lexer.isWhitespace c = true) :
    (rest.head? = some 61 →
      (Lexer.atPos input p line col).NextToken =
        ({ Typ := TokenType.OPERATOR, Literal := ascii "==", Line := line + ws.count 10,
           Column := columnAfter col ws },
         Lexer.atPos input (p + ws.length + 2) (line + ws.count 10) (columnAfter col ws + 2)) ∧
      input.drop (p + ws.length + 2) = rest.tail) ∧
    (rest.head? ≠ some 61 →
      (Lexer.atPos input p line col).NextToken =
        ({ Typ := TokenType.OPERATOR, Literal := ascii "=", Line := line + ws.count 10,
           Column := columnAfter col ws },
         Lexer.atPos input (p + ws.length + 1) (line + ws.count 10) (columnAfter col ws + 1)) ∧
      input.drop (p + ws.length + 1) = rest ∧
      (Lexer.atPos input (p + ws.length + 1) (line + ws.count 10) (columnAfter col ws + 1)).ch
        = rest.headD 0) := by
  have hq : input.drop (p + ws.length) = 61 :: rest := Lexer.drop_add_of_drop hd
  have hch : input.getD (p + ws.length) 0 = 61 := Lexer.getD_of_drop_cons hq
  have hq1 : input.drop (p + ws.length + 1) = rest := Lexer.drop_succ_of_drop hq
  have hnext : input.getD (p + ws.length + 1) 0 = rest.headD 0 := by
    rw [Lexer.getD_eq_headD_drop, hq1]
  have e1 : ascii "==" = [61, 61] := by decide
  have e2 : ascii "=" = [61] := by decide
  rw [Lexer.NextToken_skip_ws input ws _ p line col hd hws, e1, e2]
  constructor
  · intro h
    cases rest with
    | nil => cases h
    | cons c rs =>
      simp only [List.head?_cons, Option.some.injEq] at h
      subst h
      rw [Lexer.NextToken_equals input _ _ _ hch (by rw [hnext]; rfl)]
      refine ⟨rfl, ?_⟩
      exact Lexer.drop_succ_of_drop hq1
  · intro h
    have hne : input.getD (p + ws.length + 1) 0 ≠ 61 := by
      rw [hnext]
      cases rest with
      | nil => decide
      | cons c rs =>
        intro hc
        apply h
        rw [List.head?_cons]
        exact congrArg some hc
    rw [Lexer.NextToken_assign input _ _ _ hch hne]
    exact ⟨rfl, hq1, by rw [Lexer.atPos_ch, hnext]⟩

/-- C11, witness: the inputs `==5` and ` =5` on a fresh lexer. -/
theorem NextToken_at_equals_witness :
    ((NewLexer (ascii "==5")).NextToken).1.Literal = ascii "==" ∧
    ((NewLexer (ascii "==5")).NextToken).2.position = 2 ∧
    ((NewLexer (ascii " =5")).NextToken).1.Literal = ascii "=" ∧
    ((NewLexer (ascii " =5")).NextToken).2.position = 2 ∧
    ((NewLexer (ascii " =5")).NextToken).2.ch = 53 := by
  have h1 := (NextToken_at_equals (ascii "==5") [] (ascii "=5") 0 1 1 (by decide)
    (by decide)).1 (by decide)
  have h2 := (NextToken_at_equals (ascii " =5") (ascii " ") (ascii "5") 0 1 1 (by decide)
    (by decide)).2 (by decide)
  rw [NewLexer_eq, NewLexer_eq, h1.1, h2.1]
  exact ⟨rfl, rfl, rfl, rfl, rfl⟩

/-- C13: when the unread input of the lexer is white space `ws` and then a
letter or underscore `c` followed by `rs`, the text of the token `NextToken`
returns is the longest run of letters, digits and underscores that starts at
`c` (what follows the text in the input does not start with one of these); its
kind is Keyword exactly when the text is `declare`, `displayln`, `if`, `case`
or `otherwise`, and Identifier otherwise. -/
theorem NextToken_at_letter (input ws rs : Str) (c p line col : Nat)
    (hd : input.drop p = ws ++ c :: rs) (hws : ∀ b ∈ ws, Lexer.isWhitespace b = true)
    (hc : Lexer.isLetter c = true) :
    (∃ after, c :: rs = ((Lexer.atPos input p line col).NextToken).1.Literal ++ after ∧
      ∀ d, after.head? = some d → Lexer.isLetter d = false ∧ Lexer.isDigit d = false) ∧
    (∃ run, ((Lexer.atPos input p line col).NextToken).1.Literal = c :: run ∧
      ∀ d ∈ run, Lexer.isLetter d = true ∨ Lexer.isDigit d = true) ∧
    (((Lexer.atPos input p line col).NextToken).1.Typ = TokenType.KEYWORD ↔
      (((Lexer.atPos input p line col).NextToken).1.Literal = ascii "declare" ∨
       ((Lexer.atPos input p line col).NextToken).1.Literal = ascii "displayln" ∨
       ((Lexer.atPos input p line col).NextToken).1.Literal = ascii "if" ∨
       ((Lexer.atPos input p line col).NextToken).1.Literal = ascii "case" ∨
       ((Lexer.atPos input p line col).NextToken).1.Literal = ascii "otherwise")) ∧
    (((Lexer.atPos input p line col).NextToken).1.Typ ≠ TokenType.KEYWORD →
      ((Lexer.atPos input p line col).NextToken).1.Typ = TokenType.IDENT) ∧
    ((Lexer.atPos input p line col).NextToken).1.Line = line + ws.count 10 ∧
    ((Lexer.atPos input p line col).NextToken).1.Column = columnAfter col ws := by
  have hq : input.drop (p + ws.length) = c :: rs := Lexer.drop_add_of_drop hd
  have hs : rs = rs.takeWhile (fun d => Lexer.isLetter d || Lexer.isDigit d)
      ++ rs.dropWhile (fun d => Lexer.isLetter d || Lexer.isDigit d) :=
    (List.takeWhile_append_dropWhile _ rs).symm
  have hq2 : input.drop (p + ws.length)
      = (c :: rs.takeWhile (fun d => Lexer.isLetter d || Lexer.isDigit d))
        ++ rs.dropWhile (fun d => Lexer.isLetter d || Lexer.isDigit d) := by
    rw [List.cons_append, ← hs]
    exact hq
  rw [Lexer.NextToken_skip_ws input ws _ p line col hd hws,
    Lexer.NextToken_ident input c _ _ _ _ _ hq2 hc (fun d hd => Lexer.mem_takeWhile hd)
      (Lexer.head_dropWhile_not _ rs)]
  refine ⟨⟨_, by rw [List.cons_append, ← hs], ?_⟩, ⟨_, rfl, ?_⟩, ?_, ?_, rfl, rfl⟩
  · intro d hd
    have := Lexer.head_dropWhile_not _ rs d hd
    simpa using this
  · intro d hd
    have := Lexer.mem_takeWhile hd
    simpa using this
  · have hmem : ∀ s : Str, s ∈ Lexer.keywords ↔ (s = ascii "declare" ∨ s = ascii "displayln" ∨
        s = ascii "if" ∨ s = ascii "case" ∨ s = ascii "otherwise") := by
      intro s
      simp [Lexer.keywords]
    rw [← hmem]
    rcases Lexer.identifierType_cases
      (c :: rs.takeWhile (fun d => Lexer.isLetter d || Lexer.isDigit d)) with ⟨hk, ht⟩ | ⟨hk, ht⟩
    · simp only [ht, hk]
    · simp only [ht, hk]
      decide
  · intro h
    rcases Lexer.identifierType_cases
      (c :: rs.takeWhile (fun d => Lexer.isLetter d || Lexer.isDigit d)) with ⟨_, ht⟩ | ⟨_, ht⟩
    · exact absurd ht h
    · exact ht

/-- C13, witness: the inputs ` case1 ` (an identifier) and `case(` (a
keyword) on a fresh lexer. -/
theorem NextToken_at_letter_witness :
    (((NewLexer (ascii " case1 ")).NextToken).1.Typ ≠ TokenType.KEYWORD →
      ((NewLexer (ascii " case1 ")).NextToken).1.Typ = TokenType.IDENT) ∧
    (((NewLexer (ascii "case(")).NextToken).1.Typ = TokenType.KEYWORD ↔
      (((NewLexer (ascii "case(")).NextToken).1.Literal = ascii "declare" ∨
       ((NewLexer (ascii "case(")).NextToken).1.Literal = ascii "displayln" ∨
       ((NewLexer (ascii "case(")).NextToken).1.Literal = ascii "if" ∨
       ((NewLexer (ascii "case(")).NextToken).1.Literal = ascii "case" ∨
       ((NewLexer (ascii "case(")).NextToken).1.Literal = ascii "otherwise")) := by
  have h1 := (NextToken_at_letter (ascii " case1 ") (ascii " ") (ascii "ase1 ") 99 0 1 1
    (by decide) (by decide) (by decide)).2.2.2.1
  have h2 := (NextToken_at_letter (ascii "case(") [] (ascii "ase(") 99 0 1 1
    (by decide) (by decide) (by decide)).2.2.1
  rw [NewLexer_eq, NewLexer_eq]
  exact ⟨h1, h2⟩

end Kisumu

namespace Kisumu

/-! ## Lexer: no slice is out of range -/

namespace Lexer

theorem sliceInRange_of_drop {input : Str} {q : Nat} {a b : Str} (h : input.drop q = a ++ b)
    (hq : q ≤ input.length) : sliceInRange input q (q + a.length) = true := by
  have := length_of_drop h
  simp only [List.length_append] at this
  simp only [sliceInRange, Bool.and_eq_true, decide_eq_true_eq]
  omega

theorem lt_length_of_drop_cons {input : Str} {q c : Nat} {rest : Str}
    (h : input.drop q = c :: rest) : q < input.length := by
  have := length_of_drop h
  simp only [List.length_cons] at this
  omega

/-- On a lexer that stands at an index of its input no call of `NextToken`
panics. -/
theorem NextTokenPanics_atPos (input : Str) (p line col : Nat) :
    (atPos input p line col).NextTokenPanics = false := by
  have hsplit : input.drop p = (input.drop p).takeWhile isWhitespace
      ++ (input.drop p).dropWhile isWhitespace :=
    (List.takeWhile_append_dropWhile isWhitespace (input.drop p)).symm
  have hskip := skipWhitespace_atPos input _ _ p line col hsplit
    (fun c hc => mem_takeWhile hc) (head_dropWhile_not isWhitespace (input.drop p))
  have hq := drop_add_of_drop hsplit
  generalize (input.drop p).takeWhile isWhitespace = ws at hq hskip
  generalize (input.drop p).dropWhile isWhitespace = rest at hq
  generalize line + ws.count 10 = line1 at hskip
  generalize columnAfter col ws = col1 at hskip
  unfold NextTokenPanics
  rw [hskip]
  simp only [atPos_ch, atPos_input, atPos_position]
  cases rest with
  | nil =>
    rw [getD_of_drop_nil hq]
    rfl
  | cons c rs =>
    have hch : input.getD (p + ws.length) 0 = c := getD_of_drop_cons hq
    have hlt := lt_length_of_drop_cons hq
    rw [hch]
    by_cases h61 : c = 61
    · rw [if_pos h61]
    rw [if_neg h61]
    by_cases hopc : c = 62 ∨ c = 60 ∨ c = 40 ∨ c = 41 ∨ c = 123 ∨ c = 125
    · rw [if_pos hopc]
    rw [if_neg hopc]
    by_cases h34 : c = 34
    · subst h34
      rw [if_pos rfl]
      have hs : rs = rs.takeWhile (fun c => c != 34 && c != 0)
          ++ rs.dropWhile (fun c => c != 34 && c != 0) :=
        (List.takeWhile_append_dropWhile _ rs).symm
      have hq1 : input.drop (p + ws.length + 1) = rs.takeWhile (fun c => c != 34 && c != 0)
          ++ rs.dropWhile (fun c => c != 34 && c != 0) := by
        rw [← hs]
        exact drop_succ_of_drop hq
      have hfuel : (rs.takeWhile (fun c => c != 34 && c != 0)).length + 1
          ≤ (atPos input (p + ws.length) line1 col1).steps := by
        have := length_of_drop hq1
        rw [steps_atPos]
        simp only [List.length_append] at this
        omega
      have hloop := readStringLoop_atPos input _ _ _ (p + ws.length) line1 col1 hq1
        (fun c hc => by simpa using mem_takeWhile hc)
        (fun c hc => by
          have := head_dropWhile_not _ rs c hc
          simp only [Bool.and_eq_false_imp, bne_iff_ne, ne_eq, bne_eq_false_iff_eq] at this
          by_cases h : c = 34
          · exact Or.inl h
          · exact Or.inr (this h)) hfuel
      simp only [readString, hloop, atPos_position]
      rw [sliceInRange_of_drop hq1 (by omega)]
      rfl
    rw [if_neg h34]
    by_cases h0 : c = 0
    · rw [if_pos h0]
    rw [if_neg h0]
    cases hl : isLetter c with
    | true =>
      rw [if_pos rfl]
      have hs : rs = rs.takeWhile (fun d => isLetter d || isDigit d)
          ++ rs.dropWhile (fun d => isLetter d || isDigit d) :=
        (List.takeWhile_append_dropWhile _ rs).symm
      have hq2 : input.drop (p + ws.length)
          = (c :: rs.takeWhile (fun d => isLetter d || isDigit d))
            ++ rs.dropWhile (fun d => isLetter d || isDigit d) := by
        rw [List.cons_append, ← hs]
        exact hq
      have hall : ∀ d ∈ c :: rs.takeWhile (fun d => isLetter d || isDigit d),
          (isLetter d || isDigit d) = true := by
        intro d hd
        rcases List.mem_cons.mp hd with rfl | h
        · simp [hl]
        · exact mem_takeWhile h
      have hloop := readIdentifierLoop_atPos input _ _ _ (p + ws.length) line1 col1 hq2 hall
        (head_dropWhile_not _ rs) (steps_bound line1 col1 hq2)
      simp only [readIdentifier, hloop, atPos_position]
      rw [sliceInRange_of_drop hq2 (by omega)]
      rfl
    | false =>
      rw [if_neg (by exact Bool.false_ne_true)]
      cases hdg : isDigit c with
      | true =>
        rw [if_pos rfl]
        have hs : rs = rs.takeWhile isDigit ++ rs.dropWhile isDigit :=
          (List.takeWhile_append_dropWhile _ rs).symm
        have hq2 : input.drop (p + ws.length)
            = (c :: rs.takeWhile isDigit) ++ rs.dropWhile isDigit := by
          rw [List.cons_append, ← hs]
          exact hq
        have hall : ∀ d ∈ c :: rs.takeWhile isDigit, isDigit d = true := by
          intro d hd
          rcases List.mem_cons.mp hd with rfl | h
          · exact hdg
          · exact mem_takeWhile h
        have hloop := readNumberLoop_atPos input _ _ _ (p + ws.length) line1 col1 hq2 hall
          (head_dropWhile_not _ rs) (steps_bound line1 col1 hq2)
        simp only [readNumber, hloop, atPos_position]
        rw [sliceInRange_of_drop hq2 (by omega)]
        rfl
      | false =>
        rw [if_neg (by exact Bool.false_ne_true)]

end Lexer

theorem lexPanics_atPos (input : Str) (n : Nat) :
    ∀ p line col, lexPanics n (Lexer.atPos input p line col) = false := by
  induction n with
  | zero =>
    intro p line col
    rfl
  | succ k ih =>
    intro p line col
    obtain ⟨q, line1, col1, hq, _⟩ := Lexer.NextToken_progress input p line col
    rw [lexPanics, Lexer.NextTokenPanics_atPos, hq, ih]
    rfl

/-- C12: once the cursor of the lexer has passed the last byte of the input
(after any number `k` of calls on a fresh lexer), every further call of
`NextToken`, however many, returns a token of kind EndOfInput with empty text,
and no call panics: no slice expression is out of range.  More, no call of
`NextToken` on a fresh lexer ever panics. -/
theorem NextToken_after_end (input : Str) (k n : Nat)
    (h : input.length ≤ (lexerAfter k (NewLexer input)).position) :
    (∀ t ∈ lexTokens n (lexerAfter k (NewLexer input)),
      t.Typ = TokenType.EOF ∧ t.Literal = []) ∧
    lexPanics n (lexerAfter k (NewLexer input)) = false ∧
    lexPanics n (NewLexer input) = false := by
  obtain ⟨p, line, col, hp⟩ := lexerAfter_NewLexer input k
  rw [hp] at h ⊢
  refine ⟨lexTokens_past_end input n p line col h, lexPanics_atPos input n p line col, ?_⟩
  rw [NewLexer_eq]
  exact lexPanics_atPos input n 0 1 1

/-- C12, witness: on the input `ab` the cursor has passed the end after one
call; the next three tokens are EndOfInput tokens. -/
theorem NextToken_after_end_witness :
    (∀ t ∈ lexTokens 3 (lexerAfter 1 (NewLexer (ascii "ab"))),
      t.Typ = TokenType.EOF ∧ t.Literal = []) ∧
    lexPanics 3 (lexerAfter 1 (NewLexer (ascii "ab"))) = false :=
  ⟨(NextToken_after_end (ascii "ab") 1 3 (by decide)).1,
   (NextToken_after_end (ascii "ab") 1 3 (by decide)).2.1⟩

end Kisumu

namespace Kisumu

/-! ## Parse terminates -/

/-- C17: `Parse` terminates on every input.  In the model: `Parse` never runs
out of fuel, and any larger fuel gives the same result.  Every `NextToken`
call on a lexer reached from the fresh one returns EndOfInput or moves the
cursor on by at least one byte.  Every `parseStatement` call on a parser
reached from the fresh one that does not return an error consumes at least one
token and lowers the remaining input, and with fuel for the remaining input
it does return.  The loops of the lexer leave through their own condition. -/
theorem Parse_terminates (input : Str) :
    (NewParser (NewLexer input)).Parse ≠ PResult.fuelOut ∧
    (∀ fuel, input.length + 2 ≤ fuel →
      Parser.ParseLoop fuel [] (NewParser (NewLexer input))
        = (NewParser (NewLexer input)).Parse) ∧
    (∀ k, ((lexerAfter k (NewLexer input)).NextToken).1.Typ = TokenType.EOF ∨
      (lexerAfter k (NewLexer input)).position + 1
        ≤ ((lexerAfter k (NewLexer input)).NextToken).2.position) ∧
    (∀ k fuel node p2,
      Parser.parseStatement fuel (Parser.advance k (NewParser (NewLexer input)))
          = PResult.ok node p2 →
        ∃ n, 1 ≤ n ∧ p2 = Parser.advance (k + n) (NewParser (NewLexer input)) ∧
          p2.remaining < (Parser.advance k (NewParser (NewLexer input))).remaining) ∧
    (∀ k fuel,
      (Parser.advance k (NewParser (NewLexer input))).current.Typ ≠ TokenType.EOF →
      (Parser.advance k (NewParser (NewLexer input))).remaining ≤ fuel →
        Parser.parseStatement fuel (Parser.advance k (NewParser (NewLexer input)))
          ≠ PResult.fuelOut) ∧
    (∀ l : Lexer, Lexer.isWhitespace l.skipWhitespace.ch = false ∧
      (Lexer.isLetter l.readIdentifier.2.ch || Lexer.isDigit l.readIdentifier.2.ch) = false ∧
      Lexer.isDigit l.readNumber.2.ch = false ∧
      (l.readString.2.ch = 34 ∨ l.readString.2.ch = 0)) := by
  obtain ⟨hw, hr, hi⟩ := NewParser_worksOn input
  refine ⟨Parse_ne_fuelOut input, ?_, ?_, ?_, ?_, ?_⟩
  · intro fuel hle
    have hne := Parse_ne_fuelOut input
    unfold Parser.Parse at hne ⊢
    rw [hi] at hne ⊢
    exact Parser.ParseLoop_fuel_le hle [] _ hne
  · intro k
    obtain ⟨p, line, col, hp⟩ := lexerAfter_NewLexer input k
    obtain ⟨q, line1, col1, hq, hlt, _, _⟩ := Lexer.NextToken_progress input p line col
    right
    rw [hp, hq]
    exact hlt
  · intro k fuel node p2 h
    have hwk := (Parser.worksOn_advance k hw).1
    obtain ⟨n, hd, rfl⟩ := (Parser.sound fuel).1 _ node p2 h
    obtain ⟨kw, rest, hkw, hkt, _⟩ := Parser.statement_head hd rfl
    have hcur : (Parser.advance k (NewParser (NewLexer input))).current.Typ
        ≠ TokenType.EOF := by
      rw [Parser.tokens_head hkw, hkt]
      decide
    cases n with
    | zero => cases hkw
    | succ m =>
      refine ⟨m + 1, by omega, ?_, ?_⟩
      · exact (Parser.advance_add k (m + 1) _).symm
      · have := Parser.remaining_advance_succ m hwk hcur
        omega
  · intro k fuel hcur hrem
    exact (@Parser.enough_fuel input fuel).1 _ (Parser.worksOn_advance k hw).1 hcur hrem
  · intro l
    exact ⟨Lexer.skipWhitespace_exits l, Lexer.readIdentifier_exits l,
      Lexer.readNumber_exits l, Lexer.readString_exits l⟩

/-- C17, witness: on the line `if case a > b { displayln(a) }` the fuel 100
gives the result of `Parse`, and the statement that starts at the first token
consumes tokens. -/
theorem Parse_terminates_witness :
    Parser.ParseLoop 100 []
        (NewParser (NewLexer (ascii "if case a > b \x7b displayln(a) \x7d")))
      = (NewParser (NewLexer (ascii "if case a > b \x7b displayln(a) \x7d"))).Parse ∧
    Parser.parseStatement 40
        (Parser.advance 0 (NewParser (NewLexer (ascii "if case a > b \x7b displayln(a) \x7d"))))
      ≠ PResult.fuelOut :=
  ⟨(Parse_terminates (ascii "if case a > b \x7b displayln(a) \x7d")).2.1 100 (by decide),
   (Parse_terminates (ascii "if case a > b \x7b displayln(a) \x7d")).2.2.2.2.1 0 40
     (by decide) (by decide)⟩

end Kisumu

namespace Kisumu

/-! ## The keys of the store -/

theorem first_separator_unique (s : Nat) :
    ∀ (a a2 b b2 : Str), a ++ s :: b = a2 ++ s :: b2 → s ∉ a → s ∉ a2 → a = a2 ∧ b = b2 := by
  intro a
  induction a with
  | nil =>
    intro a2 b b2 h _ h2
    cases a2 with
    | nil =>
      simp only [List.nil_append, List.cons.injEq, true_and] at h
      exact ⟨rfl, h⟩
    | cons c cs =>
      simp only [List.nil_append, List.cons_append, List.cons.injEq] at h
      exact absurd (by simp [h.1]) h2
  | cons c cs ih =>
    intro a2 b b2 h h1 h2
    cases a2 with
    | nil =>
      simp only [List.nil_append, List.cons_append, List.cons.injEq] at h
      exact absurd (by simp [h.1]) h1
    | cons d ds =>
      simp only [List.cons_append, List.cons.injEq] at h
      obtain ⟨e1, e2⟩ := ih ds b b2 h.2 (fun hm => h1 (by simp [hm])) (fun hm => h2 (by simp [hm]))
      exact ⟨by rw [h.1, e1], e2⟩

theorem keys_set {vars : Store} {k v : Str} (h : vars.keysAreIdentifiers)
    (hk : isIdentifierText k = true) : (vars.set k v).keysAreIdentifiers := by
  intro x y hx
  unfold Store.set at hx
  by_cases hxk : x = k
  · rw [hxk]
    exact hk
  · rw [if_neg hxk] at hx
    exact h x y hx

theorem Interpret_VarDecl_keys (vars : Store) (literal : Str) (children : List Node)
    (hd : (Node.mk NodeType.VAR_DECL literal children).declOk) (h : vars.keysAreIdentifiers) :
    (Interpret vars (Node.mk NodeType.VAR_DECL literal children)).vars.keysAreIdentifiers := by
  obtain ⟨name, value, hlit, hname⟩ := hd rfl
  have hlit' : literal = name ++ ascii " = " ++ value := hlit
  by_cases hs : (Split literal 61).length = 2
  · match hsp : Split literal 61, hs with
    | [a, b], _ =>
      rw [Interpret_VarDecl_ok vars literal a b children hsp]
      obtain ⟨hl, ha, _⟩ := (Split_eq_pair literal 61 a b).mp hsp
      have e2 : ascii " = " = [32, 61, 32] := by decide
      have hl2 : a ++ 61 :: b = (name ++ [32]) ++ 61 :: (32 :: value) := by
        rw [← hl, hlit', e2]
        simp
      have hn61 : 61 ∉ name ++ [32] := by
        intro hm
        rcases List.mem_append.mp hm with hm | hm
        · exact ((identifier_bytes hname).2 61 hm).2.2 rfl
        · simp at hm
      obtain ⟨ea, _⟩ := first_separator_unique 61 a _ b _ hl2 ha hn61
      apply keys_set h
      rw [ea, TrimSpace_identifier_space hname]
      exact hname
  · rw [Interpret_VarDecl_err vars literal children hs]
    exact h

mutual

theorem Interpret_keys (vars : Store) (hv : vars.keysAreIdentifiers) :
    (t : Node) → (∀ m ∈ t.nodes, m.declOk) → (Interpret vars t).vars.keysAreIdentifiers
  | .mk NodeType.VAR_DECL literal children, h =>
    Interpret_VarDecl_keys vars literal children
      (h _ (by rw [Node.nodes]; exact List.mem_cons_self _ _)) hv
  | .mk NodeType.PRINT literal children, _ => by
    rw [Interpret]
    exact hv
  | .mk NodeType.IF literal children, h => by
    rw [Interpret]
    have hc := InterpretChildren_keys vars hv children (fun m hm => h m (by
      rw [Node.nodes]; exact List.mem_cons_of_mem _ hm))
    dsimp only
    split_ifs
    · exact hc
    · exact hv
  | .mk NodeType.OTHERWISE literal children, h => by
    rw [Interpret]
    exact InterpretChildren_keys vars hv children (fun m hm => h m (by
      rw [Node.nodes]; exact List.mem_cons_of_mem _ hm))
  | .mk NodeType.BLOCK literal children, h => by
    rw [Interpret]
    exact InterpretChildren_keys vars hv children (fun m hm => h m (by
      rw [Node.nodes]; exact List.mem_cons_of_mem _ hm))

theorem InterpretChildren_keys (vars : Store) (hv : vars.keysAreIdentifiers) :
    (cs : List Node) → (∀ m ∈ Node.nodesOfList cs, m.declOk) →
      (InterpretChildren vars cs).vars.keysAreIdentifiers
  | [], _ => by
    rw [InterpretChildren]
    exact hv
  | c :: cs, h => by
    have h1 := Interpret_keys vars hv c (fun m hm => h m (by
      rw [Node.nodesOfList]; exact List.mem_append_left _ hm))
    have h2 := InterpretChildren_keys (Interpret vars c).vars h1 cs (fun m hm => h m (by
      rw [Node.nodesOfList]; exact List.mem_append_right _ hm))
    rw [InterpretChildren]
    dsimp only
    cases hc : (Interpret vars c).err with
    | some e => exact h1
    | none => exact h2

end

end Kisumu

namespace Kisumu

/-! ## The declarations of a parsed tree -/

theorem declOk_of_ne (t : NodeType) (literal : Str) (children : List Node)
    (h : t ≠ NodeType.VAR_DECL) : (Node.mk t literal children).declOk :=
  fun ht => absurd ht h

theorem nextToken_wellLexed {input : Str} {p : Parser} (h : p.worksOn input) :
    p.nextToken.current.wellLexed := by
  obtain ⟨⟨q, line, col, hl⟩, _⟩ := h
  have e : p.nextToken.current = (p.lexer.NextToken).1 := rfl
  rw [e, hl]
  exact Lexer.NextToken_wellLexed input q line col

theorem parse_decls (input : Str) (f : Nat) :
    (∀ p node p2, p.worksOn input → Parser.parseStatement f p = .ok node p2 →
      ∀ m ∈ node.nodes, m.declOk) ∧
    (∀ acc p node p2, p.worksOn input → Parser.parseBlockLoop f acc p = .ok node p2 →
      (∀ m ∈ Node.nodesOfList acc, m.declOk) → ∀ m ∈ node.nodes, m.declOk) := by
  induction f with
  | zero =>
    constructor
    · intro p node p2 _ h
      cases h
    · intro acc p node p2 _ h
      cases h
  | succ f ih =>
    constructor
    · intro p node p2 hw h
      obtain ⟨_, hcase⟩ := (Parser.parseStatement_eq_ok f p node p2).mp h
      rcases hcase with ⟨_, hp⟩ | ⟨_, hp⟩ | ⟨_, hp⟩ | ⟨_, hp⟩
      · obtain ⟨hid, _, _, rfl, _⟩ := (Parser.parseVarDecl_eq_ok _ _ _).mp hp
        intro m hm
        rw [Node.nodes, Node.nodesOfList] at hm
        rw [List.mem_singleton.mp hm]
        intro _
        exact ⟨_, _, rfl, (nextToken_wellLexed hw).1 hid⟩
      · obtain ⟨_, _, _, rfl, _⟩ := (Parser.parsePrint_eq_ok _ _ _).mp hp
        intro m hm
        rw [Node.nodes, Node.nodesOfList] at hm
        rw [List.mem_singleton.mp hm]
        exact declOk_of_ne _ _ _ (by decide)
      · obtain ⟨_, _, _, block, p5, hb, _, rfl, _⟩ := (Parser.parseIf_eq_ok _ _ _ _).mp hp
        have hblock := ih.2 [] _ block p5 (Parser.worksOn_advance 6 hw).1 hb (fun m hm => by
          rw [Node.nodesOfList] at hm
          cases hm)
        intro m hm
        rw [Node.nodes, Node.nodesOfList, Node.nodesOfList, List.append_nil] at hm
        rcases List.mem_cons.mp hm with rfl | hm
        · exact declOk_of_ne _ _ _ (by decide)
        · exact hblock m hm
      · obtain ⟨_, block, p3, hb, _, rfl, _⟩ := (Parser.parseOtherwise_eq_ok _ _ _ _).mp hp
        have hblock := ih.2 [] _ block p3 (Parser.worksOn_advance 2 hw).1 hb (fun m hm => by
          rw [Node.nodesOfList] at hm
          cases hm)
        intro m hm
        rw [Node.nodes, Node.nodesOfList, Node.nodesOfList, List.append_nil] at hm
        rcases List.mem_cons.mp hm with rfl | hm
        · exact declOk_of_ne _ _ _ (by decide)
        · exact hblock m hm
    · intro acc p node p2 hw h hacc
      rw [Parser.parseBlockLoop_succ] at h
      split_ifs at h with hc
      · cases hs : Parser.parseStatement f p with
        | fuelOut => rw [hs] at h; cases h
        | error e => rw [hs] at h; cases h
        | ok stmt p1 =>
          rw [hs] at h
          dsimp only at h
          obtain ⟨n, _, hp1⟩ := (Parser.sound f).1 p stmt p1 hs
          have hw1 : p1.worksOn input := by
            rw [hp1]
            exact (Parser.worksOn_advance n hw).1
          refine ih.2 _ _ node p2 hw1 h (fun m hm => ?_)
          obtain ⟨c, hcm, hmc⟩ := (mem_nodesOfList m _).mp hm
          rcases List.mem_append.mp hcm with hcm | hcm
          · exact hacc m ((mem_nodesOfList m acc).mpr ⟨c, hcm, hmc⟩)
          · rw [List.mem_singleton.mp hcm] at hmc
            exact ih.1 p stmt p1 hw hs m hmc
      · injection h with hn _
        subst hn
        intro m hm
        rw [Node.nodes] at hm
        rcases List.mem_cons.mp hm with rfl | hm
        · exact declOk_of_ne _ _ _ (by decide)
        · exact hacc m hm

end Kisumu

namespace Kisumu

theorem ParseLoop_decls (input : Str) (f : Nat) :
    ∀ acc p node p2, p.worksOn input → Parser.ParseLoop f acc p = .ok node p2 →
      (∀ m ∈ Node.nodesOfList acc, m.declOk) → ∀ m ∈ node.nodes, m.declOk := by
  induction f with
  | zero =>
    intro acc p node p2 _ h
    cases h
  | succ f ih =>
    intro acc p node p2 hw h hacc
    rw [Parser.ParseLoop] at h
    split_ifs at h with hc
    · cases hs : Parser.parseStatement f p with
      | fuelOut => rw [hs] at h; cases h
      | error e => rw [hs] at h; cases h
      | ok stmt p1 =>
        rw [hs] at h
        dsimp only at h
        obtain ⟨n, _, hp1⟩ := (Parser.sound f).1 p stmt p1 hs
        have hw1 : p1.worksOn input := by
          rw [hp1]
          exact (Parser.worksOn_advance n hw).1
        refine ih _ _ node p2 hw1 h (fun m hm => ?_)
        obtain ⟨c, hcm, hmc⟩ := (mem_nodesOfList m _).mp hm
        rcases List.mem_append.mp hcm with hcm | hcm
        · exact hacc m ((mem_nodesOfList m acc).mpr ⟨c, hcm, hmc⟩)
        · rw [List.mem_singleton.mp hcm] at hmc
          exact (parse_decls input f).1 p stmt p1 hw hs m hmc
    · injection h with hn _
      subst hn
      intro m hm
      rw [Node.nodes] at hm
      rcases List.mem_cons.mp hm with rfl | hm
      · exact declOk_of_ne _ _ _ (by decide)
      · exact hacc m hm

theorem Parse_decls (input : Str) (tree : Node) (p : Parser)
    (h : (NewParser (NewLexer input)).Parse = .ok tree p) : ∀ m ∈ tree.nodes, m.declOk :=
  ParseLoop_decls input _ [] _ tree p (NewParser_worksOn input).1 h (fun m hm => by
    rw [Node.nodesOfList] at hm
    cases hm)

theorem runLine_keys (vars : Store) (line : Str) (h : vars.keysAreIdentifiers) :
    ((runLine vars line).vars vars).keysAreIdentifiers := by
  cases hp : (NewParser (NewLexer line)).Parse with
  | fuelOut =>
    have e : runLine vars line = LineResult.fuelOut := by simp only [runLine, hp]
    rw [e]
    exact h
  | error err =>
    have e : runLine vars line = LineResult.parsingError err := by simp only [runLine, hp]
    rw [e]
    exact h
  | ok tree p =>
    have e : runLine vars line = LineResult.ran (Interpret vars tree) := by
      simp only [runLine, hp]
    rw [e]
    exact Interpret_keys vars h tree (Parse_decls line tree p hp)

theorem emptyStore_keys : emptyStore.keysAreIdentifiers := by
  intro k v h
  cases h

theorem replStore_keys (lines : List Str) :
    ∀ vars : Store, vars.keysAreIdentifiers → (replStore vars lines).keysAreIdentifiers := by
  induction lines with
  | nil =>
    intro vars h
    exact h
  | cons line rest ih =>
    intro vars h
    rw [replStore]
    split_ifs
    · exact h
    · exact ih _ (runLine_keys vars line h)

theorem number_not_identifier {s : Str} (h : isNumberText s = true) :
    isIdentifierText s = false := by
  cases s with
  | nil => rfl
  | cons c cs =>
    have hd : Lexer.isDigit c = true := by
      simp only [isNumberText, Bool.and_eq_true, List.all_eq_true] at h
      exact h.2 c (List.mem_cons_self _ _)
    have hl : Lexer.isLetter c = false := by
      have h1 := (Lexer.isDigit_iff c).mp hd
      cases hc : Lexer.isLetter c with
      | false => rfl
      | true =>
        have h2 := (Lexer.isLetter_iff c).mp hc
        omega
    simp [isIdentifierText, hl]

theorem number_not_key {vars : Store} (hv : vars.keysAreIdentifiers) {s : Str}
    (h : isNumberText s = true) : vars s = none ∧ evaluateExpression vars s = s := by
  have hn : vars s = none := by
    cases hs : vars s with
    | none => rfl
    | some v =>
      have := hv s v hs
      rw [number_not_identifier h] at this
      cases this
  exact ⟨hn, by rw [evaluateExpression, hn]⟩

/-- C18: starting from the empty store and running any sequence of lines
through the loop of `repl` (lines that do not parse, and runs that end in an
error, included), every key `k` of the store is the text of an Identifier
token: non-empty, made only of letters, underscores and digits, not starting
with a digit, and not one of the five keywords. Hence the text of a Number
token, here the token the lexer returns at any point of any input, is not a
key, and `evaluateExpression` returns it unchanged. -/
theorem store_keys_are_identifiers (lines : List Str) :
    (∀ k v, replStore emptyStore lines k = some v →
      isIdentifierText k = true ∧ k ≠ [] ∧
      (∀ c ∈ k, Lexer.isLetter c = true ∨ Lexer.isDigit c = true) ∧
      (∀ c, k.head? = some c → Lexer.isDigit c = false) ∧
      k ∉ Lexer.keywords ∧ Lexer.keywords.length = 5) ∧
    (∀ s, isNumberText s = true →
      replStore emptyStore lines s = none ∧
      evaluateExpression (replStore emptyStore lines) s = s) ∧
    (∀ input n, ((lexerAfter n (NewLexer input)).NextToken).1.Typ = TokenType.NUMBER →
      replStore emptyStore lines ((lexerAfter n (NewLexer input)).NextToken).1.Literal = none ∧
      evaluateExpression (replStore emptyStore lines)
          ((lexerAfter n (NewLexer input)).NextToken).1.Literal
        = ((lexerAfter n (NewLexer input)).NextToken).1.Literal) := by
  have hkeys := replStore_keys lines emptyStore emptyStore_keys
  refine ⟨fun k v hk => ?_, fun s hs => number_not_key hkeys hs, fun input n ht => ?_⟩
  · have hid := hkeys k v hk
    obtain ⟨c, cs, rfl, hc, hrun, hkw⟩ := (isIdentifierText_iff k).mp hid
    refine ⟨hid, by simp, ?_, ?_, hkw, rfl⟩
    · intro d hd
      rcases List.mem_cons.mp hd with rfl | hd
      · exact Or.inl hc
      · simpa using hrun d hd
    · intro d hd
      simp only [List.head?_cons, Option.some.injEq] at hd
      subst hd
      have h2 := (Lexer.isLetter_iff c).mp hc
      cases hdg : Lexer.isDigit c with
      | false => rfl
      | true =>
        have h1 := (Lexer.isDigit_iff c).mp hdg
        omega
  · obtain ⟨p, line, col, hl⟩ := lexerAfter_NewLexer input n
    have hw := Lexer.NextToken_wellLexed input p line col
    rw [← hl] at hw
    exact number_not_key hkeys (hw.2.1 ht)

/-- C18, witness: after the lines `declare x = 5` and `declare y = x`, the key
`x` of the store is an identifier text, and the Number token `5` of the first
line is not a key. -/
theorem store_keys_are_identifiers_witness :
    replStore emptyStore [ascii "declare x = 5", ascii "declare y = x"] (ascii "x")
      = some (ascii "5") ∧
    isIdentifierText (ascii "x") = true ∧
    ((lexerAfter 3 (NewLexer (ascii "declare x = 5"))).NextToken).1
      = Token.mk TokenType.NUMBER (ascii "5") 1 13 ∧
    replStore emptyStore [ascii "declare x = 5", ascii "declare y = x"] (ascii "5") = none :=
  ⟨by decide,
   ((store_keys_are_identifiers [ascii "declare x = 5", ascii "declare y = x"]).1
      (ascii "x") (ascii "5") (by decide)).1,
   by decide,
   ((store_keys_are_identifiers [ascii "declare x = 5", ascii "declare y = x"]).2.2
      (ascii "declare x = 5") 3 (by decide)).1⟩

end Kisumu

namespace Kisumu

/-! ## Conditions on two numbers -/

theorem lexes_equals {input : Str} {l : Lexer} {ws rest : Str}
    (h : Lexes input l (ws ++ (61 :: 61 :: rest)))
    (hws : ∀ c ∈ ws, Lexer.isWhitespace c = true) :
    (l.NextToken).1.Typ = TokenType.OPERATOR ∧
    (l.NextToken).1.Literal = [61, 61] ∧ Lexes input (l.NextToken).2 rest := by
  obtain ⟨p, line, col, hl, hd⟩ := lexes_skip h hws
  have hd1 := Lexer.drop_succ_of_drop hd
  have hd2 := Lexer.drop_succ_of_drop hd1
  rw [hl, Lexer.NextToken_equals input p line col (Lexer.getD_of_drop_cons hd)
    (Lexer.getD_of_drop_cons hd1)]
  exact ⟨rfl, rfl, _, _, _, rfl, hd2⟩

theorem lexes_comparison {input : Str} {l : Lexer} {op rest : Str}
    (h : Lexes input l ([32] ++ (op ++ rest)))
    (hop : op = ascii ">" ∨ op = ascii "<" ∨ op = ascii "==") :
    (l.NextToken).1.Typ = TokenType.OPERATOR ∧
    (l.NextToken).1.Literal = op ∧ Lexes input (l.NextToken).2 rest := by
  have e1 : ascii ">" = [62] := by decide
  have e2 : ascii "<" = [60] := by decide
  have e3 : ascii "==" = [61, 61] := by decide
  rcases hop with rfl | rfl | rfl
  · rw [e1] at h ⊢
    exact lexes_operator h all_whitespace_space (Or.inl rfl)
  · rw [e2] at h ⊢
    exact lexes_operator h all_whitespace_space (Or.inr (Or.inl rfl))
  · rw [e3] at h ⊢
    exact lexes_equals h all_whitespace_space

theorem number_digits {s : Str} (h : isNumberText s = true) :
    ∃ c cs, s = c :: cs ∧ ∀ d ∈ c :: cs, Lexer.isDigit d = true := by
  cases s with
  | nil => cases h
  | cons c cs =>
    simp only [isNumberText, Bool.and_eq_true, List.all_eq_true] at h
    exact ⟨c, cs, rfl, h.2⟩

theorem Atoi_number {s : Str} (h : isNumberText s = true) (hv : digitsValue s < 2 ^ 63) :
    Atoi s = some (digitsValue s : Int) := by
  obtain ⟨c, cs, rfl, hd⟩ := number_digits h
  have hc := (Lexer.isDigit_iff c).mp (hd c (List.mem_cons_self _ _))
  have hsign : ¬ (c = 45 ∨ c = 43) := by omega
  have hall : (c :: cs).all (fun d => decide (48 ≤ d ∧ d ≤ 57)) = true := by
    rw [List.all_eq_true]
    intro d hm
    exact decide_eq_true ((Lexer.isDigit_iff d).mp (hd d hm))
  have hneg : ¬ c = 45 := by omega
  have hrange : -(2 ^ 63 : Int) ≤ (digitsValue (c :: cs) : Int) ∧
      (digitsValue (c :: cs) : Int) < 2 ^ 63 := by
    constructor
    · have : (0 : Int) ≤ (digitsValue (c :: cs) : Int) := Int.natCast_nonneg _
      omega
    · exact_mod_cast hv
  unfold Atoi
  have h43 : ¬ c = 43 := by omega
  simp only [hneg, h43, or_self, if_false, hall, if_true, hrange, and_self, reduceCtorEq]

theorem number_no_space {s : Str} (h : isNumberText s = true) : 32 ∉ s := by
  obtain ⟨c, cs, rfl, hd⟩ := number_digits h
  intro hm
  have := (Lexer.isDigit_iff 32).mp (hd 32 hm)
  omega

theorem ParseLoop_children (f : Nat) :
    ∀ acc p tree p2, Parser.ParseLoop f acc p = .ok tree p2 →
      ∃ others, tree = Node.mk NodeType.BLOCK [] (acc ++ others) := by
  induction f with
  | zero =>
    intro acc p tree p2 h
    cases h
  | succ f ih =>
    intro acc p tree p2 h
    rw [Parser.ParseLoop] at h
    split_ifs at h with hc
    · cases hs : Parser.parseStatement f p with
      | fuelOut => rw [hs] at h; cases h
      | error e => rw [hs] at h; cases h
      | ok stmt p1 =>
        rw [hs] at h
        dsimp only at h
        obtain ⟨others, ho⟩ := ih _ _ tree p2 h
        exact ⟨stmt :: others, by rw [ho, List.append_assoc]; rfl⟩
    · injection h with hn _
      exact ⟨[], by rw [← hn, List.append_nil]⟩

theorem condition_numbers (vars : Store) (hvars : vars.keysAreIdentifiers) (a op b : Str)
    (ha : isNumberText a = true) (hb : isNumberText b = true)
    (hav : digitsValue a < 2 ^ 63) (hbv : digitsValue b < 2 ^ 63)
    (hop : op = ascii ">" ∨ op = ascii "<" ∨ op = ascii "==") :
    evaluateCondition vars (a ++ ascii " " ++ op ++ ascii " " ++ b) = true ↔
      (op = ascii ">" ∧ digitsValue b < digitsValue a) ∨
      (op = ascii "<" ∧ digitsValue a < digitsValue b) ∨
      (op = ascii "==" ∧ digitsValue a = digitsValue b) := by
  have e : a ++ ascii " " ++ op ++ ascii " " ++ b = a ++ 32 :: (op ++ 32 :: b) := by
    have : ascii " " = [32] := by decide
    rw [this]
    simp
  have hop32 : 32 ∉ op := by
    rcases hop with rfl | rfl | rfl <;> decide
  rw [e, evaluateCondition_of_parts vars a op b (number_no_space ha) hop32 (number_no_space hb),
    (number_not_key hvars ha).2, (number_not_key hvars hb).2, Atoi_number ha hav,
    Atoi_number hb hbv]
  have d1 : ascii "<" ≠ ascii ">" := by decide
  have d2 : ascii "==" ≠ ascii ">" := by decide
  have d3 : ascii "==" ≠ ascii "<" := by decide
  rcases hop with rfl | rfl | rfl
  · simp [d1.symm, d2.symm]
  · simp [d1, d3.symm]
  · simp [d2, d3]

end Kisumu

namespace Kisumu

theorem ifLine_tokens (a op b rest : Str)
    (ha : isNumberText a = true) (hb : isNumberText b = true)
    (hop : op = ascii ">" ∨ op = ascii "<" ∨ op = ascii "==") :
    (NewParser (NewLexer (ifLine a op b rest))).current.Typ = TokenType.KEYWORD ∧
    (NewParser (NewLexer (ifLine a op b rest))).current.Literal = ascii "if" ∧
    (Parser.advance 2 (NewParser (NewLexer (ifLine a op b rest)))).current.Literal = a ∧
    (Parser.advance 3 (NewParser (NewLexer (ifLine a op b rest)))).current.Literal = op ∧
    (Parser.advance 4 (NewParser (NewLexer (ifLine a op b rest)))).current.Literal = b := by
  obtain ⟨ca, ra, rfl, hda⟩ := number_digits ha
  obtain ⟨cb, rb, rfl, hdb⟩ := number_digits hb
  have hline : ifLine (ca :: ra) op (cb :: rb) rest =
      [] ++ ((105 :: [102]) ++ (32 :: ((99 :: ascii "ase") ++ (32 :: ((ca :: ra) ++
        (32 :: (op ++ (32 :: ((cb :: rb) ++ (32 :: 123 :: rest)))))))))) := by
    have e1 : ascii "if case " = 105 :: 102 :: 32 :: (99 :: ascii "ase" ++ [32]) := by decide
    have e2 : ascii " \x7b" = [32, 123] := by decide
    rw [ifLine, e1, e2]
    simp
  have eif : (105 :: [102] : Str) = ascii "if" := by decide
  have ecase : 99 :: ascii "ase" = ascii "case" := by decide
  have etyp : Lexer.identifierType (ascii "if") = TokenType.KEYWORD := by decide
  generalize ifLine (ca :: ra) op (cb :: rb) rest = L at hline ⊢
  have h0 : Lexes L (NewLexer L)
      ([] ++ ((105 :: [102]) ++ (32 :: ((99 :: ascii "ase") ++ (32 :: ((ca :: ra) ++
        (32 :: (op ++ (32 :: ((cb :: rb) ++ (32 :: 123 :: rest))))))))))) := by
    rw [← hline]
    exact Lexes_NewLexer L
  obtain ⟨t0, l0, s0⟩ := lexes_ident h0 all_whitespace_nil (by decide) (by decide)
    (by intro d hd; simp only [List.head?_cons, Option.some.injEq] at hd; subst hd; decide)
  rw [eif] at t0 l0
  rw [etyp] at t0
  have s0' : Lexes L (NewLexer L).NextToken.2
      ([32] ++ ((99 :: ascii "ase") ++ (32 :: ((ca :: ra) ++
        (32 :: (op ++ (32 :: ((cb :: rb) ++ (32 :: 123 :: rest))))))))) := s0
  obtain ⟨_, _, s1⟩ := lexes_ident s0' all_whitespace_space (by decide) (by decide)
    (by intro d hd; simp only [List.head?_cons, Option.some.injEq] at hd; subst hd; decide)
  have s1' : Lexes L (NewLexer L).NextToken.2.NextToken.2
      ([32] ++ ((ca :: ra) ++ (32 :: (op ++ (32 :: ((cb :: rb) ++ (32 :: 123 :: rest))))))) := s1
  obtain ⟨_, l2, s2⟩ := lexes_number s1' all_whitespace_space hda
    (by intro d hd; simp only [List.head?_cons, Option.some.injEq] at hd; subst hd; decide)
  have s2' : Lexes L (NewLexer L).NextToken.2.NextToken.2.NextToken.2
      ([32] ++ (op ++ (32 :: ((cb :: rb) ++ (32 :: 123 :: rest))))) := s2
  obtain ⟨_, l3, s3⟩ := lexes_comparison s2' hop
  have s3' : Lexes L (NewLexer L).NextToken.2.NextToken.2.NextToken.2.NextToken.2
      ([32] ++ ((cb :: rb) ++ (32 :: 123 :: rest))) := s3
  obtain ⟨_, l4, _⟩ := lexes_number s3' all_whitespace_space hdb
    (by intro d hd; simp only [List.head?_cons, Option.some.injEq] at hd; subst hd; decide)
  refine ⟨?_, ?_, ?_, ?_, ?_⟩
  · simp only [NewParser_current]
    exact t0
  · simp only [NewParser_current]
    exact l0
  · simp only [Parser.advance, Parser.nextToken_current, Parser.nextToken_lexer, NewParser_lexer]
    exact l2
  · simp only [Parser.advance, Parser.nextToken_current, Parser.nextToken_lexer, NewParser_lexer]
    exact l3
  · simp only [Parser.advance, Parser.nextToken_current, Parser.nextToken_lexer, NewParser_lexer]
    exact l4

end Kisumu

namespace Kisumu

theorem InterpretChildren_cons_output (vars : Store) (c : Node) (cs : List Node) :
    ∃ more, (InterpretChildren vars (c :: cs)).output = (Interpret vars c).output ++ more := by
  rw [InterpretChildren]
  dsimp only
  cases (Interpret vars c).err with
  | some e => exact ⟨[], (List.append_nil _).symm⟩
  | none => exact ⟨_, rfl⟩

theorem Interpret_If_true (vars : Store) (c : Str) (b : Node)
    (h : evaluateCondition vars c = true) :
    (Interpret vars (Node.mk NodeType.IF (ascii "if " ++ c) [b])).err = (Interpret vars b).err ∧
    (Interpret vars (Node.mk NodeType.IF (ascii "if " ++ c) [b])).vars = (Interpret vars b).vars ∧
    (Interpret vars (Node.mk NodeType.IF (ascii "if " ++ c) [b])).output
      = Event.IfTrue c :: (Interpret vars b).output := by
  simp [Interpret, TrimPrefix_append, h, InterpretChildren_single]

theorem Interpret_If_false (vars : Store) (c : Str) (b : Node)
    (h : evaluateCondition vars c = false) :
    Interpret vars (Node.mk NodeType.IF (ascii "if " ++ c) [b])
      = { err := none, vars := vars, output := [Event.IfFalse c] } := by
  simp [Interpret, TrimPrefix_append, h]

theorem ifLine_parse (a op b rest : Str) (tree : Node) (p : Parser)
    (ha : isNumberText a = true) (hb : isNumberText b = true)
    (hop : op = ascii ">" ∨ op = ascii "<" ∨ op = ascii "==")
    (hparse : (NewParser (NewLexer (ifLine a op b rest))).Parse = .ok tree p) :
    ∃ body others,
      tree = Node.mk NodeType.BLOCK []
        (Node.mk NodeType.IF (ascii "if " ++ (a ++ ascii " " ++ op ++ ascii " " ++ b)) [body]
          :: others) ∧
      ∃ f p5, Parser.parseBlockLoop f []
          (Parser.advance 6 (NewParser (NewLexer (ifLine a op b rest)))) = .ok body p5 ∧
        p5.current.Literal = ascii "\x7d" := by
  obtain ⟨hkw, hlit, l2, l3, l4⟩ := ifLine_tokens a op b rest ha hb hop
  generalize ifLine a op b rest = L at hkw hlit l2 l3 l4 hparse ⊢
  have hcur : (NewParser (NewLexer L)).current.Typ ≠ TokenType.EOF := by
    rw [hkw]
    decide
  unfold Parser.Parse at hparse
  generalize (NewParser (NewLexer L)).lexer.input.length = n at hparse
  rw [Parser.ParseLoop, if_pos hcur] at hparse
  cases hs : Parser.parseStatement (n + 1) (NewParser (NewLexer L)) with
  | fuelOut => rw [hs] at hparse; cases hparse
  | error e => rw [hs] at hparse; cases hparse
  | ok stmt p1 =>
    rw [hs] at hparse
    dsimp only at hparse
    obtain ⟨others, ho⟩ := ParseLoop_children _ _ _ tree p hparse
    obtain ⟨_, hcase⟩ := (Parser.parseStatement_eq_ok n _ stmt p1).mp hs
    rcases hcase with ⟨hl, _⟩ | ⟨hl, _⟩ | ⟨_, hp⟩ | ⟨hl, _⟩
    · rw [hlit] at hl
      exact absurd hl (by decide)
    · rw [hlit] at hl
      exact absurd hl (by decide)
    · obtain ⟨_, _, _, body, p5, hb5, hclose, hnode, _⟩ := (Parser.parseIf_eq_ok _ _ _ _).mp hp
      rw [l2, l3, l4] at hnode
      refine ⟨body, others, ?_, n, p5, hb5, hclose⟩
      rw [ho, hnode]
      rfl
    · rw [hlit] at hl
      exact absurd hl (by decide)

end Kisumu

namespace Kisumu

/-- C19: let the store be any store the loop of `repl` reaches from the empty
store, `a` and `b` the texts of two Number tokens whose values are below
`2 ^ 63`, and `op` one of `>`, `<`, `==`. When the line `if case a op b {`
followed by any `rest` parses, the tree is a Block whose first child is the If
node with literal `if a op b` and one child `body`, the block parsed from the
tokens after the opening brace. When the natural numbers denoted by `a` and `b`
satisfy `a op b`, interpreting the If node runs `body`: the result and the store
are those of `body`, and the output of the line starts with the true diagnostic
followed by the events of `body`. When they do not, `body` is not run: the
If node succeeds, keeps the store and writes only the false diagnostic, with
which the output of the line starts. -/
theorem if_numbers_branch (lines : List Str) (a op b rest : Str) (tree : Node) (p : Parser)
    (ha : isNumberText a = true) (hb : isNumberText b = true)
    (hav : digitsValue a < 2 ^ 63) (hbv : digitsValue b < 2 ^ 63)
    (hop : op = ascii ">" ∨ op = ascii "<" ∨ op = ascii "==")
    (hparse : (NewParser (NewLexer (ifLine a op b rest))).Parse = .ok tree p) :
    ∃ body others,
      tree = Node.mk NodeType.BLOCK []
        (Node.mk NodeType.IF (ascii "if " ++ (a ++ ascii " " ++ op ++ ascii " " ++ b)) [body]
          :: others) ∧
      (∃ f p5, Parser.parseBlockLoop f []
          (Parser.advance 6 (NewParser (NewLexer (ifLine a op b rest)))) = .ok body p5 ∧
        p5.current.Literal = ascii "\x7d") ∧
      (((op = ascii ">" ∧ digitsValue b < digitsValue a) ∨
        (op = ascii "<" ∧ digitsValue a < digitsValue b) ∨
        (op = ascii "==" ∧ digitsValue a = digitsValue b)) →
        (Interpret (replStore emptyStore lines) (Node.mk NodeType.IF
            (ascii "if " ++ (a ++ ascii " " ++ op ++ ascii " " ++ b)) [body])).err
          = (Interpret (replStore emptyStore lines) body).err ∧
        (Interpret (replStore emptyStore lines) (Node.mk NodeType.IF
            (ascii "if " ++ (a ++ ascii " " ++ op ++ ascii " " ++ b)) [body])).vars
          = (Interpret (replStore emptyStore lines) body).vars ∧
        (Interpret (replStore emptyStore lines) (Node.mk NodeType.IF
            (ascii "if " ++ (a ++ ascii " " ++ op ++ ascii " " ++ b)) [body])).output
          = Event.IfTrue (a ++ ascii " " ++ op ++ ascii " " ++ b)
              :: (Interpret (replStore emptyStore lines) body).output ∧
        ∃ more, (runLine (replStore emptyStore lines) (ifLine a op b rest)).output
          = Event.IfTrue (a ++ ascii " " ++ op ++ ascii " " ++ b)
              :: ((Interpret (replStore emptyStore lines) body).output ++ more)) ∧
      (¬ ((op = ascii ">" ∧ digitsValue b < digitsValue a) ∨
        (op = ascii "<" ∧ digitsValue a < digitsValue b) ∨
        (op = ascii "==" ∧ digitsValue a = digitsValue b)) →
        Interpret (replStore emptyStore lines) (Node.mk NodeType.IF
            (ascii "if " ++ (a ++ ascii " " ++ op ++ ascii " " ++ b)) [body])
          = { err := none, vars := replStore emptyStore lines,
              output := [Event.IfFalse (a ++ ascii " " ++ op ++ ascii " " ++ b)] } ∧
        ∃ more, (runLine (replStore emptyStore lines) (ifLine a op b rest)).output
          = Event.IfFalse (a ++ ascii " " ++ op ++ ascii " " ++ b) :: more) := by
  obtain ⟨body, others, ht, hbody⟩ := ifLine_parse a op b rest tree p ha hb hop hparse
  have hcond := condition_numbers (replStore emptyStore lines)
    (replStore_keys lines emptyStore emptyStore_keys) a op b ha hb hav hbv hop
  generalize replStore emptyStore lines = vars at hcond ⊢
  generalize ifLine a op b rest = L at hparse hbody ⊢
  generalize a ++ ascii " " ++ op ++ ascii " " ++ b = c at ht hcond ⊢
  have hrun : runLine vars L = LineResult.ran (Interpret vars tree) := by
    simp only [runLine, hparse]
  have hout : ∃ more, (runLine vars L).output
      = (Interpret vars (Node.mk NodeType.IF (ascii "if " ++ c) [body])).output ++ more := by
    rw [hrun, ht]
    show ∃ more, (Interpret vars _).output = _
    rw [Interpret]
    exact InterpretChildren_cons_output vars _ others
  obtain ⟨more, hmore⟩ := hout
  refine ⟨body, others, ht, hbody, fun h => ?_, fun h => ?_⟩
  · obtain ⟨h1, h2, h3⟩ := Interpret_If_true vars c body (hcond.mpr h)
    refine ⟨h1, h2, h3, more, ?_⟩
    rw [hmore, h3]
    rfl
  · have hf : evaluateCondition vars c = false := by
      cases hc : evaluateCondition vars c with
      | false => rfl
      | true => exact absurd (hcond.mp hc) h
    have h1 := Interpret_If_false vars c body hf
    refine ⟨h1, more, ?_⟩
    rw [hmore, h1]
    rfl

/-- C19, witness: after the line `declare x = 5`, the line
`if case 3 > 2 { displayln(x) }`. -/
theorem if_numbers_branch_witness :
    isNumberText (ascii "3") = true ∧ isNumberText (ascii "2") = true ∧
    digitsValue (ascii "3") < 2 ^ 63 ∧ digitsValue (ascii "2") < 2 ^ 63 ∧
    ∃ body others,
      (Node.mk NodeType.BLOCK [] [Node.mk NodeType.IF (ascii "if 3 > 2")
        [Node.mk NodeType.BLOCK [] [Node.mk NodeType.PRINT (ascii "print x") []]]]) = Node.mk NodeType.BLOCK []
        (Node.mk NodeType.IF
            (ascii "if " ++ ((ascii "3") ++ ascii " " ++ (ascii ">") ++ ascii " " ++ (ascii "2"))) [body]
          :: others) ∧
      (∃ f p5, Parser.parseBlockLoop f []
          (Parser.advance 6 (NewParser (NewLexer
              (ifLine (ascii "3") (ascii ">") (ascii "2") (ascii " displayln(x) \x7d"))))) = .ok body p5 ∧
        p5.current.Literal = ascii "\x7d") ∧
      ((((ascii ">") = ascii ">" ∧ digitsValue (ascii "2") < digitsValue (ascii "3")) ∨
        ((ascii ">") = ascii "<" ∧ digitsValue (ascii "3") < digitsValue (ascii "2")) ∨
        ((ascii ">") = ascii "==" ∧ digitsValue (ascii "3") = digitsValue (ascii "2"))) →
        (Interpret (replStore emptyStore [ascii "declare x = 5"]) (Node.mk NodeType.IF
            (ascii "if " ++ ((ascii "3") ++ ascii " " ++ (ascii ">") ++ ascii " " ++ (ascii "2"))) [body])).err
          = (Interpret (replStore emptyStore [ascii "declare x = 5"]) body).err ∧
        (Interpret (replStore emptyStore [ascii "declare x = 5"]) (Node.mk NodeType.IF
            (ascii "if " ++ ((ascii "3") ++ ascii " " ++ (ascii ">") ++ ascii " " ++ (ascii "2"))) [body])).vars
          = (Interpret (replStore emptyStore [ascii "declare x = 5"]) body).vars ∧
        (Interpret (replStore emptyStore [ascii "declare x = 5"]) (Node.mk NodeType.IF
            (ascii "if " ++ ((ascii "3") ++ ascii " " ++ (ascii ">") ++ ascii " " ++ (ascii "2"))) [body])).output
          = Event.IfTrue ((ascii "3") ++ ascii " " ++ (ascii ">") ++ ascii " " ++ (ascii "2"))
              :: (Interpret (replStore emptyStore [ascii "declare x = 5"]) body).output ∧
        ∃ more, (runLine (replStore emptyStore [ascii "declare x = 5"])
            (ifLine (ascii "3") (ascii ">") (ascii "2") (ascii " displayln(x) \x7d"))).output
          = Event.IfTrue ((ascii "3") ++ ascii " " ++ (ascii ">") ++ ascii " " ++ (ascii "2"))
              :: ((Interpret (replStore emptyStore [ascii "declare x = 5"]) body).output ++ more)) ∧
      (¬ (((ascii ">") = ascii ">" ∧ digitsValue (ascii "2") < digitsValue (ascii "3")) ∨
        ((ascii ">") = ascii "<" ∧ digitsValue (ascii "3") < digitsValue (ascii "2")) ∨
        ((ascii ">") = ascii "==" ∧ digitsValue (ascii "3") = digitsValue (ascii "2"))) →
        Interpret (replStore emptyStore [ascii "declare x = 5"]) (Node.mk NodeType.IF
            (ascii "if " ++ ((ascii "3") ++ ascii " " ++ (ascii ">") ++ ascii " " ++ (ascii "2"))) [body])
          = { err := none, vars := replStore emptyStore [ascii "declare x = 5"],
              output := [Event.IfFalse ((ascii "3") ++ ascii " " ++ (ascii ">") ++ ascii " " ++ (ascii "2"))] } ∧
        ∃ more, (runLine (replStore emptyStore [ascii "declare x = 5"])
            (ifLine (ascii "3") (ascii ">") (ascii "2") (ascii " displayln(x) \x7d"))).output
          = Event.IfFalse ((ascii "3") ++ ascii " " ++ (ascii ">") ++ ascii " " ++ (ascii "2")) :: more) :=
  ⟨by decide, by decide, by decide, by decide,
   if_numbers_branch [ascii "declare x = 5"] (ascii "3") (ascii ">") (ascii "2")
     (ascii " displayln(x) \x7d") _ _ (by decide) (by decide) (by decide) (by decide)
     (Or.inl rfl) rfl⟩

end Kisumu
